import Mathlib

/-!
QtScxml: state-machine engine, meta-object generator and QML children lists

A shallow embedding of three parts of QtScxml.

* `Scxml`: the run-time behaviour of a state machine (configuration, microstep,
  run-to-completion driver, state-activity notifications).
* `Generator`: the meta-object table generator of `tools/qscxmlc/generator.cpp`
  (string registration, table layout, string literals, meta-type array, enum tables,
  signal indices, extra list, string data arrays).
* `StateMachineQml`: the children lists of `statemachineqml/childrenprivate_p.h`.

Definitions come first, theorems follow.
-/

namespace Scxml

/-- Modelled from the spec: kind tag of a chart state (spec section 3): a closed variant. -/
inductive StateKind where
  | atomic
  | compound
  | parallel
  | final
  | historyShallow
  | historyDeep
deriving DecidableEq, Repr

/-- Modelled from the spec: a node of the chart model (section 3), stored in an arena in
document order; `parent`, `initial` and `historyDefault` are arena indices, entry and exit
actions are ids handed to the action executor. Stands for the state table of the engine,
whose sources are not at hand. -/
structure State where
  id : String
  kind : StateKind
  parent : Option Nat
  initial : Option Nat
  historyDefault : Option Nat
  onEntry : List Nat
  onExit : List Nat

/-- Modelled from the spec: a transition (section 3). A trigger pairs an event descriptor
(`none` for an eventless trigger) with a guard id (`none` for no guard); the position of the
transition in `Chart.transitions` is its document-order rank. Stands for the transition
table of the engine, whose sources are not at hand. -/
structure Transition where
  source : Nat
  triggers : List (Option String × Option Nat)
  targets : List Nat
  actions : List Nat

/-- Modelled from the spec: the immutable chart model, an arena of states indexed by integer
id (section 9) together with the transitions in document order. The engine reads it from its
state table; the engine sources are not at hand. -/
structure Chart where
  states : List State
  transitions : List Transition

/-- Modelled from the spec: origin of an event (section 3). -/
inductive Origin where
  | internal
  | external
deriving DecidableEq, Repr

/-- Modelled from the spec: an event (section 3), a name, an opaque payload and an origin.
-/
structure Event where
  name : String
  payload : Nat
  origin : Origin
deriving DecidableEq, Repr

/-- Modelled from the spec: the injected condition evaluator and action executor (section 6)
over an opaque host context `σ`. `evaluate` answers `none` on a fault; `execute` returns the
new host context and either `none` (fault) or the events the action submitted. -/
structure Host (σ : Type) where
  evaluate : σ → Nat → Option Event → List Nat → Option Bool
  execute : σ → Nat → Option Event → List Nat → σ × Option (List Event)

def Chart.size (c : Chart) : Nat := c.states.length

def Chart.kindOf (c : Chart) (s : Nat) : Option StateKind := (c.states[s]?).map State.kind

def Chart.parentOf (c : Chart) (s : Nat) : Option Nat := (c.states[s]?).bind State.parent

def Chart.initialOf (c : Chart) (s : Nat) : Option Nat := (c.states[s]?).bind State.initial

def Chart.historyDefaultOf (c : Chart) (s : Nat) : Option Nat :=
  (c.states[s]?).bind State.historyDefault

def Chart.isHistory (c : Chart) (s : Nat) : Bool :=
  c.kindOf s == some StateKind.historyShallow || c.kindOf s == some StateKind.historyDeep

/-- Modelled from the spec: child states of `s` in document order. History pseudostates are
never members of a configuration and are not counted among the child states. -/
def Chart.children (c : Chart) (s : Nat) : List Nat :=
  (List.range c.size).filter (fun i => c.parentOf i == some s && !c.isHistory i)

/-- Modelled from the spec: proper ancestors of `s`, nearest first. In document order a
parent precedes its children, so the walk only follows parent links to smaller indices. -/
def Chart.ancestorsAux (c : Chart) : Nat → Nat → List Nat
  | 0, _ => []
  | fuel + 1, s =>
    match c.parentOf s with
    | some p => if p < s then p :: c.ancestorsAux fuel p else []
    | none => []

def Chart.ancestors (c : Chart) (s : Nat) : List Nat := c.ancestorsAux (s + 1) s

/-- True when `d` is a proper descendant of `a`. -/
def Chart.isDescendant (c : Chart) (d a : Nat) : Bool := (c.ancestors d).contains a

def Chart.depth (c : Chart) (s : Nat) : Nat := (c.ancestors s).length

/-- Modelled from the spec: validation the chart builder is responsible for (section 6):
state 0 is the one root, every other state has exactly one parent that precedes it and is
compound or parallel, and every compound state has an initial child among its child states.
-/
def Chart.wellFormed (c : Chart) : Bool :=
  (match c.states[0]? with
   | some r => r.parent == none && r.kind != StateKind.historyShallow
       && r.kind != StateKind.historyDeep
   | none => false) &&
  (List.range c.size).all (fun s =>
    (s == 0 || (match c.parentOf s with
      | some p => decide (p < s) &&
          (c.kindOf p == some StateKind.compound || c.kindOf p == some StateKind.parallel)
      | none => false)) &&
    (c.kindOf s != some StateKind.compound || (match c.initialOf s with
      | some i => (c.children s).contains i
      | none => false)))

/-- Modelled from the spec: history records (section 3): the mapping from a history-state id
to the state ids to restore; created empty. -/
abbrev History := Nat → List Nat

def recordOf (hist : History) (h : Nat) : List Nat := hist h

/-- Modelled from the spec: first child state of `s` (document order) that is a target or
contains one. -/
def Chart.childToward (c : Chart) (targets : List Nat) (s : Nat) : Option Nat :=
  (c.children s).find? (fun ch => targets.any (fun t => t == ch || c.isDescendant t ch))

/-- Modelled from the spec: first target that is a history pseudostate of `s`. -/
def Chart.historyTarget (c : Chart) (targets : List Nat) (s : Nat) : Option Nat :=
  targets.find? (fun t => c.isHistory t && c.parentOf t == some s)

/-- Modelled from the spec: History lookup for a deep history target of `s`: the recorded
descendants of `s`, when no plain target lies below `s` and the record is not empty. -/
def Chart.deepRestore (c : Chart) (hist : History) (targets : List Nat) (s : Nat) :
    Option (List Nat) :=
  match c.childToward targets s, c.historyTarget targets s with
  | none, some h =>
    if c.kindOf h == some StateKind.historyDeep && !(recordOf hist h).isEmpty then
      some (recordOf hist h)
    else none
  | _, _ => none

/-- Modelled from the spec: targets in force below `s`: a history target of `s` whose record
is still empty stands for its default history target. -/
def Chart.goalsAt (c : Chart) (hist : History) (targets : List Nat) (s : Nat) : List Nat :=
  match c.historyTarget targets s with
  | some h =>
    if (recordOf hist h).isEmpty then (c.historyDefaultOf h).toList ++ targets else targets
  | none => targets

/-- Modelled from the spec: child states of `s` entered together with `s`: for a compound
state the child on the way to a target, else the children recorded by a shallow history
target, else the initial child; for a parallel state all child states. -/
def Chart.chosenChildren (c : Chart) (hist : History) (targets : List Nat) (s : Nat) :
    List Nat :=
  match c.kindOf s with
  | some StateKind.compound =>
    match c.childToward (c.goalsAt hist targets s) s with
    | some ch => [ch]
    | none =>
      match c.historyTarget targets s with
      | some h =>
        if c.kindOf h == some StateKind.historyShallow && !(recordOf hist h).isEmpty then
          recordOf hist h
        else (c.initialOf s).toList
      | none => (c.initialOf s).toList
  | some StateKind.parallel => c.children s
  | _ => []

/-- Modelled from the spec: required descendants of an entered state `s` (section 4.2): the
states on the way to the targets and, below them, the descendants reached through
initial-child links or history lookup, down to atomic and final states; shallowest first
within each branch. The entry-set code of the engine is not among the sources at hand. -/
def Chart.descend (c : Chart) (hist : History) : Nat → List Nat → Nat → List Nat
  | 0, _, _ => []
  | fuel + 1, targets, s =>
    match c.deepRestore hist targets s with
    | some r => r
    | none =>
      (c.chosenChildren hist targets s).flatMap
        (fun ch => ch :: c.descend hist fuel (c.goalsAt hist targets s) ch)

/-- Modelled from the spec: an event descriptor matches an event name when it equals the
name or is a leading part of the hierarchical name that ends at a dot. -/
def eventMatches (descriptor name : String) : Bool :=
  descriptor == name || (descriptor.data ++ ['.']).isPrefixOf name.data

/-- Modelled from the spec: a trigger can be tried on the current pass: eventless triggers
on the eventless pass, matching descriptors on an event. -/
def triggerMatches (ev : Option Event) (descriptor : Option String) : Bool :=
  match ev, descriptor with
  | none, none => true
  | some e, some d => eventMatches d e.name
  | _, _ => false

/-- Modelled from the spec: guard evaluation through the injected evaluator; a fault counts
as false. -/
def guardHolds {σ : Type} (h : Host σ) (hs : σ) (cfg : List Nat) (ev : Option Event) :
    Option Nat → Bool
  | none => true
  | some g => h.evaluate hs g ev cfg == some true

def Transition.enabled {σ : Type} (h : Host σ) (hs : σ) (cfg : List Nat) (ev : Option Event)
    (t : Transition) : Bool :=
  t.triggers.any (fun tr => triggerMatches ev tr.1 && guardHolds h hs cfg ev tr.2)

/-- Modelled from the spec: guards of matching triggers of active states whose evaluation
faulted. -/
def Chart.guardFaults {σ : Type} (c : Chart) (h : Host σ) (hs : σ) (cfg : List Nat)
    (ev : Option Event) : List Nat :=
  c.transitions.flatMap (fun t =>
    if cfg.contains t.source then
      t.triggers.filterMap (fun tr =>
        match tr.2 with
        | some g =>
          if triggerMatches ev tr.1 && (h.evaluate hs g ev cfg).isNone then some g else none
        | none => none)
    else [])

/-- Modelled from the spec: exit scope of a transition: the least common proper ancestor of
its source and all its targets (every proper ancestor is a compound or parallel state); a
transition with no target has none. -/
def Chart.scopeOf (c : Chart) (t : Transition) : Option Nat :=
  if t.targets.isEmpty then none
  else (c.ancestors t.source).find? (fun a => t.targets.all (fun x => c.isDescendant x a))

/-- Modelled from the spec: state `s` lies in the exit scope of `t`. -/
def Chart.exits (c : Chart) (t : Transition) (s : Nat) : Bool :=
  match c.scopeOf t with
  | some x => c.isDescendant s x
  | none => false

/-- Modelled from the spec: full exit set of one transition: every active descendant of its
exit scope. -/
def Chart.exitSetOf (c : Chart) (cfg : List Nat) (t : Transition) : List Nat :=
  cfg.filter (c.exits t)

/-- Modelled from the spec: two transitions conflict when their exit sets intersect. -/
def Chart.conflict (c : Chart) (cfg : List Nat) (t1 t2 : Transition) : Bool :=
  (c.exitSetOf cfg t1).any (c.exits t2)

/-- Modelled from the spec: conflict priority: the source closer to the root first, then
document order of the source states. -/
def Chart.outranks (c : Chart) (t1 t2 : Transition) : Bool :=
  decide (c.depth t1.source < c.depth t2.source) ||
    (c.depth t1.source == c.depth t2.source && decide (t1.source ≤ t2.source))

/-- Modelled from the spec: steps 1 and 2 of the selector: for every active state in
document order, its first enabled transition, paired with the document-order rank of the
transition. -/
def Chart.candidates {σ : Type} (c : Chart) (h : Host σ) (hs : σ) (cfg : List Nat)
    (ev : Option Event) : List (Nat × Transition) :=
  cfg.filterMap (fun s =>
    c.transitions.enum.find? (fun it => it.2.source == s && it.2.enabled h hs cfg ev))

/-- Modelled from the spec: step 3 of the selector: going through the candidates by
priority, a candidate is discarded when it conflicts with one already kept. -/
def Chart.resolveConflicts (c : Chart) (cfg : List Nat) :
    List (Nat × Transition) → List (Nat × Transition) → List (Nat × Transition)
  | kept, [] => kept
  | kept, x :: rest =>
    if kept.any (fun k => c.conflict cfg k.2 x.2) then c.resolveConflicts cfg kept rest
    else c.resolveConflicts cfg (kept ++ [x]) rest

/-- Modelled from the spec: transition selector (section 4.1); the result is in document
order of the transitions. The selection code of the engine is not among the sources at hand.
-/
def Chart.select {σ : Type} (c : Chart) (h : Host σ) (hs : σ) (cfg : List Nat)
    (ev : Option Event) : List (Nat × Transition) :=
  (c.resolveConflicts cfg []
    ((c.candidates h hs cfg ev).insertionSort (fun a b => c.outranks a.2 b.2 = true))).insertionSort
    (fun a b => a.1 ≤ b.1)

/-- Modelled from the spec: what the engine and its observers can see of its work: executed
actions with the executor's verdict (`ok = false` is a reported action fault), reported
guard faults, and the configuration-changed notification of a settled microstep. -/
inductive LogItem where
  | exitAction (state action : Nat) (ok : Bool)
  | transitionAction (rank action : Nat) (ok : Bool)
  | entryAction (state action : Nat) (ok : Bool)
  | guardFault (guard : Nat)
  | changed (entered exited : List Nat)
deriving DecidableEq, Repr

/-- Modelled from the spec: states of the macrostep driver (section 4.3). -/
inductive Phase where
  | idle
  | stabilizing
  | awaitingExternal
  | final
deriving DecidableEq, Repr

/-- Modelled from the spec: API misuse reported to the caller; no state is mutated. -/
inductive Fault where
  | alreadyRunning
  | notRunning
deriving DecidableEq, Repr

/-- Modelled from the spec: one running chart instance (sections 2 and 3), the macrostep
driver state, the configuration tracker, the history records, both event queues, the
observable log and the host context. Stands for the private state of `QScxmlStateMachine`,
whose sources are not at hand. -/
structure Engine (σ : Type) where
  phase : Phase
  config : List Nat
  history : History
  internalQ : List Event
  externalQ : List Event
  log : List LogItem
  host : σ

/-- Modelled from the spec: host context, log and submitted events threaded through action
execution. -/
structure Effects (σ : Type) where
  host : σ
  log : List LogItem
  raised : List Event

/-- Modelled from the spec: runs actions in order through the executor; a fault is logged
and execution goes on. -/
def runActions {σ : Type} (h : Host σ) (ev : Option Event) (cfg : List Nat)
    (mk : Nat → Bool → LogItem) : List Nat → Effects σ → Effects σ
  | [], fx => fx
  | a :: rest, fx =>
    let r := h.execute fx.host a ev cfg
    runActions h ev cfg mk rest
      { host := r.1, log := fx.log ++ [mk a r.2.isSome], raised := fx.raised ++ r.2.getD [] }

def Chart.onExitOf (c : Chart) (s : Nat) : List Nat :=
  match c.states[s]? with
  | some st => st.onExit
  | none => []

def Chart.onEntryOf (c : Chart) (s : Nat) : List Nat :=
  match c.states[s]? with
  | some st => st.onEntry
  | none => []

/-- Modelled from the spec: exit order: deepest first. -/
def Chart.exitOrder (c : Chart) (l : List Nat) : List Nat :=
  l.reverse.insertionSort (fun a b => c.depth b ≤ c.depth a)

/-- Modelled from the spec: entry order: shallowest first. -/
def Chart.entryOrder (c : Chart) (l : List Nat) : List Nat :=
  l.insertionSort (fun a b => c.depth a ≤ c.depth b)

def Chart.runExits {σ : Type} (c : Chart) (h : Host σ) (ev : Option Event) (cfg : List Nat)
    (order : List Nat) (fx : Effects σ) : Effects σ :=
  order.foldl (fun fx s => runActions h ev cfg (LogItem.exitAction s) (c.onExitOf s) fx) fx

def Chart.runEntries {σ : Type} (c : Chart) (h : Host σ) (ev : Option Event) (cfg : List Nat)
    (order : List Nat) (fx : Effects σ) : Effects σ :=
  order.foldl (fun fx s => runActions h ev cfg (LogItem.entryAction s) (c.onEntryOf s) fx) fx

/-- Modelled from the spec: History recording while exiting: every history state whose
parent is exited records the active child states of the parent (shallow) or all its active
descendants (deep). The history code of the engine is not among the sources at hand. -/
def Chart.recordHistory (c : Chart) (cfg exitSet : List Nat) (hist : History) : History :=
  fun h =>
    match c.kindOf h, c.parentOf h with
    | some StateKind.historyShallow, some p =>
      if exitSet.contains p then cfg.filter (fun s => (c.children p).contains s) else hist h
    | some StateKind.historyDeep, some p =>
      if exitSet.contains p then cfg.filter (fun s => c.isDescendant s p) else hist h
    | _, _ => hist h

/-- Modelled from the spec: full entry set of a transition set: below each exit scope, the
states on the way to the targets and their required descendants. -/
def Chart.entrySet (c : Chart) (hist : History) (sel : List (Nat × Transition)) : List Nat :=
  sel.flatMap (fun it =>
    match c.scopeOf it.2 with
    | some x => c.descend hist c.size it.2.targets x
    | none => [])

def asInternal (ev : Event) : Event := { ev with origin := Origin.internal }

/-- Modelled from the spec: microstep executor (section 4.2): exit actions deepest first
with history recording, transition actions in document order, entry actions shallowest
first, then the configuration becomes (previous − exit set) ∪ entry set and the change is
notified. The microstep code of the engine is not among the sources at hand. -/
def Chart.microstep {σ : Type} (c : Chart) (h : Host σ) (e : Engine σ) (ev : Option Event)
    (sel : List (Nat × Transition)) : Engine σ :=
  let exitSet := e.config.filter (fun s => sel.any (fun it => c.exits it.2 s))
  let hist := c.recordHistory e.config exitSet e.history
  let fx1 := c.runExits h ev e.config (c.exitOrder exitSet)
    { host := e.host, log := e.log, raised := [] }
  let fx2 := sel.foldl
    (fun fx it => runActions h ev e.config (LogItem.transitionAction it.1) it.2.actions fx) fx1
  let entrySet := c.entrySet hist sel
  let entered := (List.range c.size).filter (fun s => entrySet.contains s)
  let fx3 := c.runEntries h ev e.config (c.entryOrder entered) fx2
  { phase := e.phase
    config := (List.range c.size).filter
      (fun s => (e.config.contains s && !exitSet.contains s) || entrySet.contains s)
    history := hist
    internalQ := e.internalQ ++ fx3.raised.map asInternal
    externalQ := e.externalQ
    log := fx3.log ++ [LogItem.changed entered (c.exitOrder exitSet)]
    host := fx3.host }

/-- Modelled from the spec: the root's active descendants are all final states. -/
def Chart.isFinalConfig (c : Chart) (cfg : List Nat) : Bool :=
  cfg.any (fun s => s != 0) && cfg.all (fun s => s == 0 || c.kindOf s == some StateKind.final)

def Chart.settle {σ : Type} (c : Chart) (e : Engine σ) : Engine σ :=
  if c.isFinalConfig e.config then { e with phase := Phase.final } else e

/-- Modelled from the spec: feeds one event (or the eventless pass) through the selector
and, when a transition is enabled, one microstep; an event that enables nothing is dropped.
-/
def Chart.fire {σ : Type} (c : Chart) (h : Host σ) (e : Engine σ) (ev : Option Event) :
    Engine σ :=
  let sel := c.select h e.host e.config ev
  let e1 := { e with log := e.log ++ (c.guardFaults h e.host e.config ev).map LogItem.guardFault }
  if sel.isEmpty then e1 else c.settle (c.microstep h e1 ev sel)

def Engine.init {σ : Type} (hs : σ) : Engine σ :=
  { phase := Phase.idle, config := [], history := fun _ => [], internalQ := [], externalQ := [],
    log := [], host := hs }

/-- Modelled from the spec: facade operation `start` (sections 4.3, 4.4): enters the initial
configuration as if by one microstep; fails when a run is in progress. Stands for
`QScxmlStateMachine::start`, which is not among the sources at hand. -/
def Chart.start {σ : Type} (c : Chart) (h : Host σ) (e : Engine σ) : Except Fault (Engine σ) :=
  if e.phase != Phase.idle then Except.error Fault.alreadyRunning
  else
    let entrySet := 0 :: c.descend e.history c.size [] 0
    let entered := (List.range c.size).filter (fun s => entrySet.contains s)
    let fx := c.runEntries h none [] (c.entryOrder entered)
      { host := e.host, log := e.log, raised := [] }
    Except.ok (c.settle
      { phase := Phase.stabilizing
        config := entered
        history := e.history
        internalQ := e.internalQ ++ fx.raised.map asInternal
        externalQ := e.externalQ
        log := fx.log ++ [LogItem.changed entered []]
        host := fx.host })

/-- Modelled from the spec: facade operation `submitEvent`: always queued on the queue of
its origin; a no-op once the run is final. Stands for `QScxmlStateMachine::submitEvent`,
which is not among the sources at hand. -/
def submitEvent {σ : Type} (e : Engine σ) (ev : Event) : Engine σ :=
  match e.phase with
  | Phase.final => e
  | _ =>
    match ev.origin with
    | Origin.internal => { e with internalQ := e.internalQ ++ [ev] }
    | Origin.external => { e with externalQ := e.externalQ ++ [ev] }

/-- Modelled from the spec: facade operation `stop`: exits all active states, running their
exit actions, and returns to idle. Stands for `QScxmlStateMachine::stop`, which is not among
the sources at hand. -/
def Chart.stop {σ : Type} (c : Chart) (h : Host σ) (e : Engine σ) : Except Fault (Engine σ) :=
  if e.phase == Phase.idle then Except.error Fault.notRunning
  else
    let fx := c.runExits h none e.config (c.exitOrder e.config)
      { host := e.host, log := e.log, raised := [] }
    Except.ok
      { phase := Phase.idle
        config := []
        history := e.history
        internalQ := e.internalQ ++ fx.raised.map asInternal
        externalQ := e.externalQ
        log := fx.log ++ [LogItem.changed [] (c.exitOrder e.config)]
        host := fx.host }

/-- Modelled from the spec: one turn of the macrostep driver (section 4.3). While
stabilizing it fires the eventless pass, else the head of the internal queue, else becomes
ready for an external event; an external event is only dequeued when no internal work
remains. The driver loop of the engine is not among the sources at hand. -/
def Chart.step {σ : Type} (c : Chart) (h : Host σ) (e : Engine σ) : Engine σ :=
  match e.phase with
  | Phase.idle => e
  | Phase.final => e
  | Phase.stabilizing =>
    if !(c.select h e.host e.config none).isEmpty then c.fire h e none
    else
      match e.internalQ with
      | ev :: rest => c.fire h { e with internalQ := rest } (some ev)
      | [] => { e with phase := Phase.awaitingExternal }
  | Phase.awaitingExternal =>
    if !e.internalQ.isEmpty then { e with phase := Phase.stabilizing }
    else
      match e.externalQ with
      | ev :: rest => c.fire h { e with externalQ := rest, phase := Phase.stabilizing } (some ev)
      | [] => e

/-- Modelled from the spec: the operations an external collaborator can perform on the
facade, plus a turn of the driver. -/
inductive Op where
  | start
  | submit (ev : Event)
  | step
  | stop

def Chart.apply {σ : Type} (c : Chart) (h : Host σ) (e : Engine σ) : Op → Engine σ
  | Op.start =>
    match c.start h e with
    | Except.ok e1 => e1
    | Except.error _ => e
  | Op.submit ev => submitEvent e ev
  | Op.step => c.step h e
  | Op.stop =>
    match c.stop h e with
    | Except.ok e1 => e1
    | Except.error _ => e

/-- Modelled from the spec: a run of the engine: operations applied in order to a state. -/
def Chart.run {σ : Type} (c : Chart) (h : Host σ) (e : Engine σ) (ops : List Op) : Engine σ :=
  ops.foldl (c.apply h) e

/-- `X` is a full sub-configuration below `p`: proper descendants of `p`, closed under
parents up to `p`, with exactly one child state for `p` and every member that is compound
and all child states for `p` and every member that is parallel. -/
structure SubConfig (c : Chart) (p : Nat) (X : List Nat) : Prop where
  desc : ∀ x ∈ X, p ∈ c.ancestors x ∧ c.isHistory x = false
  closed : ∀ x ∈ X, ∀ q, c.parentOf x = some q → q = p ∨ q ∈ X
  compound : ∀ s, (s = p ∨ s ∈ X) → c.kindOf s = some StateKind.compound →
    ∃ ch, ch ∈ c.children s ∧ ch ∈ X ∧ ∀ ch2, ch2 ∈ c.children s → ch2 ∈ X → ch2 = ch
  parallel : ∀ s, (s = p ∨ s ∈ X) → c.kindOf s = some StateKind.parallel →
    ∀ ch, ch ∈ c.children s → ch ∈ X

/-- A consistent configuration (section 3): the root is active, active states are states of
the chart and no history pseudostates, the parent of an active state is active, an active
compound state has exactly one active child and an active parallel state has all its
children active. -/
structure ConfigOK (c : Chart) (cfg : List Nat) : Prop where
  root : 0 ∈ cfg
  range : ∀ x ∈ cfg, x < c.size ∧ c.isHistory x = false
  closed : ∀ x ∈ cfg, ∀ q, c.parentOf x = some q → q ∈ cfg
  compound : ∀ s, s ∈ cfg → c.kindOf s = some StateKind.compound →
    ∃ ch, ch ∈ c.children s ∧ ch ∈ cfg ∧ ∀ ch2, ch2 ∈ c.children s → ch2 ∈ cfg → ch2 = ch
  parallel : ∀ s, s ∈ cfg → c.kindOf s = some StateKind.parallel →
    ∀ ch, ch ∈ c.children s → ch ∈ cfg

/-- Every non-empty history record can be restored: a deep record is a full
sub-configuration below the parent of its history state, a shallow record of a compound
parent names one child state of it. -/
def HistOK (c : Chart) (hist : History) : Prop :=
  ∀ h p, c.parentOf h = some p → hist h ≠ [] →
    (c.kindOf h = some StateKind.historyDeep → SubConfig c p (hist h)) ∧
    (c.kindOf h = some StateKind.historyShallow → c.kindOf p = some StateKind.compound →
      ∃ ch, ch ∈ c.children p ∧ ∀ x, x ∈ hist h → x = ch)

/-- The engine invariant: restorable history, a configuration that is empty or
consistent, and consistent whenever a run is in progress. -/
def EngineOK {σ : Type} (c : Chart) (e : Engine σ) : Prop :=
  HistOK c e.history ∧ (e.config = [] ∨ ConfigOK c e.config) ∧
    (e.phase ≠ Phase.idle → ConfigOK c e.config)

/-- The facts a validated chart provides. -/
structure WF (c : Chart) : Prop where
  rootParent : c.parentOf 0 = none
  rootKind : c.isHistory 0 = false
  rootIn : 0 < c.size
  parent : ∀ s, s < c.size → s ≠ 0 → ∃ p, c.parentOf s = some p ∧ p < s ∧
    (c.kindOf p = some StateKind.compound ∨ c.kindOf p = some StateKind.parallel)
  initial : ∀ s, c.kindOf s = some StateKind.compound →
    ∃ i, c.initialOf s = some i ∧ i ∈ c.children s

/-- No two different members conflict. -/
def Independent (c : Chart) (cfg : List Nat) (l : List (Nat × Transition)) : Prop :=
  ∀ a ∈ l, ∀ b ∈ l, a = b ∨ c.conflict cfg a.2 b.2 = false

/-- A state record for examples: entry action `10 + index`, exit action `20 + index`. -/
def sampleState (index : Nat) (id : String) (kind : StateKind) (parent initial : Option Nat) :
    State :=
  { id := id
    kind := kind
    parent := parent
    initial := initial
    historyDefault := none
    onEntry := [10 + index]
    onExit := [20 + index] }

/-- A chart with a parallel state `P` of two compound regions, a deep history state in the
first region and a sibling state `Z` of `P`. -/
def sampleChart : Chart :=
  { states :=
      [sampleState 0 "R" StateKind.compound none (some 1),
       sampleState 1 "P" StateKind.parallel (some 0) none,
       sampleState 2 "r1" StateKind.compound (some 1) (some 3),
       sampleState 3 "x1" StateKind.atomic (some 2) none,
       sampleState 4 "x2" StateKind.atomic (some 2) none,
       sampleState 5 "r2" StateKind.compound (some 1) (some 6),
       sampleState 6 "y1" StateKind.atomic (some 5) none,
       sampleState 7 "y2" StateKind.atomic (some 5) none,
       sampleState 8 "h" StateKind.historyDeep (some 2) none,
       sampleState 9 "Z" StateKind.atomic (some 0) none]
    transitions :=
      [{ source := 3, triggers := [(some "e", none)], targets := [4], actions := [1] },
       { source := 6, triggers := [(some "e", none)], targets := [7], actions := [2] },
       { source := 1, triggers := [(some "out", none)], targets := [9], actions := [] },
       { source := 9, triggers := [(some "back", none)], targets := [8], actions := [] }] }

/-- A host whose guards hold and whose actions succeed; action 1 submits the event
`done.x`. -/
def sampleHost : Host Unit :=
  { evaluate := fun _ _ _ _ => some true
    execute := fun _ a _ _ =>
      ((), some (if a = 1 then [{ name := "done.x", payload := 0, origin := Origin.internal }]
        else [])) }

def sampleExternal (name : String) : Op :=
  Op.submit { name := name, payload := 0, origin := Origin.external }

/-- A run that starts the sample chart, moves both regions on `e`, leaves the parallel
state on `out` and comes back through the history state on `back`. -/
def sampleOps : List Op :=
  [Op.start, Op.step, sampleExternal "e", Op.step, Op.step, Op.step, Op.step,
   sampleExternal "out", Op.step, Op.step, Op.step, sampleExternal "back", Op.step]

/-- A pending-event situation in the sample chart: the external events `e` and `out` are
submitted together; after one turn `e` has been processed, its transition action has
submitted the internal event `done.x`, and `out` is still pending. -/
def samplePendingOps : List Op :=
  [Op.start, Op.step, sampleExternal "e", sampleExternal "out", Op.step]

end Scxml

namespace Generator

/-- Contents of a `QByteArray`: its bytes. -/
abbrev Bytes := List Nat

/-- Argument of a function: the fields of `ArgumentDef` the generator reads
(`typeName` is `type.name`). -/
structure ArgumentDef where
  name : Bytes
  normalizedType : Bytes
  typeName : Bytes

inductive Access where
  | Private
  | Protected
  | Public
deriving DecidableEq, Repr

/-- The fields of `FunctionDef` read by the embedded functions (`typeName` is
`type.name`); `implementation` is the implementation template of a function, a format
string taking an object and an index, and `none` when the pointer is null. -/
structure FunctionDef where
  name : Bytes
  normalizedType : Bytes
  tag : Bytes
  typeName : Bytes
  arguments : List ArgumentDef
  access : Access
  isCompat : Bool
  wasCloned : Bool
  isScriptable : Bool
  revision : Int
  isConstructor : Bool
  isStatic : Bool
  isAbstract : Bool
  inPrivateClass : Bytes
  mangledName : Bytes
  implementation : Option Bytes

/-- The fields of `PropertyDef` read by the embedded functions; `stdCppSet` is the
result of `PropertyDef::stdCppSet()`. -/
structure PropertyDef where
  name : Bytes
  type : Bytes
  member : Bytes
  read : Bytes
  write : Bytes
  reset : Bytes
  designable : Bytes
  scriptable : Bytes
  stored : Bytes
  user : Bytes
  notify : Bytes
  notifyId : Int
  revision : Int
  constant : Bool
  final : Bool
  required : Bool
  isQProperty : Bool
  stdCppSet : Bool

/-- An enum of the class; a null `enumName` is `none`. -/
structure EnumDef where
  name : Bytes
  enumName : Option Bytes
  isEnumClass : Bool
  values : List Bytes

structure ClassInfoDef where
  name : Bytes
  value : Bytes

/-- The fields of `ClassDef` read by the embedded functions; the two maps are kept as
association lists. -/
structure ClassDef where
  classname : Bytes
  qualified : Bytes
  classInfoList : List ClassInfoDef
  signalList : List FunctionDef
  slotList : List FunctionDef
  methodList : List FunctionDef
  constructorList : List FunctionDef
  nonClassSignalList : List Bytes
  propertyList : List PropertyDef
  enumList : List EnumDef
  enumDeclarations : List (Bytes × Bool)
  flagAliases : List (Bytes × Bytes)
  revisionedMethods : Bool
  hasQObject : Bool
  hasQGadget : Bool
  hasQNamespace : Bool

/-- What the generator takes from outside this file: the meta-type database behind
`isBuiltinType`, the character classes `is_hex_char` and `is_octal_char`, the layout
constants of `QMetaObjectPrivate`, and the constructor argument `requireCompleteTypes`. -/
structure Externals where
  isBuiltinType : Bytes → Bool
  is_hex_char : Nat → Bool
  is_octal_char : Nat → Bool
  MetaObjectPrivateFieldCount : Int
  IntsPerMethod : Int
  IntsPerProperty : Int
  requireCompleteTypes : Bool

/-- Flags written into the meta-object data, by name. -/
inductive Flag where
  | MethodMethod | MethodSignal | MethodSlot | MethodConstructor
  | AccessPrivate | AccessPublic | AccessProtected
  | MethodCompatibility | MethodCloned | MethodScriptable | MethodRevisioned
  | Invalid | EnumOrFlag | Writable | Readable | StdCppSet | Resettable | Designable
  | Scriptable | Stored | User | Constant | Final | Required | IsQProperty
  | EnumIsFlag | EnumIsScoped | PropertyAccessInStaticMetaCall
deriving DecidableEq, Repr

/-- `lengthOfEscapeSequence(s, i)`; the backslash is byte 92 and `x` is byte 120. -/
def lengthOfEscapeSequence (x : Externals) (s : Bytes) (i : Nat) : Nat :=
  if s.getD i 0 != 92 || decide (s.length ≤ i + 1) then 1
  else
    let ch := s.getD (i + 1) 0
    if ch == 120 then
      2 + ((s.drop (i + 2)).takeWhile x.is_hex_char).length
    else if x.is_octal_char ch then
      1 + (((s.drop (i + 1)).take 3).takeWhile x.is_octal_char).length
    else
      min (i + 2) s.length - i

/-- `Generator::strreg`. -/
def strreg (strings : List Bytes) (s : Bytes) : List Bytes :=
  if strings.contains s then strings else strings ++ [s]

/-- `Generator::stridx`; `none` stands for the failed assertion
"We forgot to register some strings". -/
def stridx (strings : List Bytes) (s : Bytes) : Option Nat :=
  if strings.indexOf s < strings.length then some (strings.indexOf s) else none

/-- `aggregateParameterCount`. -/
def aggregateParameterCount (list : List FunctionDef) : Int :=
  (list.map (fun f => (f.arguments.length : Int) + 1)).sum

/-- `Generator::registerClassInfoStrings`. -/
def registerClassInfoStrings (list : List ClassInfoDef) (strings : List Bytes) : List Bytes :=
  list.foldl (fun st c => strreg (strreg st c.name) c.value) strings

/-- The argument loop of `registerFunctionStrings`. -/
def registerArgumentStrings (x : Externals) (args : List ArgumentDef) (strings : List Bytes) :
    List Bytes :=
  args.foldl (fun st a =>
    strreg (if !x.isBuiltinType a.normalizedType then strreg st a.normalizedType else st) a.name)
    strings

/-- `Generator::registerFunctionStrings`. -/
def registerFunctionStrings (x : Externals) (list : List FunctionDef) (strings : List Bytes) :
    List Bytes :=
  list.foldl (fun st f =>
    let st1 := strreg st f.name
    let st2 := if !x.isBuiltinType f.normalizedType then strreg st1 f.normalizedType else st1
    let st3 := strreg st2 f.tag
    registerArgumentStrings x f.arguments st3) strings

/-- `Generator::registerByteArrayVector`. -/
def registerByteArrayVector (list : List Bytes) (strings : List Bytes) : List Bytes :=
  list.foldl strreg strings

/-- `Generator::registerPropertyStrings`. -/
def registerPropertyStrings (x : Externals) (list : List PropertyDef) (strings : List Bytes) :
    List Bytes :=
  list.foldl (fun st p =>
    let st1 := strreg st p.name
    if !x.isBuiltinType p.type then strreg st1 p.type else st1) strings

/-- `Generator::registerEnumStrings`. -/
def registerEnumStrings (list : List EnumDef) (strings : List Bytes) : List Bytes :=
  list.foldl (fun st e =>
    let st1 := strreg st e.name
    let st2 := match e.enumName with
      | some n => strreg st1 n
      | none => st1
    e.values.foldl strreg st2) strings

/-- `QMap::contains` on the association list. -/
def mapContains {β : Type} (m : List (Bytes × β)) (k : Bytes) : Bool :=
  m.any (fun kv => kv.1 == k)

/-- `QMap::value`: the stored value, or the default. -/
def mapValue {β : Type} (m : List (Bytes × β)) (k : Bytes) (dflt : β) : β :=
  match m.find? (fun kv => kv.1 == k) with
  | some kv => kv.2
  | none => dflt

/-- The block of `generateCode` that filters out undeclared enumerators and sets. -/
def filterEnums (cdef : ClassDef) : List EnumDef :=
  cdef.enumList.flatMap (fun d =>
    (if mapContains cdef.enumDeclarations d.name then [d] else []) ++
    (if mapContains cdef.enumDeclarations (mapValue cdef.flagAliases d.name []) then
      [{ d with enumName := some d.name, name := mapValue cdef.flagAliases d.name [] }]
     else []))

/-- The string registration of `generateCode`, in its order. -/
def registerStrings (x : Externals) (cdef : ClassDef) : List Bytes :=
  registerEnumStrings (filterEnums cdef)
    (registerPropertyStrings x cdef.propertyList
      (registerByteArrayVector cdef.nonClassSignalList
        (registerFunctionStrings x cdef.constructorList
          (registerFunctionStrings x cdef.methodList
            (registerFunctionStrings x cdef.slotList
              (registerFunctionStrings x cdef.signalList
                (registerClassInfoStrings cdef.classInfoList
                  (strreg [] cdef.qualified))))))))

/-- The inner loop of the `QT_MOC_LITERAL` block: walks string `s` from position `j` and
takes the length of every escape sequence, less one, off `idx`. -/
def escapeAdjust (x : Externals) (s : Bytes) : Nat → Nat → Int → Int
  | 0, _, idx => idx
  | fuel + 1, j, idx =>
    if j < s.length then
      if s.getD j 0 == 92 then
        escapeAdjust x s fuel (j + (lengthOfEscapeSequence x s j - 1) + 1)
          (idx - ((lengthOfEscapeSequence x s j - 1 : Nat) : Int))
      else escapeAdjust x s fuel (j + 1) idx
    else idx

/-- The `QT_MOC_LITERAL(idx, length)` entries written for the registered strings, starting
at offset `idx`. -/
def literals (x : Externals) : List Bytes → Int → List (Int × Nat)
  | [], _ => []
  | s :: rest, idx =>
    (idx, s.length) :: literals x rest (escapeAdjust x s s.length 0 (idx + s.length + 1))

/-- The bytes written into the string data initialiser: every string byte by byte,
followed by a zero. -/
def stringdata (strings : List Bytes) : List Nat :=
  strings.flatMap (fun s => s ++ [0])

/-- A type written by `generateTypeInfo`: a built-in meta type (by name), or the flag
`IsUnresolvedType` with the index of the type name among the strings. -/
inductive TypeInfo where
  | builtin (typeName : Bytes)
  | unresolved (index : Nat)
deriving DecidableEq, Repr

/-- `Generator::generateTypeInfo`. Only the assertion of `stridx` can end it with `none`;
its two own assertions (a known built-in type id, a non-empty type name unless
`allowEmptyName`) are checked before `stridx` is reached and are not part of the result. -/
def generateTypeInfo (x : Externals) (strings : List Bytes) (typeName : Bytes) :
    Option TypeInfo :=
  if x.isBuiltinType typeName then some (TypeInfo.builtin typeName)
  else (stridx strings typeName).map TypeInfo.unresolved

/-- One line of a function table: name, argc, parameters, tag, flags, initial metatype
offset. -/
structure FunctionRecord where
  name : Nat
  argc : Nat
  parameters : Int
  tag : Nat
  flags : List Flag
  initialMetatypeOffset : Int
deriving DecidableEq, Repr

def functionFlags (type : Flag) (f : FunctionDef) : List Flag :=
  [type] ++
  (match f.access with
   | Access.Private => [Flag.AccessPrivate]
   | Access.Public => [Flag.AccessPublic]
   | Access.Protected => [Flag.AccessProtected]) ++
  (if f.isCompat then [Flag.MethodCompatibility] else []) ++
  (if f.wasCloned then [Flag.MethodCloned] else []) ++
  (if f.isScriptable then [Flag.MethodScriptable] else []) ++
  (if f.revision > 0 then [Flag.MethodRevisioned] else [])

/-- `Generator::generateFunctions`: the records written, and the values of `paramsIndex`
and `initialMetatypeOffset` afterwards. -/
def generateFunctions (strings : List Bytes) (type : Flag) :
    List FunctionDef → Int → Int → Option (List FunctionRecord × Int × Int)
  | [], paramsIndex, initialMetatypeOffset => some ([], paramsIndex, initialMetatypeOffset)
  | f :: rest, paramsIndex, initialMetatypeOffset =>
    match stridx strings f.name, stridx strings f.tag with
    | some n, some t =>
      match generateFunctions strings type rest
          (paramsIndex + 1 + (f.arguments.length : Int) * 2)
          (initialMetatypeOffset + (if f.isConstructor then 0 else 1)
            + (f.arguments.length : Int)) with
      | some (recs, p, m) =>
        some ({ name := n, argc := f.arguments.length, parameters := paramsIndex, tag := t,
                flags := functionFlags type f,
                initialMetatypeOffset := initialMetatypeOffset } :: recs, p, m)
      | none => none
    | _, _ => none

/-- Applies `f` to every element in order; the first failure ends the loop. -/
def collect {α β : Type} (f : α → Option β) : List α → Option (List β)
  | [] => some []
  | a :: rest =>
    match f a, collect f rest with
    | some b, some bs => some (b :: bs)
    | _, _ => none

/-- An entry of the parameters section: a type, or the index of a parameter name. -/
inductive ParameterEntry where
  | type (info : TypeInfo)
  | name (index : Nat)
deriving DecidableEq, Repr

/-- `Generator::generateFunctionParameters`: per function the return type, the argument
types, then the argument names. -/
def generateFunctionParameters (x : Externals) (strings : List Bytes) :
    List FunctionDef → Option (List ParameterEntry)
  | [] => some []
  | f :: rest =>
    match collect (generateTypeInfo x strings)
        (f.normalizedType :: f.arguments.map ArgumentDef.normalizedType),
      collect (stridx strings) (f.arguments.map ArgumentDef.name),
      generateFunctionParameters x strings rest with
    | some types, some names, some more =>
      some (types.map ParameterEntry.type ++ names.map ParameterEntry.name ++ more)
    | _, _, _ => none

/-- `Generator::generateClassInfos`: key and value index per class info. -/
def generateClassInfos (strings : List Bytes) : List ClassInfoDef → Option (List (Nat × Nat))
  | [] => some []
  | c :: rest =>
    match stridx strings c.name, stridx strings c.value, generateClassInfos strings rest with
    | some k, some v, some more => some ((k, v) :: more)
    | _, _, _ => none

/-- `Generator::generateFunctionRevisions`. -/
def generateFunctionRevisions (list : List FunctionDef) : List Int :=
  list.map FunctionDef.revision

/-- The notify entry of a property: a signal id, or (for a signal of a parent class) the
result of `strings.indexOf(p.notify)` flagged `IsUnresolvedSignal`. -/
inductive NotifyId where
  | id (n : Int)
  | unresolved (indexInStrings : Int)
deriving DecidableEq, Repr

/-- One line of the property table: name, type, flags, notifyId, revision. -/
structure PropertyRecord where
  name : Nat
  type : TypeInfo
  flags : List Flag
  notifyId : NotifyId
  revision : Int
deriving DecidableEq, Repr

/-- The byte string `false`. -/
def falseBytes : Bytes := [102, 97, 108, 115, 101]

def propertyFlags (x : Externals) (p : PropertyDef) : List Flag :=
  [Flag.Invalid] ++
  (if !x.isBuiltinType p.type then [Flag.EnumOrFlag] else []) ++
  (if !p.member.isEmpty && !p.constant then [Flag.Writable] else []) ++
  (if !p.read.isEmpty || !p.member.isEmpty then [Flag.Readable] else []) ++
  (if !p.write.isEmpty then
    [Flag.Writable] ++ (if p.stdCppSet then [Flag.StdCppSet] else []) else []) ++
  (if !p.reset.isEmpty then [Flag.Resettable] else []) ++
  (if p.designable != falseBytes then [Flag.Designable] else []) ++
  (if p.scriptable != falseBytes then [Flag.Scriptable] else []) ++
  (if p.stored != falseBytes then [Flag.Stored] else []) ++
  (if p.user != falseBytes then [Flag.User] else []) ++
  (if p.constant then [Flag.Constant] else []) ++
  (if p.final then [Flag.Final] else []) ++
  (if p.required then [Flag.Required] else []) ++
  (if p.isQProperty then [Flag.IsQProperty] else [])

/-- `QList::indexOf`: the position of the first occurrence, or -1. -/
def indexOf (strings : List Bytes) (s : Bytes) : Int :=
  if strings.indexOf s < strings.length then (strings.indexOf s : Int) else -1

/-- `Generator::generateProperties`. -/
def generateProperties (x : Externals) (strings : List Bytes) :
    List PropertyDef → Option (List PropertyRecord)
  | [] => some []
  | p :: rest =>
    match stridx strings p.name, generateTypeInfo x strings p.type,
      generateProperties x strings rest with
    | some n, some t, some more =>
      some ({ name := n, type := t, flags := propertyFlags x p,
              notifyId := if p.notifyId < -1 then NotifyId.unresolved (indexOf strings p.notify)
                else NotifyId.id p.notifyId,
              revision := p.revision } :: more)
    | _, _, _ => none

/-- One line of the enum table: name, alias, flags, count, data. -/
structure EnumRecord where
  name : Nat
  aliasName : Nat
  flags : List Flag
  count : Nat
  data : Int
deriving DecidableEq, Repr

def enumFlags (cdef : ClassDef) (e : EnumDef) : List Flag :=
  (if mapValue cdef.enumDeclarations e.name false then [Flag.EnumIsFlag] else []) ++
  (if e.isEnumClass then [Flag.EnumIsScoped] else [])

/-- The alias column of an enum record:
`e.enumName.isNull() ? stridx(e.name) : stridx(e.enumName)`. -/
def enumNameIndex (strings : List Bytes) (e : EnumDef) : Option Nat :=
  match e.enumName with
  | none => stridx strings e.name
  | some n => stridx strings n

/-- The first loop of `generateEnums`: the enum records, `index` running over the enum
data. -/
def generateEnumRecords (cdef : ClassDef) (strings : List Bytes) :
    List EnumDef → Int → Option (List EnumRecord)
  | [], _ => some []
  | e :: rest, index =>
    match stridx strings e.name, enumNameIndex strings e,
      generateEnumRecords cdef strings rest (index + (e.values.length : Int) * 2) with
    | some n, some a, some more =>
      some ({ name := n, aliasName := a, flags := enumFlags cdef e, count := e.values.length,
              data := index } :: more)
    | _, _, _ => none

/-- The two bytes `::`. -/
def scopeBytes : Bytes := [58, 58]

/-- The value expression written for enum value `val` of `e`; `cdef->qualified` enters as
a C string, so it ends at its first zero byte. -/
def enumValueCode (cdef : ClassDef) (e : EnumDef) (val : Bytes) : Bytes :=
  cdef.qualified.takeWhile (fun b => b != 0) ++
  (if e.isEnumClass then scopeBytes ++ (match e.enumName with
    | none => e.name
    | some n => n) else []) ++
  scopeBytes ++ val

/-- The second loop of `generateEnums`: key and value per enum value. -/
def generateEnumData (cdef : ClassDef) (strings : List Bytes) :
    List EnumDef → Option (List (Nat × Bytes))
  | [] => some []
  | e :: rest =>
    match collect (fun val => (stridx strings val).map (fun k => (k, enumValueCode cdef e val)))
        e.values,
      generateEnumData cdef strings rest with
    | some pairs, some more => some (pairs ++ more)
    | _, _ => none

/-- `Generator::generateEnums`; `enumList` is the filtered `cdef->enumList`. -/
def generateEnums (cdef : ClassDef) (enumList : List EnumDef) (strings : List Bytes)
    (index : Int) : Option (List EnumRecord × List (Nat × Bytes)) :=
  if cdef.enumDeclarations.isEmpty then some ([], [])
  else
    match generateEnumRecords cdef strings enumList (index + 5 * (enumList.length : Int)),
      generateEnumData cdef strings enumList with
    | some recs, some data => some (recs, data)
    | _, _ => none

/-- Type entries of a signal, slot or method in the meta-type array: the return type,
then the argument types. -/
def methodTypeEntries (f : FunctionDef) : List Bytes :=
  f.typeName :: f.arguments.map ArgumentDef.typeName

/-- Type entries of a constructor in the meta-type array: the argument types only. -/
def constructorTypeEntries (f : FunctionDef) : List Bytes :=
  f.arguments.map ArgumentDef.typeName

/-- The type entries of the meta-type array written by `generateCode`: all property
types, the entries of every signal, slot and method, then those of every constructor;
`none` when `nullptr` is written instead. With incomplete types the array is given the
string data struct as a leading tag, which is not a type entry. -/
def metaTypeArray (cdef : ClassDef) : Option (List Bytes) :=
  if cdef.propertyList.isEmpty && cdef.signalList.isEmpty && cdef.slotList.isEmpty
      && cdef.methodList.isEmpty
      && !(cdef.constructorList.any (fun f => !f.arguments.isEmpty)) then none
  else
    some (cdef.propertyList.map PropertyDef.type ++
      [cdef.signalList, cdef.slotList, cdef.methodList].flatMap (fun methodContainer =>
        methodContainer.flatMap methodTypeEntries) ++
      cdef.constructorList.flatMap constructorTypeEntries)

/-- The `content` lines at the head of the data array. -/
structure Content where
  classname : Nat
  classInfoCount : Int
  classInfoIndex : Int
  methodCount : Int
  methodIndex : Int
  propertyCount : Int
  propertyIndex : Int
  enumCount : Int
  enumIndex : Int
  constructorCount : Int
  constructorIndex : Int
  flags : List Flag
  signalCount : Int
deriving DecidableEq, Repr

/-- What `generateCode` writes up to the end of the static meta-object initialiser, as far
as it is embedded here. -/
structure Output where
  strings : List Bytes
  literals : List (Int × Nat)
  stringdata : List Nat
  content : Content
  classInfos : List (Nat × Nat)
  signals : List FunctionRecord
  slots : List FunctionRecord
  methods : List FunctionRecord
  revisions : List Int
  parameters : List ParameterEntry
  properties : List PropertyRecord
  enums : List EnumRecord
  enumData : List (Nat × Bytes)
  constructors : List FunctionRecord
  metaTypes : Option (List Bytes)

/-- The index arithmetic of `generateCode` before the tables are written: the values of
`index` at the start of the class-info, method, parameter, property, enum and constructor
sections; `enumList` is the filtered `cdef->enumList`. -/
structure Layout where
  classInfoIndex : Int
  methodIndex : Int
  paramsIndex : Int
  propertyIndex : Int
  enumsIndex : Int
  constructorIndex : Int

def layout (x : Externals) (cdef : ClassDef) (enumList : List EnumDef) : Layout :=
  let index0 := x.MetaObjectPrivateFieldCount
  let index1 := index0 + (cdef.classInfoList.length : Int) * 2
  let methodCount : Int :=
    cdef.signalList.length + cdef.slotList.length + cdef.methodList.length
  let index2 := index1 + methodCount * x.IntsPerMethod
    + (if cdef.revisionedMethods then methodCount else 0)
  let totalParameterCount := aggregateParameterCount cdef.signalList
    + aggregateParameterCount cdef.slotList
    + aggregateParameterCount cdef.methodList
    + aggregateParameterCount cdef.constructorList
  let index3 := index2 + (totalParameterCount * 2 - methodCount - cdef.constructorList.length)
  let index4 := index3 + (cdef.propertyList.length : Int) * x.IntsPerProperty
  let index5 := index4 + ((enumList.map (fun e => 5 + (e.values.length : Int) * 2)).sum)
  { classInfoIndex := index0, methodIndex := index1, paramsIndex := index2,
    propertyIndex := index3, enumsIndex := index4, constructorIndex := index5 }

/-- The `content` lines at the head of the data array written by `generateCode`. -/
def generateContent (cdef : ClassDef) (enumList : List EnumDef) (lay : Layout)
    (classname : Nat) : Content :=
  let isConstructible := !cdef.constructorList.isEmpty
  let methodCount : Int :=
    cdef.signalList.length + cdef.slotList.length + cdef.methodList.length
  { classname := classname
    classInfoCount := cdef.classInfoList.length
    classInfoIndex := if cdef.classInfoList.isEmpty then 0 else lay.classInfoIndex
    methodCount := methodCount
    methodIndex := if methodCount = 0 then 0 else lay.methodIndex
    propertyCount := cdef.propertyList.length
    propertyIndex := if cdef.propertyList.isEmpty then 0 else lay.propertyIndex
    enumCount := enumList.length
    enumIndex := if enumList.isEmpty then 0 else lay.enumsIndex
    constructorCount := if isConstructible then cdef.constructorList.length else 0
    constructorIndex := if isConstructible then lay.constructorIndex else 0
    flags := if cdef.hasQGadget || cdef.hasQNamespace then
      [Flag.PropertyAccessInStaticMetaCall] else []
    signalCount := cdef.signalList.length }

/-- The signal, slot and method arrays of `generateCode`: its three `generateFunctions`
calls, which thread `paramsIndex` and `initialMetaTypeOffset` (the latter starts at
`cdef->propertyList.count()`); the two values afterwards come with the records. -/
def generateMethodArrays (strings : List Bytes) (cdef : ClassDef) (paramsIndex : Int) :
    Option ((List FunctionRecord × List FunctionRecord × List FunctionRecord) × Int × Int) :=
  (generateFunctions strings Flag.MethodSignal cdef.signalList paramsIndex
    cdef.propertyList.length).bind fun r1 =>
  (generateFunctions strings Flag.MethodSlot cdef.slotList r1.2.1 r1.2.2).bind fun r2 =>
  (generateFunctions strings Flag.MethodMethod cdef.methodList r2.2.1 r2.2.2).bind fun r3 =>
  some ((r1.1, r2.1, r3.1), r3.2.1, r3.2.2)

/-- The method version arrays of `generateCode`, written for revisioned methods only. -/
def generateRevisions (cdef : ClassDef) : List Int :=
  if cdef.revisionedMethods then
    generateFunctionRevisions cdef.signalList ++ generateFunctionRevisions cdef.slotList
      ++ generateFunctionRevisions cdef.methodList
  else []

/-- The method parameters array of `generateCode`: signals, slots, methods and, for a
constructible class, constructors. -/
def generateParameterArray (x : Externals) (strings : List Bytes) (cdef : ClassDef) :
    Option (List ParameterEntry) :=
  (generateFunctionParameters x strings cdef.signalList).bind fun signalParameters =>
  (generateFunctionParameters x strings cdef.slotList).bind fun slotParameters =>
  (generateFunctionParameters x strings cdef.methodList).bind fun methodParameters =>
  (if !cdef.constructorList.isEmpty then
     generateFunctionParameters x strings cdef.constructorList
   else some []).bind fun constructorParameters =>
  some (signalParameters ++ slotParameters ++ methodParameters ++ constructorParameters)

/-- The constructors array of `generateCode`, written for a constructible class only. -/
def generateConstructorArray (strings : List Bytes) (cdef : ClassDef)
    (paramsIndex initialMetaTypeOffset : Int) : Option (List FunctionRecord × Int × Int) :=
  if !cdef.constructorList.isEmpty then
    generateFunctions strings Flag.MethodConstructor cdef.constructorList paramsIndex
      initialMetaTypeOffset
  else some ([], paramsIndex, initialMetaTypeOffset)

/-- `Generator::generateCode` up to the static meta-object initialiser, section by section
in the order of the source. A failed `stridx` assertion anywhere ends the run with `none`. -/
def generateCode (x : Externals) (cdef : ClassDef) : Option Output :=
  let enumList := filterEnums cdef
  let strings := registerStrings x cdef
  let lay := layout x cdef enumList
  (stridx strings cdef.qualified).bind fun classname =>
  (generateClassInfos strings cdef.classInfoList).bind fun classInfos =>
  (generateMethodArrays strings cdef lay.paramsIndex).bind fun methods =>
  (generateParameterArray x strings cdef).bind fun parameters =>
  (generateProperties x strings cdef.propertyList).bind fun properties =>
  (generateEnums cdef enumList strings lay.enumsIndex).bind fun enums =>
  (generateConstructorArray strings cdef methods.2.1 methods.2.2).bind fun constructors =>
  some
    { strings := strings
      literals := literals x strings 0
      stringdata := stringdata strings
      content := generateContent cdef enumList lay classname
      classInfos := classInfos
      signals := methods.1.1
      slots := methods.1.2.1
      methods := methods.1.2.2
      revisions := generateRevisions cdef
      parameters := parameters
      properties := properties
      enums := enums.1
      enumData := enums.2
      constructors := constructors.1
      metaTypes := metaTypeArray cdef }

/-- A meta-type database for examples: `void`, `bool` and `int` are built in; hex and
octal digits are the usual ones. -/
def sampleExternals : Externals :=
  { isBuiltinType := fun t => t == [118, 111, 105, 100] || t == [98, 111, 111, 108]
      || t == [105, 110, 116]
    is_hex_char := fun b => (decide (48 ≤ b) && decide (b ≤ 57))
      || (decide (97 ≤ b) && decide (b ≤ 102)) || (decide (65 ≤ b) && decide (b ≤ 70))
    is_octal_char := fun b => decide (48 ≤ b) && decide (b ≤ 55)
    MetaObjectPrivateFieldCount := 14
    IntsPerMethod := 6
    IntsPerProperty := 5
    requireCompleteTypes := false }

/-- An argument `bool on`. -/
def sampleArgument : ArgumentDef :=
  { name := [111, 110]
    normalizedType := [98, 111, 111, 108]
    typeName := [98, 111, 111, 108] }

/-- A function `void f(bool on)` or, as a constructor, `C(bool on)`. -/
def sampleFunction (name : Bytes) (isConstructor : Bool) : FunctionDef :=
  { name := name
    normalizedType := if isConstructor then [] else [118, 111, 105, 100]
    tag := []
    typeName := if isConstructor then [] else [118, 111, 105, 100]
    arguments := [sampleArgument]
    access := Access.Public
    isCompat := false
    wasCloned := false
    isScriptable := false
    revision := 0
    isConstructor := isConstructor
    isStatic := false
    isAbstract := false
    inPrivateClass := []
    mangledName := name
    implementation := none }

/-- A readable property `bool p`. -/
def sampleProperty : PropertyDef :=
  { name := [112]
    type := [98, 111, 111, 108]
    member := []
    read := [103]
    write := []
    reset := []
    designable := []
    scriptable := []
    stored := []
    user := []
    notify := []
    notifyId := -1
    revision := 0
    constant := false
    final := false
    required := false
    isQProperty := false
    stdCppSet := false }

/-- A class `C` with one property, two signals, one slot and one constructor. -/
def sampleClass : ClassDef :=
  { classname := [67]
    qualified := [67]
    classInfoList := []
    signalList := [sampleFunction [97] false, sampleFunction [98] false]
    slotList := [sampleFunction [115] false]
    methodList := []
    constructorList := [sampleFunction [67] true]
    nonClassSignalList := []
    propertyList := [sampleProperty]
    enumList := []
    enumDeclarations := []
    flagAliases := []
    revisionedMethods := false
    hasQObject := true
    hasQGadget := false
    hasQNamespace := false }

/-- A machine class `M` with two state properties of type `bool`, named `a\b` and `c`. -/
def backslashClass : ClassDef :=
  { classname := [77]
    qualified := [77]
    classInfoList := []
    signalList := []
    slotList := []
    methodList := []
    constructorList := []
    nonClassSignalList := []
    propertyList :=
      [{ sampleProperty with name := [97, 92, 98] }, { sampleProperty with name := [99] }]
    enumList := []
    enumDeclarations := []
    flagAliases := []
    revisionedMethods := false
    hasQObject := true
    hasQGadget := false
    hasQNamespace := false }

/-- What the function tables look up for one function: its name and tag, every argument
name, and every return or argument type that is not built in. -/
def FunctionDef.needs (x : Externals) (f : FunctionDef) (t : Bytes) : Prop :=
  t = f.name ∨ t = f.tag ∨ (t = f.normalizedType ∧ x.isBuiltinType f.normalizedType = false) ∨
    ∃ a ∈ f.arguments, t = a.name ∨ (t = a.normalizedType ∧ x.isBuiltinType a.normalizedType = false)

/-- What the enum tables look up for one enum: its name, its enum name when it has one,
and its values. -/
def EnumDef.needs (e : EnumDef) (t : Bytes) : Prop :=
  t = e.name ∨ e.enumName = some t ∨ t ∈ e.values

/-- The value of `paramsIndex` at the end of `generateCode`: after the `generateFunctions`
calls for the signals, slots and methods and, for a constructible class, the
constructors. -/
def paramsIndexAtEnd (x : Externals) (cdef : ClassDef) : Option Int :=
  let strings := registerStrings x cdef
  let lay := layout x cdef (filterEnums cdef)
  (generateMethodArrays strings cdef lay.paramsIndex).bind fun methods =>
  (generateConstructorArray strings cdef methods.2.1 methods.2.2).map fun constructors =>
    constructors.2.1

/-- True for a type entry of the parameters section. -/
def ParameterEntry.isType : ParameterEntry → Bool
  | ParameterEntry.type _ => true
  | ParameterEntry.name _ => false

/-- The sample class with two declared enums: `E { A, B }` and the enum class `F { X }`. -/
def sampleEnumClass : ClassDef :=
  { sampleClass with
    enumList :=
      [{ name := [69], enumName := none, isEnumClass := false, values := [[65], [66]] },
       { name := [70], enumName := none, isEnumClass := true, values := [[88]] }]
    enumDeclarations := [([69], false), ([70], false)] }

/-- The value of a C++ `int` (32 bits, two's complement) that holds `n`. -/
def toInt32 (n : Int) : Int := (n + 2147483648) % 4294967296 - 2147483648

/-- The constant `constCharArraySizeLimit` of `generateCode`. -/
def constCharArraySizeLimit : Int := 65535

/-- The loop of `generateCode` that declares the string data arrays `stringdata0`,
`stringdata1`, ... of the string data struct: the declared sizes in order, from the running
length `stringDataLength`. The `int` division rounds towards zero. -/
def stringdataSizesFrom : List Bytes → Int → List Int
  | [], stringDataLength => [stringDataLength]
  | s :: rest, stringDataLength =>
    let thisLength := toInt32 ((s.length : Int) + 1)
    let sum := toInt32 (stringDataLength + thisLength)
    if Int.tdiv sum constCharArraySizeLimit != 0 then
      toInt32 (sum - thisLength) :: stringdataSizesFrom rest thisLength
    else stringdataSizesFrom rest sum

/-- The sizes of the string data arrays declared by `generateCode` for the registered
strings. -/
def stringdataSizes (strings : List Bytes) : List Int := stringdataSizesFrom strings 0

/-- A loop `for (int i = 0; i < list.size(); ++i)` whose body writes `body list.at(i) i`,
from the counter value `index` on. -/
def forIndexed {α β : Type} (body : α → Nat → β) : List α → Nat → List β
  | [], _ => []
  | a :: rest, index => body a index :: forIndexed body rest (index + 1)

/-- One `case` of the `InvokeMetaMethod` switch of `qt_static_metacall`: the case number,
the function called and, for a function with an implementation template, the template
together with the index substituted into it. -/
structure InvokeCase where
  caseNumber : Nat
  name : Bytes
  implementation : Option (Bytes × Nat)
deriving DecidableEq, Repr

/-- The body of the `methodindex` loop in the `InvokeMetaMethod` branch of
`generateStaticMetacall`: `case methodindex:` followed by the implementation template
filled with `"_o"` and `methodindex`, or by the call of the function. The assertion that
the normalized type is not empty is not part of it. -/
def invokeCase (f : FunctionDef) (methodindex : Nat) : InvokeCase :=
  { caseNumber := methodindex
    name := f.name
    implementation := f.implementation.map (fun template => (template, methodindex)) }

/-- The `InvokeMetaMethod` switch of `generateStaticMetacall`; its `methodList` is the
signals, then the slots, then the methods. -/
def invokeMetaMethodCases (cdef : ClassDef) : List InvokeCase :=
  forIndexed invokeCase (cdef.signalList ++ cdef.slotList ++ cdef.methodList) 0

/-- The body of the `methodindex` loop in the `IndexOfMethod` branch of
`generateStaticMetacall`: nothing for a signal that is skipped, else the member function
compared with and the value written to `*result`. -/
def indexOfMethodBlock (f : FunctionDef) (methodindex : Nat) : Option (Bytes × Nat) :=
  if f.wasCloned || !f.inPrivateClass.isEmpty || f.isStatic then none
  else if f.mangledName.isEmpty then none
  else some (f.mangledName, methodindex)

/-- The `IndexOfMethod` branch of `generateStaticMetacall`, signal by signal. -/
def indexOfMethodBlocks (cdef : ClassDef) : List (Option (Bytes × Nat)) :=
  forIndexed indexOfMethodBlock cdef.signalList 0

/-- The body of the loop of `generateSignalDefs`: nothing for a signal without
implementation template or mangled name, else the function defined, its template and the
index substituted into it (with `"this"`). -/
def signalDef (f : FunctionDef) (methodindex : Nat) : Option (Bytes × Bytes × Nat) :=
  match f.implementation with
  | some template =>
    if f.mangledName.isEmpty then none else some (f.mangledName, template, methodindex)
  | none => none

/-- `Generator::generateSignalDefs`, signal by signal. -/
def generateSignalDefs (cdef : ClassDef) : List (Option (Bytes × Bytes × Nat)) :=
  forIndexed signalDef cdef.signalList 0

/-- `Generator::generateSignal`: nothing for a cloned or abstract signal or one with an
implementation template, else the signal function defined and the signal index it passes
to `QMetaObject::activate`. -/
def generateSignal (f : FunctionDef) (index : Nat) : Option (Bytes × Nat) :=
  if f.wasCloned || f.isAbstract then none
  else if f.implementation.isSome then none
  else some (f.name, index)

/-- The loop of `generateCode` that generates the internal signal functions. -/
def generateSignals (cdef : ClassDef) : List (Option (Bytes × Nat)) :=
  forIndexed generateSignal cdef.signalList 0

/-- A signal of a state machine class: `void name(bool)` with an implementation
template. -/
def sampleSignal (name : Bytes) : FunctionDef :=
  { sampleFunction name false with implementation := some [116] }

/-- A class with two signals that have an implementation template, a plain signal and a
slot. -/
def sampleSignalClass : ClassDef :=
  { sampleClass with
    signalList := [sampleSignal [97], sampleSignal [98], sampleFunction [99] false]
    slotList := [sampleFunction [115] false] }

/-- `QByteArray::left(n)`: the first `n` bytes, none for a negative `n`. -/
def left (s : Bytes) (n : Int) : Bytes := s.take n.toNat

/-- `QByteArray::lastIndexOf(sub)`: the position of the last occurrence of `sub`, or -1. -/
def lastIndexOf (s sub : Bytes) : Int :=
  match (List.range (s.length + 1)).reverse.find? (fun i => sub.isPrefixOf (s.drop i)) with
  | some i => (i : Int)
  | none => -1

/-- `QByteArray::indexOf(sub)`: the position of the first occurrence of `sub`, or -1. -/
def firstIndexOf (s sub : Bytes) : Int :=
  match (List.range (s.length + 1)).find? (fun i => sub.isPrefixOf (s.drop i)) with
  | some i => (i : Int)
  | none => -1

/-- The recursion of `qualifiedNameEquals`; every call is on a shorter name. -/
def qualifiedNameEqualsAux : Nat → Bytes → Bytes → Bool
  | 0, _, _ => false
  | fuel + 1, qualifiedName, name =>
    if qualifiedName == name then true
    else if firstIndexOf qualifiedName scopeBytes == -1 then false
    else qualifiedNameEqualsAux fuel
      (qualifiedName.drop (firstIndexOf qualifiedName scopeBytes + 2).toNat) name

/-- `qualifiedNameEquals`: `name` is `qualifiedName` or what follows one of its `::`. -/
def qualifiedNameEquals (qualifiedName name : Bytes) : Bool :=
  qualifiedNameEqualsAux (qualifiedName.length + 1) qualifiedName name

/-- `knownExtraMetaObject.constFind(key)`, where `knownExtraMetaObject` is `knownGadgets`
united with `knownQObjectClasses`: the value stored under the key, `none` for
`constEnd()`. The two hashes are kept as association lists; a key in both is found with
the value that `unite` took from `knownQObjectClasses`. -/
def constFind (knownQObjectClasses knownGadgets : List (Bytes × Bytes)) (key : Bytes) :
    Option Bytes :=
  ((knownQObjectClasses ++ knownGadgets).find? (fun kv => kv.1 == key)).map Prod.snd

/-- The scope looked up in one turn of the `do` loop, for the enclosing scope `thisScope`. -/
def currentScopeOf (thisScope unqualifiedScope : Bytes) : Bytes :=
  if thisScope.isEmpty then unqualifiedScope else thisScope ++ scopeBytes ++ unqualifiedScope

/-- The `do ... while` loop of the extra-list block: `thisScope` loses its last component,
the scope is looked up relative to it, and the loop goes on while `thisScope` is not empty
and nothing is found. Every turn shortens `thisScope`. -/
def findScope (knownQObjectClasses knownGadgets : List (Bytes × Bytes))
    (unqualifiedScope : Bytes) : Nat → Bytes → Option Bytes
  | 0, _ => none
  | fuel + 1, thisScope =>
    match constFind knownQObjectClasses knownGadgets
        (currentScopeOf (left thisScope (lastIndexOf thisScope scopeBytes)) unqualifiedScope) with
    | some scope => some scope
    | none =>
      if !(left thisScope (lastIndexOf thisScope scopeBytes)).isEmpty then
        findScope knownQObjectClasses knownGadgets unqualifiedScope fuel
          (left thisScope (lastIndexOf thisScope scopeBytes))
      else none

/-- The two bytes `Qt`. -/
def qtBytes : Bytes := [81, 116]

/-- The body of the property loop of the extra-list block of `generateCode`: the scope a
property adds to the list, `none` where the loop body ends with `continue`. The bytes 42,
60 and 62 are `*`, `<` and `>`. -/
def propertyScope (x : Externals) (knownQObjectClasses knownGadgets : List (Bytes × Bytes))
    (cdef : ClassDef) (p : PropertyDef) : Option Bytes :=
  if x.isBuiltinType p.type then none
  else if p.type.contains 42 || p.type.contains 60 || p.type.contains 62 then none
  else if lastIndexOf p.type scopeBytes ≤ 0 then none
  else
    match findScope knownQObjectClasses knownGadgets
        (left p.type (lastIndexOf p.type scopeBytes)) (cdef.qualified.length + 1)
        cdef.qualified with
    | none => none
    | some scope =>
      if scope == qtBytes then none
      else if qualifiedNameEquals cdef.qualified scope then none
      else some scope

/-- One turn of the property loop: the scope of the property joins `extraList` unless it is
there already. -/
def extraListStep (x : Externals) (knownQObjectClasses knownGadgets : List (Bytes × Bytes))
    (cdef : ClassDef) (extraList : List Bytes) (p : PropertyDef) : List Bytes :=
  match propertyScope x knownQObjectClasses knownGadgets cdef p with
  | some scope => if extraList.contains scope then extraList else extraList ++ [scope]
  | none => extraList

/-- The `extraList` of `generateCode` after the loop over the properties. -/
def extraListOfProperties (x : Externals)
    (knownQObjectClasses knownGadgets : List (Bytes × Bytes)) (cdef : ClassDef) : List Bytes :=
  cdef.propertyList.foldl (extraListStep x knownQObjectClasses knownGadgets cdef) []

/-- One turn of the loop over the keys of `enumDeclarations` (a `QMap` gives its keys in
sorted order, the association list in its own): the scope of a scoped enum joins
`extraList`. -/
def extraListEnumStep (cdef : ClassDef) (extraList : List Bytes) (enumKey : Bytes) :
    List Bytes :=
  if lastIndexOf enumKey scopeBytes > 0 then
    if left enumKey (lastIndexOf enumKey scopeBytes) != qtBytes
        && !qualifiedNameEquals cdef.qualified (left enumKey (lastIndexOf enumKey scopeBytes))
        && !extraList.contains (left enumKey (lastIndexOf enumKey scopeBytes)) then
      extraList ++ [left enumKey (lastIndexOf enumKey scopeBytes)]
    else extraList
  else extraList

/-- The `extraList` of `generateCode`: the scopes of the property types, then those of the
scoped enum declarations. -/
def extraList (x : Externals) (knownQObjectClasses knownGadgets : List (Bytes × Bytes))
    (cdef : ClassDef) : List Bytes :=
  (cdef.enumDeclarations.map Prod.fst).foldl (extraListEnumStep cdef)
    (extraListOfProperties x knownQObjectClasses knownGadgets cdef)

/-- The values `thisScope` takes in the turns of the `do ... while` loop when nothing is
found: the enclosing scopes of the class, innermost first, ending with the empty scope. -/
def enclosingScopes : Nat → Bytes → List Bytes
  | 0, _ => []
  | fuel + 1, thisScope =>
    left thisScope (lastIndexOf thisScope scopeBytes) ::
      (if !(left thisScope (lastIndexOf thisScope scopeBytes)).isEmpty then
        enclosingScopes fuel (left thisScope (lastIndexOf thisScope scopeBytes))
      else [])

end Generator

namespace StateMachineQml

/-- The enum `ChildrenMode`. -/
inductive ChildrenMode where
  | None
  | State
  | Transition
  | StateOrTransition
deriving DecidableEq, Repr

/-- What `qobject_cast` finds an object to be: a `QAbstractState`, a
`QAbstractTransition`, or neither. -/
inductive ObjectKind where
  | state
  | transition
  | other
deriving DecidableEq, Repr

/-- A `QObject *` handed to a children list: the identity of the object and what
`qobject_cast` finds it to be. -/
structure Item where
  id : Nat
  kind : ObjectKind
deriving DecidableEq, Repr

/-- A call on the owner `parentObject<T>(prop)`; `T` is a template parameter, so its
member functions are kept as calls made. -/
inductive OwnerCall where
  | addTransition (item : Item)
  | removeTransition (item : Item)
  | childrenContentChanged
deriving DecidableEq, Repr

/-- What the functions of `childrenprivate_p.h` read and write: the list
`ChildrenPrivate::children`, the `QObject` parent of every item (`none` for `nullptr`,
otherwise the identity of the parent object) and the calls made on the owner. -/
structure Objects where
  children : List Item
  parent : Item → Option Nat
  calls : List OwnerCall

/-- `QObject::setParent` on an item. -/
def setParent (w : Objects) (item : Item) (p : Option Nat) : Objects :=
  { w with parent := fun i => if i = item then p else w.parent i }

/-- `ParentHandler<T, ChildrenMode::State>::parentItem`. -/
def parentItemState (owner : Nat) (w : Objects) (item : Item) : Bool × Objects :=
  match item.kind with
  | ObjectKind.state => (true, setParent w item (some owner))
  | _ => (false, w)

/-- `ParentHandler<T, ChildrenMode::State>::unparentItem`. -/
def unparentItemState (w : Objects) (oldItem : Item) : Bool × Objects :=
  match oldItem.kind with
  | ObjectKind.state => (true, setParent w oldItem none)
  | _ => (false, w)

/-- `ParentHandler<T, ChildrenMode::Transition>::parentItem`. -/
def parentItemTransition (w : Objects) (item : Item) : Bool × Objects :=
  match item.kind with
  | ObjectKind.transition => (true, { w with calls := w.calls ++ [OwnerCall.addTransition item] })
  | _ => (false, w)

/-- `ParentHandler<T, ChildrenMode::Transition>::unparentItem`. -/
def unparentItemTransition (w : Objects) (oldItem : Item) : Bool × Objects :=
  match oldItem.kind with
  | ObjectKind.transition =>
    (true, { w with calls := w.calls ++ [OwnerCall.removeTransition oldItem] })
  | _ => (false, w)

/-- `ParentHandler<T, Mode>::parentItem` for the four modes; in mode `StateOrTransition`
the transition handler only runs when the state handler has returned false. -/
def parentItem (mode : ChildrenMode) (owner : Nat) (w : Objects) (item : Item) :
    Bool × Objects :=
  match mode with
  | ChildrenMode.None => (true, w)
  | ChildrenMode.State => parentItemState owner w item
  | ChildrenMode.Transition => parentItemTransition w item
  | ChildrenMode.StateOrTransition =>
    if (parentItemState owner w item).1 then parentItemState owner w item
    else parentItemTransition (parentItemState owner w item).2 item

/-- `ParentHandler<T, Mode>::unparentItem` for the four modes. -/
def unparentItem (mode : ChildrenMode) (w : Objects) (oldItem : Item) : Bool × Objects :=
  match mode with
  | ChildrenMode.None => (true, w)
  | ChildrenMode.State => unparentItemState w oldItem
  | ChildrenMode.Transition => unparentItemTransition w oldItem
  | ChildrenMode.StateOrTransition =>
    if (unparentItemState w oldItem).1 then unparentItemState w oldItem
    else unparentItemTransition (unparentItemState w oldItem).2 oldItem

/-- The call `parentObject<T>(prop)->childrenContentChanged()`. -/
def childrenContentChanged (w : Objects) : Objects :=
  { w with calls := w.calls ++ [OwnerCall.childrenContentChanged] }

/-- `ChildrenPrivate::append`. -/
def append (mode : ChildrenMode) (owner : Nat) (w : Objects) (item : Item) : Objects :=
  let w1 := (parentItem mode owner w item).2
  childrenContentChanged { w1 with children := w1.children ++ [item] }

/-- `ChildrenPrivate::count`. -/
def count (w : Objects) : Nat := w.children.length

/-- `ChildrenPrivate::at`; `none` where `QList::at` is out of range. -/
def itemAt (w : Objects) (index : Int) : Option Item :=
  if 0 ≤ index then w.children[index.toNat]? else none

/-- `ChildrenPrivate::clear`. -/
def clear (mode : ChildrenMode) (w : Objects) : Objects :=
  let w1 := w.children.foldl (fun acc oldItem => (unparentItem mode acc oldItem).2) w
  childrenContentChanged { w1 with children := [] }

/-- `ChildrenPrivate::replace`; `none` where `children.at(index)` is out of range. -/
def replace (mode : ChildrenMode) (owner : Nat) (w : Objects) (index : Int) (item : Item) :
    Option Objects :=
  match itemAt w index with
  | some oldItem =>
    let w1 := (unparentItem mode w oldItem).2
    let w2 := (parentItem mode owner w1 item).2
    some (childrenContentChanged { w2 with children := w2.children.set index.toNat item })
  | none => none

/-- `ChildrenPrivate::removeLast`; `none` where `takeLast` meets an empty list. -/
def removeLast (mode : ChildrenMode) (w : Objects) : Option Objects :=
  match w.children.getLast? with
  | some last =>
    let w1 := { w with children := w.children.dropLast }
    some (childrenContentChanged (unparentItem mode w1 last).2)
  | none => none

/-- The list operations a `QQmlListProperty` offers on a children list. -/
inductive ListOp where
  | append (item : Item)
  | replace (index : Int) (item : Item)
  | removeLast
  | clear
deriving DecidableEq, Repr

def applyOp (mode : ChildrenMode) (owner : Nat) (w : Objects) : ListOp → Option Objects
  | ListOp.append item => some (append mode owner w item)
  | ListOp.replace index item => replace mode owner w index item
  | ListOp.removeLast => removeLast mode w
  | ListOp.clear => some (clear mode w)

/-- A sequence of list operations, applied in order. -/
def runOps (mode : ChildrenMode) (owner : Nat) : Objects → List ListOp → Option Objects
  | w, [] => some w
  | w, op :: rest => (applyOp mode owner w op).bind (fun w1 => runOps mode owner w1 rest)

/-- The item an operation brings in is not in the list yet. -/
def ListOp.fresh (w : Objects) : ListOp → Bool
  | ListOp.append item => !w.children.contains item
  | ListOp.replace _ item => !w.children.contains item
  | _ => true

/-- Every operation of the sequence can be carried out (no index out of range, no
`removeLast` on an empty list) and brings in an item that is not in the list at that
point. -/
def admissible (mode : ChildrenMode) (owner : Nat) : Objects → List ListOp → Bool
  | _, [] => true
  | w, op :: rest =>
    op.fresh w && match applyOp mode owner w op with
      | some w1 => admissible mode owner w1 rest
      | none => false

/-- The empty children list, with any parents the objects have so far. -/
def emptyList (parent : Item → Option Nat) : Objects :=
  { children := [], parent := parent, calls := [] }

/-- The children list holds no item twice, and every state in it has the owner as its
parent. -/
def Parented (owner : Nat) (w : Objects) : Prop :=
  w.children.Nodup ∧
    ∀ item ∈ w.children, item.kind = ObjectKind.state → w.parent item = some owner

/-- A state object for examples. -/
def sampleStateItem (id : Nat) : Item := { id := id, kind := ObjectKind.state }

/-- A transition object for examples. -/
def sampleTransitionItem (id : Nat) : Item := { id := id, kind := ObjectKind.transition }

/-- A use of a children list: two states and a transition are appended, the first state is
replaced by a third, the last entry is removed and appended again, and a plain object is
appended. -/
def sampleListOps : List ListOp :=
  [ListOp.append (sampleStateItem 1), ListOp.append (sampleTransitionItem 2),
   ListOp.append (sampleStateItem 3), ListOp.replace 0 (sampleStateItem 4),
   ListOp.removeLast, ListOp.append (sampleStateItem 3),
   ListOp.append { id := 5, kind := ObjectKind.other }]

end StateMachineQml

namespace Scxml

theorem parentOf_lt_size {c : Chart} {s p : Nat} (h : c.parentOf s = some p) : s < c.size := by
  unfold Chart.parentOf at h
  by_contra hn
  have : c.states[s]? = none := List.getElem?_eq_none (by unfold Chart.size at hn; omega)
  rw [this] at h
  cases h

theorem kindOf_lt_size {c : Chart} {s : Nat} {k : StateKind} (h : c.kindOf s = some k) :
    s < c.size := by
  unfold Chart.kindOf at h
  by_contra hn
  have : c.states[s]? = none := List.getElem?_eq_none (by unfold Chart.size at hn; omega)
  rw [this] at h
  cases h

theorem kindOf_of_ge {c : Chart} {s : Nat} (h : c.size ≤ s) : c.kindOf s = none := by
  unfold Chart.kindOf
  rw [List.getElem?_eq_none (by unfold Chart.size at h; omega)]
  rfl

theorem mem_children {c : Chart} {s ch : Nat} :
    ch ∈ c.children s ↔ c.parentOf ch = some s ∧ c.isHistory ch = false := by
  unfold Chart.children
  simp only [List.mem_filter, List.mem_range, Bool.and_eq_true, beq_iff_eq, Bool.not_eq_true']
  constructor
  · rintro ⟨_, h1, h2⟩
    exact ⟨h1, h2⟩
  · rintro ⟨h1, h2⟩
    exact ⟨parentOf_lt_size h1, h1, h2⟩

theorem ancestorsAux_fuel (c : Chart) (f1 f2 s : Nat) (h1 : s < f1) (h2 : s < f2) :
    c.ancestorsAux f1 s = c.ancestorsAux f2 s := by
  induction f1 generalizing f2 s with
  | zero => omega
  | succ k ih =>
    cases f2 with
    | zero => omega
    | succ j =>
      simp only [Chart.ancestorsAux]
      cases hp : c.parentOf s with
      | none => rfl
      | some p =>
        simp only
        by_cases hlt : p < s
        · simp only [hlt, if_true]
          rw [ih j p (by omega) (by omega)]
        · simp only [hlt, if_false]

theorem ancestors_eq (c : Chart) (s : Nat) :
    c.ancestors s = match c.parentOf s with
      | some p => if p < s then p :: c.ancestors p else []
      | none => [] := by
  unfold Chart.ancestors
  rw [Chart.ancestorsAux]
  cases hp : c.parentOf s with
  | none => rfl
  | some p =>
    simp only
    by_cases hlt : p < s
    · simp only [hlt, if_true]
      rw [ancestorsAux_fuel c s (p + 1) p hlt (by omega)]
    · simp only [hlt, if_false]

theorem ancestors_of_parent {c : Chart} {s p : Nat} (h : c.parentOf s = some p) (hlt : p < s) :
    c.ancestors s = p :: c.ancestors p := by
  rw [ancestors_eq c s, h]
  simp [hlt]

theorem mem_ancestors_lt {c : Chart} {a : Nat} : ∀ s, a ∈ c.ancestors s → a < s := by
  intro s
  induction s using Nat.strong_induction_on with
  | _ s ih =>
    intro h
    rw [ancestors_eq c s] at h
    cases hp : c.parentOf s with
    | none => simp [hp] at h
    | some p =>
      simp only [hp] at h
      by_cases hlt : p < s
      · simp only [hlt, if_true, List.mem_cons] at h
        rcases h with rfl | h
        · exact hlt
        · have := ih p hlt h
          omega
      · simp [hlt] at h

theorem mem_ancestors_size {c : Chart} {a s : Nat} (h : a ∈ c.ancestors s) : s < c.size := by
  rw [ancestors_eq c s] at h
  cases hp : c.parentOf s with
  | none => simp [hp] at h
  | some p => exact parentOf_lt_size hp

theorem ancestors_trans {c : Chart} {a b : Nat} :
    ∀ d, a ∈ c.ancestors d → b ∈ c.ancestors a → b ∈ c.ancestors d := by
  intro d
  induction d using Nat.strong_induction_on with
  | _ d ih =>
    intro h hb
    rw [ancestors_eq c d] at h ⊢
    cases hp : c.parentOf d with
    | none => simp [hp] at h
    | some p =>
      simp only [hp] at h ⊢
      by_cases hlt : p < d
      · simp only [hlt, if_true, List.mem_cons] at h ⊢
        rcases h with rfl | h
        · exact Or.inr hb
        · exact Or.inr (ih p hlt h hb)
      · simp [hlt] at h

theorem ancestors_chain {c : Chart} {a b : Nat} :
    ∀ d, a ∈ c.ancestors d → b ∈ c.ancestors d →
      a = b ∨ a ∈ c.ancestors b ∨ b ∈ c.ancestors a := by
  intro d
  induction d using Nat.strong_induction_on with
  | _ d ih =>
    intro ha hb
    rw [ancestors_eq c d] at ha hb
    cases hp : c.parentOf d with
    | none => simp [hp] at ha
    | some p =>
      simp only [hp] at ha hb
      by_cases hlt : p < d
      · simp only [hlt, if_true, List.mem_cons] at ha hb
        rcases ha with rfl | ha
        · rcases hb with rfl | hb
          · exact Or.inl rfl
          · exact Or.inr (Or.inr hb)
        · rcases hb with rfl | hb
          · exact Or.inr (Or.inl ha)
          · exact ih p hlt ha hb
      · simp [hlt] at ha

theorem not_mem_ancestors_self {c : Chart} {a : Nat} : a ∉ c.ancestors a := fun h =>
  absurd (mem_ancestors_lt a h) (Nat.lt_irrefl a)

theorem isDescendant_iff {c : Chart} {d a : Nat} :
    c.isDescendant d a = true ↔ a ∈ c.ancestors d := by
  unfold Chart.isDescendant
  simp

theorem wf_of_wellFormed {c : Chart} (h : c.wellFormed = true) : WF c := by
  unfold Chart.wellFormed at h
  simp only [Bool.and_eq_true, List.all_eq_true, List.mem_range, Bool.or_eq_true, beq_iff_eq,
    bne_iff_ne, ne_eq, decide_eq_true_eq] at h
  obtain ⟨h0, hall⟩ := h
  cases hs0 : c.states[0]? with
  | none => simp [hs0] at h0
  | some r =>
    simp only [hs0, Bool.and_eq_true, beq_iff_eq, bne_iff_ne, ne_eq] at h0
    obtain ⟨⟨hp, hk1⟩, hk2⟩ := h0
    have hsz : 0 < c.size := by
      unfold Chart.size
      by_contra hn
      have : c.states[0]? = none := List.getElem?_eq_none (by omega)
      rw [this] at hs0
      cases hs0
    refine ⟨?_, ?_, hsz, ?_, ?_⟩
    · simp [Chart.parentOf, hs0, hp]
    · simp [Chart.isHistory, Chart.kindOf, hs0, hk1, hk2]
    · intro s hs hne
      have := (hall s hs).1
      rcases this with h1 | h1
      · exact absurd h1 hne
      · cases hq : c.parentOf s with
        | none => simp [hq] at h1
        | some p =>
          simp only [hq, Bool.and_eq_true, decide_eq_true_eq, Bool.or_eq_true, beq_iff_eq] at h1
          exact ⟨p, rfl, h1.1, h1.2⟩
    · intro s hk
      have hs := kindOf_lt_size hk
      have := (hall s hs).2
      rcases this with h1 | h1
      · exact absurd hk h1
      · cases hq : c.initialOf s with
        | none => simp [hq] at h1
        | some i =>
          simp only [hq] at h1
          exact ⟨i, rfl, by simpa using h1⟩

theorem child_facts {c : Chart} (hw : WF c) {s ch : Nat} (h : ch ∈ c.children s) :
    c.parentOf ch = some s ∧ s < ch ∧ c.ancestors ch = s :: c.ancestors s ∧
      c.isHistory ch = false := by
  obtain ⟨hp, hh⟩ := mem_children.mp h
  have hlt : ch < c.size := parentOf_lt_size hp
  have hne : ch ≠ 0 := by
    rintro rfl
    rw [hw.rootParent] at hp
    cases hp
  obtain ⟨p, hp2, hlt2, _⟩ := hw.parent ch hlt hne
  rw [hp] at hp2
  cases hp2
  exact ⟨hp, hlt2, ancestors_of_parent hp hlt2, hh⟩

theorem ancestors_of_parentOf {c : Chart} (hw : WF c) {x q : Nat} (h : c.parentOf x = some q) :
    q < x ∧ c.ancestors x = q :: c.ancestors q := by
  have hlt : x < c.size := parentOf_lt_size h
  have hne : x ≠ 0 := by
    rintro rfl
    rw [hw.rootParent] at h
    cases h
  obtain ⟨p, hp2, hlt2, _⟩ := hw.parent x hlt hne
  rw [h] at hp2
  cases hp2
  exact ⟨hlt2, ancestors_of_parent h hlt2⟩

theorem children_of_ge {c : Chart} (hw : WF c) {s : Nat} (h : c.size ≤ s) :
    c.children s = [] := by
  apply List.eq_nil_iff_forall_not_mem.mpr
  intro ch hch
  obtain ⟨hp, hlt, _, _⟩ := child_facts hw hch
  have := parentOf_lt_size hp
  omega

theorem subConfig_nil {c : Chart} (_hw : WF c) {s : Nat}
    (hc : c.kindOf s ≠ some StateKind.compound)
    (hp : c.kindOf s = some StateKind.parallel → c.children s = []) : SubConfig c s [] := by
  refine ⟨?_, ?_, ?_, ?_⟩
  · intro x hx
    cases hx
  · intro x hx
    cases hx
  · intro s1 h1 hk
    rcases h1 with rfl | h1
    · exact absurd hk hc
    · cases h1
  · intro s1 h1 hk ch hch
    rcases h1 with rfl | h1
    · rw [hp hk] at hch
      cases hch
    · cases h1

/-- Entering a list `L` of child states of `s`, each with a full sub-configuration below
it, gives a full sub-configuration below `s` when `L` is what the kind of `s` asks for. -/
theorem subConfig_of_children {c : Chart} (hw : WF c) {s : Nat} (L : List Nat)
    (D : Nat → List Nat) (hL : ∀ ch ∈ L, ch ∈ c.children s)
    (hD : ∀ ch ∈ L, SubConfig c ch (D ch))
    (hcomp : c.kindOf s = some StateKind.compound → ∃ ch, ch ∈ L ∧ ∀ x ∈ L, x = ch)
    (hpar : c.kindOf s = some StateKind.parallel → ∀ ch ∈ c.children s, ch ∈ L) :
    SubConfig c s (L.flatMap (fun ch => ch :: D ch)) := by
  have hmem : ∀ x, x ∈ L.flatMap (fun ch => ch :: D ch) ↔ ∃ ch ∈ L, x = ch ∨ x ∈ D ch := by
    intro x
    simp [List.mem_flatMap]
  -- a member whose parent lies in the branch of `ch1` lies in that branch itself
  have hbranch : ∀ ch1 ∈ L, ∀ ch2 ∈ L, ∀ y q, (y = ch2 ∨ y ∈ D ch2) →
      c.parentOf y = some q → (q = ch1 ∨ q ∈ D ch1) → y ∈ D ch1 := by
    intro ch1 h1 ch2 h2 y q hy hq hq1
    obtain ⟨_, hs1, ha1, _⟩ := child_facts hw (hL ch1 h1)
    obtain ⟨_, hs2, ha2, _⟩ := child_facts hw (hL ch2 h2)
    obtain ⟨_, hay⟩ := ancestors_of_parentOf hw hq
    have hc1 : ch1 ∈ c.ancestors y := by
      rw [hay]
      rcases hq1 with rfl | hq1
      · exact List.mem_cons_self _ _
      · exact List.mem_cons_of_mem _ ((hD ch1 h1).desc q hq1).1
    rcases hy with rfl | hy
    · rw [ha2] at hc1
      rcases List.mem_cons.mp hc1 with e | e
      · omega
      · have := mem_ancestors_lt _ e
        omega
    · have hc2 : ch2 ∈ c.ancestors y := ((hD ch2 h2).desc y hy).1
      rcases ancestors_chain y hc1 hc2 with e | e | e
      · subst e
        exact hy
      · rw [ha2] at e
        rcases List.mem_cons.mp e with e | e
        · omega
        · have := mem_ancestors_lt _ e
          omega
      · rw [ha1] at e
        rcases List.mem_cons.mp e with e | e
        · omega
        · have := mem_ancestors_lt _ e
          omega
  refine ⟨?_, ?_, ?_, ?_⟩
  · intro x hx
    obtain ⟨ch, hch, hx1⟩ := (hmem x).mp hx
    obtain ⟨_, _, ha, hh⟩ := child_facts hw (hL ch hch)
    rcases hx1 with rfl | hx1
    · exact ⟨by rw [ha]; exact List.mem_cons_self _ _, hh⟩
    · have := (hD ch hch).desc x hx1
      refine ⟨ancestors_trans x this.1 ?_, this.2⟩
      rw [ha]
      exact List.mem_cons_self _ _
  · intro x hx q hq
    obtain ⟨ch, hch, hx1⟩ := (hmem x).mp hx
    rcases hx1 with rfl | hx1
    · obtain ⟨hp, _⟩ := child_facts hw (hL x hch)
      rw [hp] at hq
      cases hq
      exact Or.inl rfl
    · rcases (hD ch hch).closed x hx1 q hq with rfl | h1
      · exact Or.inr ((hmem _).mpr ⟨q, hch, Or.inl rfl⟩)
      · exact Or.inr ((hmem _).mpr ⟨ch, hch, Or.inr h1⟩)
  · intro s1 hs1 hk
    rcases hs1 with rfl | hs1
    · obtain ⟨ch, hch, huniq⟩ := hcomp hk
      refine ⟨ch, hL ch hch, (hmem _).mpr ⟨ch, hch, Or.inl rfl⟩, ?_⟩
      intro ch2 hch2 hx2
      obtain ⟨ch3, hch3, h3⟩ := (hmem _).mp hx2
      have e3 := huniq ch3 hch3
      subst e3
      rcases h3 with rfl | h3
      · rfl
      · obtain ⟨_, hlt2, ha2, _⟩ := child_facts hw hch2
        obtain ⟨_, hlt3, _, _⟩ := child_facts hw (hL ch3 hch3)
        have := ((hD ch3 hch3).desc ch2 h3).1
        rw [ha2] at this
        rcases List.mem_cons.mp this with e | e
        · omega
        · have := mem_ancestors_lt _ e
          omega
    · obtain ⟨ch1, hch1, h1⟩ := (hmem _).mp hs1
      obtain ⟨ch, hch, hin, huniq⟩ := (hD ch1 hch1).compound s1
        (by rcases h1 with rfl | h1
            · exact Or.inl rfl
            · exact Or.inr h1) hk
      refine ⟨ch, hch, (hmem _).mpr ⟨ch1, hch1, Or.inr hin⟩, ?_⟩
      intro ch2 hch2 hx2
      obtain ⟨ch3, hch3, h3⟩ := (hmem _).mp hx2
      obtain ⟨hp2, _⟩ := child_facts hw hch2
      exact huniq ch2 hch2 (hbranch ch1 hch1 ch3 hch3 ch2 s1 h3 hp2 h1)
  · intro s1 hs1 hk ch hch
    rcases hs1 with rfl | hs1
    · exact (hmem _).mpr ⟨ch, hpar hk ch hch, Or.inl rfl⟩
    · obtain ⟨ch1, hch1, h1⟩ := (hmem _).mp hs1
      have := (hD ch1 hch1).parallel s1
        (by rcases h1 with rfl | h1
            · exact Or.inl rfl
            · exact Or.inr h1) hk ch hch
      exact (hmem _).mpr ⟨ch1, hch1, Or.inr this⟩

theorem historyTarget_parent {c : Chart} {targets : List Nat} {s h : Nat}
    (e : c.historyTarget targets s = some h) : c.parentOf h = some s := by
  unfold Chart.historyTarget at e
  have := List.find?_some e
  simp only [Bool.and_eq_true, beq_iff_eq] at this
  exact this.2

theorem childToward_mem {c : Chart} {targets : List Nat} {s ch : Nat}
    (e : c.childToward targets s = some ch) : ch ∈ c.children s := by
  unfold Chart.childToward at e
  exact List.mem_of_find?_eq_some e

theorem chosenChildren_spec {c : Chart} (hw : WF c) {hist : History} (hh : HistOK c hist)
    (targets : List Nat) (s : Nat) :
    (∀ ch ∈ c.chosenChildren hist targets s, ch ∈ c.children s) ∧
    (c.kindOf s = some StateKind.compound →
      ∃ ch, ch ∈ c.chosenChildren hist targets s ∧
        ∀ x ∈ c.chosenChildren hist targets s, x = ch) ∧
    (c.kindOf s = some StateKind.parallel →
      ∀ ch ∈ c.children s, ch ∈ c.chosenChildren hist targets s) := by
  have hinit : c.kindOf s = some StateKind.compound →
      ∃ i, (c.initialOf s).toList = [i] ∧ i ∈ c.children s := by
    intro hk
    obtain ⟨i, hi, hc⟩ := hw.initial s hk
    exact ⟨i, by simp [hi], hc⟩
  unfold Chart.chosenChildren
  cases hk : c.kindOf s with
  | none => simp
  | some k =>
    cases k with
    | compound =>
      simp only
      obtain ⟨i, hi, hic⟩ := hinit hk
      cases hct : c.childToward (c.goalsAt hist targets s) s with
      | some ch =>
        simp only
        have := childToward_mem hct
        refine ⟨?_, ?_, ?_⟩
        · intro x hx
          simp only [List.mem_singleton] at hx
          subst hx
          exact this
        · intro _
          exact ⟨ch, by simp, by simp⟩
        · intro h
          cases h
      | none =>
        simp only
        cases hht : c.historyTarget targets s with
        | none =>
          simp only [hi]
          refine ⟨?_, ?_, ?_⟩
          · intro x hx
            simp only [List.mem_singleton] at hx
            subst hx
            exact hic
          · intro _
            exact ⟨i, by simp, by simp⟩
          · intro h
            cases h
        | some h =>
          simp only
          split
          · rename_i hcond
            simp only [Bool.and_eq_true, beq_iff_eq, Bool.not_eq_true', recordOf] at hcond
            have hne : hist h ≠ [] := by
              intro e
              rw [e] at hcond
              simp at hcond
            obtain ⟨ch, hch, hall⟩ :=
              (hh h s (historyTarget_parent hht) hne).2 hcond.1 hk
            have hin : ch ∈ hist h := by
              cases hl : hist h with
              | nil => exact absurd hl hne
              | cons a l =>
                have := hall a (by rw [hl]; exact List.mem_cons_self _ _)
                subst this
                exact List.mem_cons_self _ _
            refine ⟨?_, ?_, ?_⟩
            · intro x hx
              rw [hall x hx]
              exact hch
            · intro _
              exact ⟨ch, hin, hall⟩
            · intro h
              cases h
          · simp only [hi]
            refine ⟨?_, ?_, ?_⟩
            · intro x hx
              simp only [List.mem_singleton] at hx
              subst hx
              exact hic
            · intro _
              exact ⟨i, by simp, by simp⟩
            · intro h
              cases h
    | parallel =>
      simp only
      refine ⟨fun ch h => h, ?_, fun _ ch h => h⟩
      intro h
      cases h
    | atomic => simp
    | final => simp
    | historyShallow => simp
    | historyDeep => simp

theorem deepRestore_sub {c : Chart} {hist : History} (hh : HistOK c hist)
    {targets : List Nat} {s : Nat} {r : List Nat}
    (e : c.deepRestore hist targets s = some r) : SubConfig c s r := by
  unfold Chart.deepRestore at e
  split at e
  · rename_i h _ hht
    split at e
    · rename_i hcond
      simp only [Bool.and_eq_true, beq_iff_eq, Bool.not_eq_true', recordOf] at hcond
      simp only [Option.some.injEq, recordOf] at e
      subst e
      have hne : hist h ≠ [] := by
        intro e
        rw [e] at hcond
        simp at hcond
      exact (hh h s (historyTarget_parent hht) hne).1 hcond.1
    · cases e
  · cases e

/-- The required descendants computed for an entered state form a full sub-configuration
below it. -/
theorem descend_sub {c : Chart} (hw : WF c) {hist : History} (hh : HistOK c hist) :
    ∀ (fuel : Nat) (targets : List Nat) (s : Nat), c.size ≤ fuel + s →
      SubConfig c s (c.descend hist fuel targets s) := by
  intro fuel
  induction fuel with
  | zero =>
    intro targets s hs
    have hk := kindOf_of_ge (c := c) (s := s) (by omega)
    simp only [Chart.descend]
    exact subConfig_nil hw (by rw [hk]; simp) (by rw [hk]; simp)
  | succ fuel ih =>
    intro targets s hs
    simp only [Chart.descend]
    cases hd : c.deepRestore hist targets s with
    | some r => exact deepRestore_sub hh hd
    | none =>
      simp only
      obtain ⟨h1, h2, h3⟩ := chosenChildren_spec hw hh targets s
      apply subConfig_of_children hw _ (fun ch => c.descend hist fuel (c.goalsAt hist targets s) ch)
        h1 _ h2 h3
      intro ch hch
      obtain ⟨_, hlt, _, _⟩ := child_facts hw (h1 ch hch)
      exact ih _ ch (by omega)

/-- The active descendants of an active state form a full sub-configuration below it. -/
theorem configOK_descendants {c : Chart} (hw : WF c) {cfg : List Nat} (hc : ConfigOK c cfg)
    {p : Nat} (hp : p ∈ cfg) : SubConfig c p (cfg.filter (fun s => c.isDescendant s p)) := by
  have hmem : ∀ x, x ∈ cfg.filter (fun s => c.isDescendant s p) ↔
      x ∈ cfg ∧ p ∈ c.ancestors x := by
    intro x
    simp [List.mem_filter, isDescendant_iff]
  have hchild : ∀ s ch, (s = p ∨ s ∈ cfg.filter (fun s => c.isDescendant s p)) →
      ch ∈ c.children s → p ∈ c.ancestors ch := by
    intro s ch hs hch
    obtain ⟨_, _, ha, _⟩ := child_facts hw hch
    rw [ha]
    rcases hs with rfl | hs
    · exact List.mem_cons_self _ _
    · exact List.mem_cons_of_mem _ ((hmem s).mp hs).2
  have hin : ∀ s, (s = p ∨ s ∈ cfg.filter (fun s => c.isDescendant s p)) → s ∈ cfg := by
    intro s hs
    rcases hs with rfl | hs
    · exact hp
    · exact ((hmem s).mp hs).1
  refine ⟨?_, ?_, ?_, ?_⟩
  · intro x hx
    obtain ⟨h1, h2⟩ := (hmem x).mp hx
    exact ⟨h2, (hc.range x h1).2⟩
  · intro x hx q hq
    obtain ⟨h1, h2⟩ := (hmem x).mp hx
    obtain ⟨_, ha⟩ := ancestors_of_parentOf hw hq
    rw [ha] at h2
    rcases List.mem_cons.mp h2 with e | e
    · exact Or.inl e.symm
    · exact Or.inr ((hmem q).mpr ⟨hc.closed x h1 q hq, e⟩)
  · intro s hs hk
    obtain ⟨ch, hch, hcin, huniq⟩ := hc.compound s (hin s hs) hk
    refine ⟨ch, hch, (hmem ch).mpr ⟨hcin, hchild s ch hs hch⟩, ?_⟩
    intro ch2 hch2 h2
    exact huniq ch2 hch2 ((hmem ch2).mp h2).1
  · intro s hs hk ch hch
    exact (hmem ch).mpr ⟨hc.parallel s (hin s hs) hk ch hch, hchild s ch hs hch⟩

/-- The root together with a full sub-configuration below it is a consistent
configuration. -/
theorem configOK_of_root {c : Chart} (hw : WF c) {X cfg : List Nat} (hX : SubConfig c 0 X)
    (hmem : ∀ s, s ∈ cfg ↔ s = 0 ∨ s ∈ X) : ConfigOK c cfg := by
  refine ⟨(hmem 0).mpr (Or.inl rfl), ?_, ?_, ?_, ?_⟩
  · intro x hx
    rcases (hmem x).mp hx with rfl | h
    · exact ⟨hw.rootIn, hw.rootKind⟩
    · exact ⟨mem_ancestors_size (hX.desc x h).1, (hX.desc x h).2⟩
  · intro x hx q hq
    rcases (hmem x).mp hx with rfl | h
    · rw [hw.rootParent] at hq
      cases hq
    · exact (hmem q).mpr (hX.closed x h q hq)
  · intro s hs hk
    obtain ⟨ch, hch, hin, huniq⟩ := hX.compound s ((hmem s).mp hs) hk
    refine ⟨ch, hch, (hmem ch).mpr (Or.inr hin), ?_⟩
    intro ch2 hch2 h2
    rcases (hmem ch2).mp h2 with rfl | h
    · obtain ⟨hp, _⟩ := child_facts hw hch2
      rw [hw.rootParent] at hp
      cases hp
    · exact huniq ch2 hch2 h
  · intro s hs hk ch hch
    exact (hmem ch).mpr (Or.inr (hX.parallel s ((hmem s).mp hs) hk ch hch))

/-- Replacing, below pairwise unrelated active scopes, the active descendants of each scope
by a full sub-configuration below it keeps the configuration consistent. -/
theorem configOK_replace {c : Chart} (hw : WF c) {cfg cfg2 : List Nat} (hc : ConfigOK c cfg)
    (reps : List (Nat × List Nat))
    (hr : ∀ r ∈ reps, r.1 ∈ cfg ∧ SubConfig c r.1 r.2)
    (hpair : ∀ r1 ∈ reps, ∀ r2 ∈ reps, r1 = r2 ∨
      (r1.1 ≠ r2.1 ∧ r1.1 ∉ c.ancestors r2.1 ∧ r2.1 ∉ c.ancestors r1.1))
    (hmem : ∀ s, s ∈ cfg2 ↔
      (s ∈ cfg ∧ ∀ r ∈ reps, r.1 ∉ c.ancestors s) ∨ ∃ r ∈ reps, s ∈ r.2) :
    ConfigOK c cfg2 := by
  -- a member of two replacement sets belongs to one replacement
  have hsame : ∀ r1 ∈ reps, ∀ r2 ∈ reps, ∀ y, r1.1 ∈ c.ancestors y → r2.1 ∈ c.ancestors y →
      r1 = r2 := by
    intro r1 h1 r2 h2 y hy1 hy2
    rcases hpair r1 h1 r2 h2 with e | ⟨hne, hn1, hn2⟩
    · exact e
    · rcases ancestors_chain y hy1 hy2 with e | e | e
      · exact absurd e hne
      · exact absurd e hn1
      · exact absurd e hn2
  have hscope : ∀ r ∈ reps, r.1 ∈ cfg2 := by
    intro r hrm
    refine (hmem _).mpr (Or.inl ⟨(hr r hrm).1, ?_⟩)
    intro r2 hr2 hin
    rcases hpair r hrm r2 hr2 with e | ⟨_, _, hn2⟩
    · subst e
      exact not_mem_ancestors_self hin
    · exact hn2 hin
  -- the child states of a member that are members of `cfg2`
  have hkids : ∀ s, s ∈ cfg2 → ∀ ch, ch ∈ c.children s →
      ((∃ r ∈ reps, (s = r.1 ∨ s ∈ r.2) ∧ (ch ∈ cfg2 ↔ ch ∈ r.2)) ∨
       ((∀ r ∈ reps, s ≠ r.1 ∧ s ∉ r.2) ∧ s ∈ cfg ∧ (ch ∈ cfg2 ↔ ch ∈ cfg))) := by
    intro s hs ch hch
    obtain ⟨hpch, _, hach, _⟩ := child_facts hw hch
    by_cases hex : ∃ r ∈ reps, s = r.1 ∨ s ∈ r.2
    · obtain ⟨r, hrm, hsr⟩ := hex
      left
      refine ⟨r, hrm, hsr, ?_⟩
      have hrch : r.1 ∈ c.ancestors ch := by
        rw [hach]
        rcases hsr with e | e
        · rw [e]
          exact List.mem_cons_self _ _
        · exact List.mem_cons_of_mem _ ((hr r hrm).2.desc s e).1
      constructor
      · intro h
        rcases (hmem ch).mp h with ⟨_, hno⟩ | ⟨r2, hr2, hin2⟩
        · exact absurd hrch (hno r hrm)
        · have := hsame r hrm r2 hr2 ch hrch ((hr r2 hr2).2.desc ch hin2).1
          subst this
          exact hin2
      · intro h
        exact (hmem ch).mpr (Or.inr ⟨r, hrm, h⟩)
    · right
      have hno : ∀ r ∈ reps, s ≠ r.1 ∧ s ∉ r.2 := by
        intro r hrm
        constructor
        · intro e
          exact hex ⟨r, hrm, Or.inl e⟩
        · intro e
          exact hex ⟨r, hrm, Or.inr e⟩
      have hscfg : s ∈ cfg ∧ ∀ r ∈ reps, r.1 ∉ c.ancestors s := by
        rcases (hmem s).mp hs with h | ⟨r, hrm, hin⟩
        · exact h
        · exact absurd hin (hno r hrm).2
      have hnoch : ∀ r ∈ reps, r.1 ∉ c.ancestors ch := by
        intro r hrm hin
        rw [hach] at hin
        rcases List.mem_cons.mp hin with e | e
        · exact (hno r hrm).1 e.symm
        · exact hscfg.2 r hrm e
      refine ⟨hno, hscfg.1, ?_⟩
      constructor
      · intro h
        rcases (hmem ch).mp h with ⟨h1, _⟩ | ⟨r2, hr2, hin2⟩
        · exact h1
        · exact absurd ((hr r2 hr2).2.desc ch hin2).1 (hnoch r2 hr2)
      · intro h
        exact (hmem ch).mpr (Or.inl ⟨h, hnoch⟩)
  refine ⟨?_, ?_, ?_, ?_, ?_⟩
  · refine (hmem 0).mpr (Or.inl ⟨hc.root, ?_⟩)
    intro r _ hin
    have := mem_ancestors_lt 0 hin
    omega
  · intro x hx
    rcases (hmem x).mp hx with ⟨h, _⟩ | ⟨r, hrm, hin⟩
    · exact hc.range x h
    · exact ⟨mem_ancestors_size ((hr r hrm).2.desc x hin).1, ((hr r hrm).2.desc x hin).2⟩
  · intro x hx q hq
    obtain ⟨_, ha⟩ := ancestors_of_parentOf hw hq
    rcases (hmem x).mp hx with ⟨h, hno⟩ | ⟨r, hrm, hin⟩
    · refine (hmem q).mpr (Or.inl ⟨hc.closed x h q hq, ?_⟩)
      intro r hrm hin
      exact hno r hrm (by rw [ha]; exact List.mem_cons_of_mem _ hin)
    · rcases (hr r hrm).2.closed x hin q hq with e | e
      · rw [e]
        exact hscope r hrm
      · exact (hmem q).mpr (Or.inr ⟨r, hrm, e⟩)
  · intro s hs hk
    have key : ∀ ch, ch ∈ c.children s → _ := hkids s hs
    by_cases hex : ∃ r ∈ reps, s = r.1 ∨ s ∈ r.2
    · obtain ⟨r, hrm, hsr⟩ := hex
      obtain ⟨ch, hch, hin, huniq⟩ := (hr r hrm).2.compound s hsr hk
      refine ⟨ch, hch, (hmem ch).mpr (Or.inr ⟨r, hrm, hin⟩), ?_⟩
      intro ch2 hch2 h2
      rcases key ch2 hch2 with ⟨r2, hr2, hsr2, hiff⟩ | ⟨hno, _, _⟩
      · have hrs : ∀ r3 ∈ reps, (s = r3.1 ∨ s ∈ r3.2) → r3.1 ∈ c.ancestors ch2 := by
          intro r3 hr3 h3
          rw [(child_facts hw hch2).2.2.1]
          rcases h3 with e | e
          · rw [e]
            exact List.mem_cons_self _ _
          · exact List.mem_cons_of_mem _ ((hr r3 hr3).2.desc s e).1
        have := hsame r hrm r2 hr2 ch2 (hrs r hrm hsr) (hrs r2 hr2 hsr2)
        subst this
        exact huniq ch2 hch2 (hiff.mp h2)
      · rcases hsr with e | e
        · exact absurd e (hno r hrm).1
        · exact absurd e (hno r hrm).2
    · have hno : ∀ r ∈ reps, ¬(s = r.1 ∨ s ∈ r.2) := fun r hrm h => hex ⟨r, hrm, h⟩
      have hscfg : s ∈ cfg := by
        rcases (hmem s).mp hs with h | ⟨r, hrm, hin⟩
        · exact h.1
        · exact absurd (Or.inr hin) (hno r hrm)
      obtain ⟨ch, hch, hin, huniq⟩ := hc.compound s hscfg hk
      have hiff : ∀ ch2, ch2 ∈ c.children s → (ch2 ∈ cfg2 ↔ ch2 ∈ cfg) := by
        intro ch2 hch2
        rcases key ch2 hch2 with ⟨r2, hr2, hsr2, _⟩ | ⟨_, _, h⟩
        · exact absurd hsr2 (hno r2 hr2)
        · exact h
      exact ⟨ch, hch, (hiff ch hch).mpr hin, fun ch2 hch2 h2 =>
        huniq ch2 hch2 ((hiff ch2 hch2).mp h2)⟩
  · intro s hs hk ch hch
    rcases hkids s hs ch hch with ⟨r, hrm, hsr, hiff⟩ | ⟨_, hscfg, hiff⟩
    · exact hiff.mpr ((hr r hrm).2.parallel s hsr hk ch hch)
    · exact hiff.mpr (hc.parallel s hscfg hk ch hch)

theorem exits_iff {c : Chart} {t : Transition} {s : Nat} :
    c.exits t s = true ↔ ∃ x, c.scopeOf t = some x ∧ x ∈ c.ancestors s := by
  unfold Chart.exits
  cases h : c.scopeOf t with
  | none => simp
  | some x => simp [isDescendant_iff]

theorem scopeOf_mem {c : Chart} {t : Transition} {x : Nat} (h : c.scopeOf t = some x) :
    x ∈ c.ancestors t.source := by
  unfold Chart.scopeOf at h
  split at h
  · cases h
  · exact List.mem_of_find?_eq_some h

theorem conflict_iff {c : Chart} {cfg : List Nat} {t1 t2 : Transition} :
    c.conflict cfg t1 t2 = true ↔ ∃ s ∈ cfg, c.exits t1 s = true ∧ c.exits t2 s = true := by
  unfold Chart.conflict Chart.exitSetOf
  simp only [List.any_eq_true, List.mem_filter]
  constructor
  · rintro ⟨s, ⟨h1, h2⟩, h3⟩
    exact ⟨s, h1, h2, h3⟩
  · rintro ⟨s, h1, h2, h3⟩
    exact ⟨s, ⟨h1, h2⟩, h3⟩

theorem conflict_symm {c : Chart} {cfg : List Nat} {t1 t2 : Transition}
    (h : c.conflict cfg t1 t2 = false) : c.conflict cfg t2 t1 = false := by
  cases h2 : c.conflict cfg t2 t1 with
  | false => rfl
  | true =>
    obtain ⟨s, hs, e1, e2⟩ := conflict_iff.mp h2
    have := conflict_iff.mpr ⟨s, hs, e2, e1⟩
    rw [h] at this
    cases this

theorem resolveConflicts_spec (c : Chart) (cfg : List Nat) :
    ∀ (rest kept : List (Nat × Transition)), Independent c cfg kept →
      Independent c cfg (c.resolveConflicts cfg kept rest) ∧
      ∀ x ∈ c.resolveConflicts cfg kept rest, x ∈ kept ∨ x ∈ rest := by
  intro rest
  induction rest with
  | nil =>
    intro kept hk
    exact ⟨hk, fun x hx => Or.inl hx⟩
  | cons y rest ih =>
    intro kept hk
    simp only [Chart.resolveConflicts]
    split
    · obtain ⟨h1, h2⟩ := ih kept hk
      refine ⟨h1, fun x hx => ?_⟩
      rcases h2 x hx with h | h
      · exact Or.inl h
      · exact Or.inr (List.mem_cons_of_mem _ h)
    · rename_i hno
      simp only [List.any_eq_true, not_exists, not_and, Bool.not_eq_true] at hno
      have hk2 : Independent c cfg (kept ++ [y]) := by
        intro a ha b hb
        rcases List.mem_append.mp ha with ha1 | ha1
        · rcases List.mem_append.mp hb with hb1 | hb1
          · exact hk a ha1 b hb1
          · simp only [List.mem_singleton] at hb1
            rw [hb1]
            exact Or.inr (hno a ha1)
        · simp only [List.mem_singleton] at ha1
          rcases List.mem_append.mp hb with hb1 | hb1
          · rw [ha1]
            exact Or.inr (conflict_symm (hno b hb1))
          · simp only [List.mem_singleton] at hb1
            rw [ha1, hb1]
            exact Or.inl rfl
      obtain ⟨h1, h2⟩ := ih (kept ++ [y]) hk2
      refine ⟨h1, fun x hx => ?_⟩
      rcases h2 x hx with h | h
      · rcases List.mem_append.mp h with h | h
        · exact Or.inl h
        · simp only [List.mem_singleton] at h
          subst h
          exact Or.inr (List.mem_cons_self _ _)
      · exact Or.inr (List.mem_cons_of_mem _ h)

theorem candidates_source {σ : Type} {c : Chart} {h : Host σ} {hs : σ} {cfg : List Nat}
    {ev : Option Event} {it : Nat × Transition} (hit : it ∈ c.candidates h hs cfg ev) :
    it.2.source ∈ cfg := by
  unfold Chart.candidates at hit
  obtain ⟨s, hsm, hf⟩ := List.mem_filterMap.mp hit
  have := List.find?_some hf
  simp only [Bool.and_eq_true, beq_iff_eq] at this
  rw [this.1]
  exact hsm

/-- The selected transitions have active sources and no two of them conflict. -/
theorem select_spec {σ : Type} (c : Chart) (h : Host σ) (hs : σ) (cfg : List Nat)
    (ev : Option Event) :
    (∀ it ∈ c.select h hs cfg ev, it.2.source ∈ cfg) ∧
      Independent c cfg (c.select h hs cfg ev) := by
  obtain ⟨h1, h2⟩ := resolveConflicts_spec c cfg
    ((c.candidates h hs cfg ev).insertionSort (fun a b => c.outranks a.2 b.2 = true)) []
    (by intro a ha; cases ha)
  have hm : ∀ it, it ∈ c.select h hs cfg ev ↔ it ∈ c.resolveConflicts cfg []
      ((c.candidates h hs cfg ev).insertionSort (fun a b => c.outranks a.2 b.2 = true)) := by
    intro it
    unfold Chart.select
    exact (List.perm_insertionSort _ _).mem_iff
  constructor
  · intro it hit
    rcases h2 it ((hm it).mp hit) with hx | hx
    · cases hx
    · exact candidates_source ((List.perm_insertionSort _ _).mem_iff.mp hx)
  · intro a ha b hb
    exact h1 a ((hm a).mp ha) b ((hm b).mp hb)

theorem configOK_ancestors {c : Chart} {cfg : List Nat} (hc : ConfigOK c cfg) {a : Nat} :
    ∀ s, s ∈ cfg → a ∈ c.ancestors s → a ∈ cfg := by
  intro s
  induction s using Nat.strong_induction_on with
  | _ s ih =>
    intro hs ha
    rw [ancestors_eq c s] at ha
    cases hp : c.parentOf s with
    | none => simp [hp] at ha
    | some p =>
      simp only [hp] at ha
      by_cases hlt : p < s
      · simp only [hlt, if_true, List.mem_cons] at ha
        have hpc := hc.closed s hs p hp
        rcases ha with rfl | ha
        · exact hpc
        · exact ih p hlt hpc ha
      · simp [hlt] at ha

theorem recordHistory_ok {c : Chart} (hw : WF c) {cfg exitSet : List Nat} {hist : History}
    (hh : HistOK c hist) (hex : ∀ p ∈ exitSet, p ∈ cfg ∧ ConfigOK c cfg) :
    HistOK c (c.recordHistory cfg exitSet hist) := by
  intro h p hp hne
  have hold : c.recordHistory cfg exitSet hist h = hist h ∨
      (p ∈ exitSet ∧
        ((c.kindOf h = some StateKind.historyShallow ∧
          c.recordHistory cfg exitSet hist h = cfg.filter (fun s => (c.children p).contains s)) ∨
         (c.kindOf h = some StateKind.historyDeep ∧
          c.recordHistory cfg exitSet hist h = cfg.filter (fun s => c.isDescendant s p)))) := by
    unfold Chart.recordHistory
    rw [hp]
    cases hk : c.kindOf h with
    | none => exact Or.inl rfl
    | some k =>
      cases k with
      | historyShallow =>
        simp only
        by_cases hc : exitSet.contains p = true
        · right
          exact ⟨by simpa using hc, Or.inl ⟨trivial, by simp only [hc, if_true]⟩⟩
        · left
          simp only [hc]
          rfl
      | historyDeep =>
        simp only
        by_cases hc : exitSet.contains p = true
        · right
          exact ⟨by simpa using hc, Or.inr ⟨trivial, by simp only [hc, if_true]⟩⟩
        · left
          simp only [hc]
          rfl
      | atomic => exact Or.inl rfl
      | compound => exact Or.inl rfl
      | parallel => exact Or.inl rfl
      | final => exact Or.inl rfl
  rcases hold with e | ⟨hpe, e | e⟩
  · rw [e] at hne ⊢
    exact hh h p hp hne
  · obtain ⟨hk, e⟩ := e
    obtain ⟨hpc, hc⟩ := hex p hpe
    rw [e]
    constructor
    · intro hk2
      rw [hk] at hk2
      cases hk2
    · intro _ hkp
      obtain ⟨ch, hch, _, huniq⟩ := hc.compound p hpc hkp
      refine ⟨ch, hch, ?_⟩
      intro x hx
      simp only [List.mem_filter] at hx
      exact huniq x (by simpa using hx.2) hx.1
  · obtain ⟨hk, e⟩ := e
    obtain ⟨hpc, hc⟩ := hex p hpe
    rw [e]
    constructor
    · intro _
      exact configOK_descendants hw hc hpc
    · intro hk2
      rw [hk] at hk2
      cases hk2

theorem microstep_config_ok {σ : Type} {c : Chart} (hw : WF c) (h : Host σ) (e : Engine σ)
    (ev : Option Event) (sel : List (Nat × Transition)) (hc : ConfigOK c e.config)
    (hh : HistOK c e.history)
    (hsrc : ∀ it ∈ sel, it.2.source ∈ e.config) (hind : Independent c e.config sel) :
    ConfigOK c (c.microstep h e ev sel).config := by
  have hexit : ∀ p, p ∈ e.config.filter (fun s => sel.any (fun it => c.exits it.2 s)) →
      p ∈ e.config ∧ ConfigOK c e.config := fun p hp => ⟨(List.mem_filter.mp hp).1, hc⟩
  have hh2 := @recordHistory_ok c hw e.config _ e.history hh hexit
  let hist2 := c.recordHistory e.config
    (e.config.filter (fun s => sel.any (fun it => c.exits it.2 s))) e.history
  apply configOK_replace hw hc
    (sel.filterMap (fun it => (c.scopeOf it.2).map
      (fun x => (x, c.descend hist2 c.size it.2.targets x))))
  · intro r hr
    obtain ⟨it, hit, hf⟩ := List.mem_filterMap.mp hr
    cases hsc : c.scopeOf it.2 with
    | none => simp [hsc] at hf
    | some x =>
      simp only [hsc, Option.map_some', Option.some.injEq] at hf
      subst hf
      exact ⟨configOK_ancestors hc _ (hsrc it hit) (scopeOf_mem hsc),
        descend_sub hw hh2 _ _ _ (by omega)⟩
  · intro r1 hr1 r2 hr2
    obtain ⟨it1, hit1, hf1⟩ := List.mem_filterMap.mp hr1
    obtain ⟨it2, hit2, hf2⟩ := List.mem_filterMap.mp hr2
    cases hsc1 : c.scopeOf it1.2 with
    | none => simp [hsc1] at hf1
    | some x1 =>
      cases hsc2 : c.scopeOf it2.2 with
      | none => simp [hsc2] at hf2
      | some x2 =>
        simp only [hsc1, Option.map_some', Option.some.injEq] at hf1
        simp only [hsc2, Option.map_some', Option.some.injEq] at hf2
        rcases hind it1 hit1 it2 hit2 with heq | hno
        · left
          subst heq
          rw [hsc1] at hsc2
          cases hsc2
          rw [← hf1, ← hf2]
        · right
          subst hf1
          subst hf2
          have hs1 := scopeOf_mem hsc1
          have hs2 := scopeOf_mem hsc2
          have hnc : ∀ s, s ∈ e.config → x1 ∈ c.ancestors s → x2 ∈ c.ancestors s → False := by
            intro s hs ha1 ha2
            have := conflict_iff.mpr ⟨s, hs, exits_iff.mpr ⟨x1, hsc1, ha1⟩,
              exits_iff.mpr ⟨x2, hsc2, ha2⟩⟩
            rw [hno] at this
            cases this
          refine ⟨?_, ?_, ?_⟩
          · intro heq
            simp only at heq
            subst heq
            exact hnc _ (hsrc it1 hit1) hs1 hs1
          · intro hin
            exact hnc _ (hsrc it2 hit2) (ancestors_trans _ hs2 hin) hs2
          · intro hin
            exact hnc _ (hsrc it1 hit1) hs1 (ancestors_trans _ hs1 hin)
  · intro s
    have hscope : ∀ r, r ∈ sel.filterMap (fun it => (c.scopeOf it.2).map
        (fun x => (x, c.descend hist2 c.size it.2.targets x))) ↔
        ∃ it ∈ sel, ∃ x, c.scopeOf it.2 = some x ∧
          r = (x, c.descend hist2 c.size it.2.targets x) := by
      intro r
      simp only [List.mem_filterMap, Option.map_eq_some']
      constructor
      · rintro ⟨it, hit, x, hx, rfl⟩
        exact ⟨it, hit, x, hx, rfl⟩
      · rintro ⟨it, hit, x, hx, rfl⟩
        exact ⟨it, hit, x, hx, rfl⟩
    have hentry : s ∈ c.entrySet hist2 sel ↔
        ∃ r ∈ sel.filterMap (fun it => (c.scopeOf it.2).map
          (fun x => (x, c.descend hist2 c.size it.2.targets x))), s ∈ r.2 := by
      unfold Chart.entrySet
      simp only [List.mem_flatMap]
      constructor
      · rintro ⟨it, hit, hs⟩
        cases hsc : c.scopeOf it.2 with
        | none => simp [hsc] at hs
        | some x =>
          simp only [hsc] at hs
          exact ⟨_, (hscope _).mpr ⟨it, hit, x, hsc, rfl⟩, hs⟩
      · rintro ⟨r, hr, hs⟩
        obtain ⟨it, hit, x, hsc, rfl⟩ := (hscope r).mp hr
        exact ⟨it, hit, by simpa [hsc] using hs⟩
    have hexits : (∃ it ∈ sel, c.exits it.2 s = true) ↔
        ∃ r ∈ sel.filterMap (fun it => (c.scopeOf it.2).map
          (fun x => (x, c.descend hist2 c.size it.2.targets x))), r.1 ∈ c.ancestors s := by
      constructor
      · rintro ⟨it, hit, hx⟩
        obtain ⟨x, hsc, hin⟩ := exits_iff.mp hx
        exact ⟨_, (hscope _).mpr ⟨it, hit, x, hsc, rfl⟩, hin⟩
      · rintro ⟨r, hr, hin⟩
        obtain ⟨it, hit, x, hsc, rfl⟩ := (hscope r).mp hr
        exact ⟨it, hit, exits_iff.mpr ⟨x, hsc, hin⟩⟩
    have hcfg : s ∈ (c.microstep h e ev sel).config ↔
        s < c.size ∧ ((s ∈ e.config ∧ ¬(s ∈ e.config ∧ ∃ it ∈ sel, c.exits it.2 s = true))
          ∨ s ∈ c.entrySet hist2 sel) := by
      simp only [Chart.microstep, List.elem_eq_mem, List.mem_filter, List.any_eq_true,
        Prod.exists, List.mem_range, Bool.or_eq_true, Bool.and_eq_true, decide_eq_true_eq,
        Bool.not_eq_eq_eq_not, Bool.not_true, decide_eq_false_iff_not, not_and, not_exists,
        Bool.not_eq_true, hist2]
    rw [hcfg, hentry]
    constructor
    · rintro ⟨_, h2⟩
      rcases h2 with ⟨h3, h4⟩ | h3
      · left
        refine ⟨h3, ?_⟩
        intro r hr hin
        exact h4 ⟨h3, hexits.mpr ⟨r, hr, hin⟩⟩
      · exact Or.inr h3
    · intro h2
      rcases h2 with ⟨h3, h4⟩ | ⟨r, hr, hs⟩
      · refine ⟨(hc.range s h3).1, Or.inl ⟨h3, ?_⟩⟩
        rintro ⟨_, hx⟩
        obtain ⟨r, hr, hin⟩ := hexits.mp hx
        exact h4 r hr hin
      · obtain ⟨it, hit, x, hsc, rfl⟩ := (hscope r).mp hr
        have hsub := descend_sub hw hh2 c.size it.2.targets x (by omega)
        exact ⟨mem_ancestors_size (hsub.desc s hs).1, Or.inr ⟨_, hr, hs⟩⟩

theorem microstep_history {σ : Type} (c : Chart) (h : Host σ) (e : Engine σ)
    (ev : Option Event) (sel : List (Nat × Transition)) :
    (c.microstep h e ev sel).history = c.recordHistory e.config
      (e.config.filter (fun s => sel.any (fun it => c.exits it.2 s))) e.history := rfl

theorem microstep_phase {σ : Type} (c : Chart) (h : Host σ) (e : Engine σ)
    (ev : Option Event) (sel : List (Nat × Transition)) :
    (c.microstep h e ev sel).phase = e.phase := rfl

theorem microstep_externalQ {σ : Type} (c : Chart) (h : Host σ) (e : Engine σ)
    (ev : Option Event) (sel : List (Nat × Transition)) :
    (c.microstep h e ev sel).externalQ = e.externalQ := rfl

theorem microstep_ok {σ : Type} {c : Chart} (hw : WF c) (h : Host σ) (e : Engine σ)
    (ev : Option Event) (sel : List (Nat × Transition)) (he : EngineOK c e)
    (hsrc : ∀ it ∈ sel, it.2.source ∈ e.config) (hind : Independent c e.config sel) :
    EngineOK c (c.microstep h e ev sel) := by
  obtain ⟨hh, hcfg, hrun⟩ := he
  have hhist : HistOK c (c.microstep h e ev sel).history := by
    rw [microstep_history]
    apply recordHistory_ok hw hh
    intro p hp
    have hp1 := (List.mem_filter.mp hp).1
    rcases hcfg with h0 | h0
    · rw [h0] at hp1
      cases hp1
    · exact ⟨hp1, h0⟩
  rcases hcfg with h0 | h0
  · have hsel : sel = [] := by
      cases sel with
      | nil => rfl
      | cons it rest =>
        have := hsrc it (List.mem_cons_self _ _)
        rw [h0] at this
        cases this
    have hc0 : (c.microstep h e ev sel).config = [] := by
      subst hsel
      simp [Chart.microstep, h0, Chart.entrySet]
    refine ⟨hhist, Or.inl hc0, ?_⟩
    intro hne
    rw [microstep_phase] at hne
    have := hrun hne
    rw [h0] at this
    exact absurd this.root (by simp)
  · have := microstep_config_ok hw h e ev sel h0 hh hsrc hind
    exact ⟨hhist, Or.inr this, fun _ => this⟩

theorem settle_ok {σ : Type} {c : Chart} {e : Engine σ} (he : EngineOK c e)
    (hp : e.phase ≠ Phase.idle) : EngineOK c (c.settle e) ∧ (c.settle e).phase ≠ Phase.idle := by
  unfold Chart.settle
  split
  · exact ⟨⟨he.1, he.2.1, fun _ => he.2.2 hp⟩, by simp⟩
  · exact ⟨he, hp⟩

theorem fire_ok {σ : Type} {c : Chart} (hw : WF c) (h : Host σ) (e : Engine σ)
    (ev : Option Event) (he : EngineOK c e) (hp : e.phase ≠ Phase.idle) :
    EngineOK c (c.fire h e ev) ∧ (c.fire h e ev).phase ≠ Phase.idle := by
  unfold Chart.fire
  simp only
  split
  · exact ⟨⟨he.1, he.2.1, he.2.2⟩, hp⟩
  · obtain ⟨h1, h2⟩ := select_spec c h e.host e.config ev
    apply settle_ok
    · exact microstep_ok hw h _ ev _ ⟨he.1, he.2.1, he.2.2⟩ h1 h2
    · exact hp

theorem step_ok {σ : Type} {c : Chart} (hw : WF c) (h : Host σ) (e : Engine σ)
    (he : EngineOK c e) : EngineOK c (c.step h e) := by
  unfold Chart.step
  cases hp : e.phase with
  | idle => exact he
  | final => exact he
  | stabilizing =>
    have hrun : ConfigOK c e.config := he.2.2 (by rw [hp]; simp)
    simp only
    split
    · exact (fire_ok hw h e none he (by rw [hp]; simp)).1
    · split
      · refine (fire_ok hw h _ _ ?_ ?_).1
        · exact ⟨he.1, he.2.1, fun _ => hrun⟩
        · simp only [hp]
          simp
      · exact ⟨he.1, he.2.1, fun _ => hrun⟩
  | awaitingExternal =>
    have hrun : ConfigOK c e.config := he.2.2 (by rw [hp]; simp)
    simp only
    split
    · exact ⟨he.1, he.2.1, fun _ => hrun⟩
    · split
      · refine (fire_ok hw h _ _ ?_ ?_).1
        · exact ⟨he.1, he.2.1, fun _ => hrun⟩
        · simp
      · exact he

theorem start_ok {σ : Type} {c : Chart} (hw : WF c) (h : Host σ) (e e1 : Engine σ)
    (he : EngineOK c e) (hs : c.start h e = Except.ok e1) : EngineOK c e1 := by
  unfold Chart.start at hs
  split at hs
  · cases hs
  · simp only [Except.ok.injEq] at hs
    subst hs
    have hsub := descend_sub hw he.1 c.size [] 0 (by omega)
    have hc : ConfigOK c ((List.range c.size).filter
        (fun s => (0 :: c.descend e.history c.size [] 0).contains s)) := by
      apply configOK_of_root hw hsub
      intro s
      simp only [List.mem_filter, List.mem_range, List.elem_eq_mem, decide_eq_true_eq,
        List.mem_cons]
      constructor
      · rintro ⟨_, h2⟩
        exact h2
      · intro h2
        refine ⟨?_, h2⟩
        rcases h2 with rfl | h2
        · exact hw.rootIn
        · exact mem_ancestors_size (hsub.desc s h2).1
    apply And.left
    apply settle_ok
    · exact ⟨he.1, Or.inr hc, fun _ => hc⟩
    · simp

theorem stop_ok {σ : Type} {c : Chart} (h : Host σ) (e e1 : Engine σ)
    (he : EngineOK c e) (hs : c.stop h e = Except.ok e1) : EngineOK c e1 := by
  unfold Chart.stop at hs
  split at hs
  · cases hs
  · simp only [Except.ok.injEq] at hs
    subst hs
    exact ⟨he.1, Or.inl rfl, fun hne => absurd rfl hne⟩

theorem submitEvent_ok {σ : Type} {c : Chart} (e : Engine σ) (ev : Event)
    (he : EngineOK c e) : EngineOK c (submitEvent e ev) := by
  unfold submitEvent
  split
  · exact he
  · split
    · exact ⟨he.1, he.2.1, he.2.2⟩
    · exact ⟨he.1, he.2.1, he.2.2⟩

theorem init_ok {σ : Type} (c : Chart) (hs : σ) : EngineOK c (Engine.init hs) := by
  refine ⟨?_, Or.inl rfl, fun hne => absurd rfl hne⟩
  intro h p _ hne
  exact absurd rfl hne

theorem apply_ok {σ : Type} {c : Chart} (hw : WF c) (h : Host σ) (e : Engine σ) (op : Op)
    (he : EngineOK c e) : EngineOK c (c.apply h e op) := by
  cases op with
  | start =>
    simp only [Chart.apply]
    cases hs : c.start h e with
    | ok e1 => exact start_ok hw h e e1 he hs
    | error _ => exact he
  | submit ev => exact submitEvent_ok e ev he
  | step => exact step_ok hw h e he
  | stop =>
    simp only [Chart.apply]
    cases hs : c.stop h e with
    | ok e1 => exact stop_ok h e e1 he hs
    | error _ => exact he

theorem run_ok {σ : Type} {c : Chart} (hw : WF c) (h : Host σ) (ops : List Op) :
    ∀ e : Engine σ, EngineOK c e → EngineOK c (c.run h e ops) := by
  induction ops with
  | nil => exact fun e he => he
  | cons op ops ih =>
    intro e he
    exact ih _ (apply_ok hw h e op he)

/-- C1: at every point of every run of the engine on a validated chart (after start and
after every operation and driver turn, each microstep being one atomic turn), every active
compound state has exactly one active child and every active parallel state has all of its
children active; while a run is in progress the root is active. -/
theorem run_configuration_consistent {σ : Type} (c : Chart) (h : Host σ) (hs : σ)
    (ops : List Op) (hw : c.wellFormed = true) :
    (∀ s ∈ (c.run h (Engine.init hs) ops).config, c.kindOf s = some StateKind.compound →
      ∃! ch, ch ∈ c.children s ∧ ch ∈ (c.run h (Engine.init hs) ops).config) ∧
    (∀ s ∈ (c.run h (Engine.init hs) ops).config, c.kindOf s = some StateKind.parallel →
      ∀ ch ∈ c.children s, ch ∈ (c.run h (Engine.init hs) ops).config) ∧
    ((c.run h (Engine.init hs) ops).phase ≠ Phase.idle →
      0 ∈ (c.run h (Engine.init hs) ops).config) := by
  obtain ⟨_, hcfg, hrun⟩ := run_ok (wf_of_wellFormed hw) h ops (Engine.init hs) (init_ok c hs)
  refine ⟨?_, ?_, fun hne => (hrun hne).root⟩
  · intro s hs1 hk
    rcases hcfg with h0 | h0
    · rw [h0] at hs1
      cases hs1
    · obtain ⟨ch, hch, hin, huniq⟩ := h0.compound s hs1 hk
      exact ⟨ch, ⟨hch, hin⟩, fun ch2 h2 => huniq ch2 h2.1 h2.2⟩
  · intro s hs1 hk ch hch
    rcases hcfg with h0 | h0
    · rw [h0] at hs1
      cases hs1
    · exact h0.parallel s hs1 hk ch hch

theorem run_configuration_consistent_witness :
    sampleChart.wellFormed = true ∧
    (sampleChart.run sampleHost (Engine.init ()) sampleOps).config = [0, 1, 2, 4, 5, 6] ∧
    ((∀ s ∈ (sampleChart.run sampleHost (Engine.init ()) sampleOps).config,
        sampleChart.kindOf s = some StateKind.compound →
        ∃! ch, ch ∈ sampleChart.children s ∧
          ch ∈ (sampleChart.run sampleHost (Engine.init ()) sampleOps).config) ∧
      (∀ s ∈ (sampleChart.run sampleHost (Engine.init ()) sampleOps).config,
        sampleChart.kindOf s = some StateKind.parallel →
        ∀ ch ∈ sampleChart.children s,
          ch ∈ (sampleChart.run sampleHost (Engine.init ()) sampleOps).config) ∧
      ((sampleChart.run sampleHost (Engine.init ()) sampleOps).phase ≠ Phase.idle →
        0 ∈ (sampleChart.run sampleHost (Engine.init ()) sampleOps).config)) :=
  ⟨by decide, by decide,
    run_configuration_consistent sampleChart sampleHost () sampleOps (by decide)⟩

theorem fire_externalQ {σ : Type} (c : Chart) (h : Host σ) (e : Engine σ) (ev : Option Event)
    (q : List Event) :
    c.fire h { e with externalQ := q } ev = { c.fire h e ev with externalQ := q } := by
  unfold Chart.fire
  simp only
  split
  · rfl
  · unfold Chart.settle
    simp only [Chart.microstep]
    split <;> rfl

theorem fire_keeps_externalQ {σ : Type} (c : Chart) (h : Host σ) (e : Engine σ)
    (ev : Option Event) : (c.fire h e ev).externalQ = e.externalQ := by
  unfold Chart.fire
  simp only
  split
  · rfl
  · unfold Chart.settle
    split <;> rfl

theorem settle_externalQ {σ : Type} (c : Chart) (e : Engine σ) :
    (c.settle e).externalQ = e.externalQ := by
  unfold Chart.settle
  split <;> rfl

theorem start_externalQ {σ : Type} (c : Chart) (h : Host σ) (e e1 : Engine σ)
    (hs : c.start h e = Except.ok e1) : e1.externalQ = e.externalQ := by
  unfold Chart.start at hs
  split at hs
  · cases hs
  · simp only [Except.ok.injEq] at hs
    rw [← hs, settle_externalQ]

theorem stop_externalQ {σ : Type} (c : Chart) (h : Host σ) (e e1 : Engine σ)
    (hs : c.stop h e = Except.ok e1) : e1.externalQ = e.externalQ := by
  unfold Chart.stop at hs
  split at hs
  · cases hs
  · simp only [Except.ok.injEq] at hs
    rw [← hs]

/-- C2 (run-to-completion): while the internal queue is non-empty no operation consumes an
external event (the external queue only grows, and a driver turn leaves it as it is), and
a driver turn does not depend on the pending external events: with any other external
queue `q` it produces the same engine state, external queue apart. So an external event
pending while an action has submitted an internal event cannot affect the configuration
until the internal queue has drained. -/
theorem step_run_to_completion {σ : Type} (c : Chart) (h : Host σ) (e : Engine σ)
    (q : List Event) (op : Op) (hq : e.internalQ ≠ []) :
    (c.step h e).externalQ = e.externalQ ∧
    (∃ more, (c.apply h e op).externalQ = e.externalQ ++ more) ∧
    c.step h { e with externalQ := q } = { c.step h e with externalQ := q } := by
  have hne : (!e.internalQ.isEmpty) = true := by
    cases hl : e.internalQ with
    | nil => exact absurd hl hq
    | cons a l => rfl
  have hstep : (c.step h e).externalQ = e.externalQ := by
    unfold Chart.step
    cases hp : e.phase with
    | idle => rfl
    | final => rfl
    | stabilizing =>
      simp only
      split
      · exact fire_keeps_externalQ c h e none
      · split
        · exact fire_keeps_externalQ c h _ _
        · rfl
    | awaitingExternal =>
      simp only [hne, if_true]
  refine ⟨hstep, ?_, ?_⟩
  · cases op with
    | start =>
      simp only [Chart.apply]
      cases hs : c.start h e with
      | error _ => exact ⟨[], by simp⟩
      | ok e1 => exact ⟨[], by simp [start_externalQ c h e e1 hs]⟩
    | submit ev =>
      simp only [Chart.apply, submitEvent]
      split
      · exact ⟨[], by simp⟩
      · split
        · exact ⟨[], by simp⟩
        · exact ⟨[ev], rfl⟩
    | step => exact ⟨[], by simpa [Chart.apply] using hstep⟩
    | stop =>
      simp only [Chart.apply]
      cases hs : c.stop h e with
      | error _ => exact ⟨[], by simp⟩
      | ok e1 => exact ⟨[], by simp [stop_externalQ c h e e1 hs]⟩
  · obtain ⟨phase, config, history, iq, eq, log, host⟩ := e
    cases phase with
    | idle => rfl
    | final => rfl
    | stabilizing =>
      simp only [Chart.step]
      split
      · exact fire_externalQ c h ⟨Phase.stabilizing, config, history, iq, eq, log, host⟩ none q
      · cases iq with
        | nil => exact absurd rfl hq
        | cons ev rest =>
          exact fire_externalQ c h ⟨Phase.stabilizing, config, history, rest, eq, log, host⟩
            (some ev) q
    | awaitingExternal =>
      simp only at hne
      simp only [Chart.step, hne, if_true]

/-- C2 witness: in the sample chart the internal event `done.x` has been submitted by an
action while the external event `out` is pending. -/
theorem step_run_to_completion_witness :
    (sampleChart.run sampleHost (Engine.init ()) samplePendingOps).internalQ ≠ [] ∧
    (sampleChart.run sampleHost (Engine.init ()) samplePendingOps).externalQ
      = [{ name := "out", payload := 0, origin := Origin.external }] ∧
    ((sampleChart.step sampleHost
        (sampleChart.run sampleHost (Engine.init ()) samplePendingOps)).externalQ
      = (sampleChart.run sampleHost (Engine.init ()) samplePendingOps).externalQ ∧
    (∃ more, (sampleChart.apply sampleHost
        (sampleChart.run sampleHost (Engine.init ()) samplePendingOps) Op.step).externalQ
      = (sampleChart.run sampleHost (Engine.init ()) samplePendingOps).externalQ ++ more) ∧
    sampleChart.step sampleHost
        { sampleChart.run sampleHost (Engine.init ()) samplePendingOps with externalQ := [] }
      = { sampleChart.step sampleHost
            (sampleChart.run sampleHost (Engine.init ()) samplePendingOps)
          with externalQ := [] }) :=
  ⟨by decide, by decide,
    step_run_to_completion sampleChart sampleHost
      (sampleChart.run sampleHost (Engine.init ()) samplePendingOps) [] Op.step (by decide)⟩

end Scxml

namespace Generator

theorem mem_strreg_self (strings : List Bytes) (s : Bytes) : s ∈ strreg strings s := by
  by_cases h : s ∈ strings <;> simp [strreg, h]

theorem mem_strreg_of_mem {strings : List Bytes} {t : Bytes} (s : Bytes) (h : t ∈ strings) :
    t ∈ strreg strings s := by
  unfold strreg
  split
  · exact h
  · exact List.mem_append_left _ h

theorem indexOf_lt_length_of_mem {s : Bytes} {strings : List Bytes} (h : s ∈ strings) :
    strings.indexOf s < strings.length := by
  induction strings with
  | nil => cases h
  | cons t rest ih =>
    rw [List.indexOf_cons]
    by_cases e : t = s
    · simp [e]
    · have hm : s ∈ rest := by
        rcases List.mem_cons.mp h with h1 | h1
        · exact absurd h1.symm e
        · exact h1
      have := ih hm
      have hb : (t == s) = false := by simpa using e
      rw [hb]
      simp only [cond_false, List.length_cons]
      omega

theorem stridx_of_mem {strings : List Bytes} {s : Bytes} (h : s ∈ strings) :
    ∃ i, stridx strings s = some i := by
  unfold stridx
  have := indexOf_lt_length_of_mem h
  exact ⟨strings.indexOf s, if_pos this⟩

theorem foldl_strreg_mono {strings : List Bytes} {t : Bytes} (l : List Bytes)
    (h : t ∈ strings) : t ∈ l.foldl strreg strings := by
  induction l generalizing strings with
  | nil => exact h
  | cons a l ih => exact ih (mem_strreg_of_mem a h)

theorem foldl_strreg_mem {strings : List Bytes} {t : Bytes} (l : List Bytes)
    (h : t ∈ l) : t ∈ l.foldl strreg strings := by
  induction l generalizing strings with
  | nil => cases h
  | cons a l ih =>
    rcases List.mem_cons.mp h with rfl | h1
    · exact foldl_strreg_mono l (mem_strreg_self _ _)
    · exact ih h1

theorem foldl_reg_mono {α : Type} (step : List Bytes → α → List Bytes)
    (hstep : ∀ st a t, t ∈ st → t ∈ step st a) (l : List α) {strings : List Bytes} {t : Bytes}
    (h : t ∈ strings) : t ∈ l.foldl step strings := by
  induction l generalizing strings with
  | nil => exact h
  | cons a l ih => exact ih (hstep _ _ _ h)

theorem foldl_reg_mem {α : Type} (step : List Bytes → α → List Bytes)
    (hstep : ∀ st a t, t ∈ st → t ∈ step st a) (l : List α) {strings : List Bytes} {a : α}
    {t : Bytes} (ha : a ∈ l) (hc : ∀ st, t ∈ step st a) : t ∈ l.foldl step strings := by
  induction l generalizing strings with
  | nil => cases ha
  | cons b l ih =>
    rcases List.mem_cons.mp ha with rfl | h1
    · exact foldl_reg_mono step hstep l (hc _)
    · exact ih h1

theorem classInfoStep_mono (st : List Bytes) (c : ClassInfoDef) (t : Bytes) (h : t ∈ st) :
    t ∈ strreg (strreg st c.name) c.value :=
  mem_strreg_of_mem _ (mem_strreg_of_mem _ h)

theorem argumentStep_mono (x : Externals) (st : List Bytes) (a : ArgumentDef) (t : Bytes)
    (h : t ∈ st) :
    t ∈ strreg (if !x.isBuiltinType a.normalizedType then strreg st a.normalizedType else st)
      a.name := by
  apply mem_strreg_of_mem
  split
  · exact mem_strreg_of_mem _ h
  · exact h

theorem registerArgumentStrings_mono (x : Externals) (args : List ArgumentDef)
    {strings : List Bytes} {t : Bytes} (h : t ∈ strings) :
    t ∈ registerArgumentStrings x args strings :=
  foldl_reg_mono _ (argumentStep_mono x) args h

theorem registerArgumentStrings_name (x : Externals) (args : List ArgumentDef)
    (strings : List Bytes) {a : ArgumentDef} (ha : a ∈ args) :
    a.name ∈ registerArgumentStrings x args strings :=
  foldl_reg_mem _ (argumentStep_mono x) args ha (fun _ => mem_strreg_self _ _)

theorem registerArgumentStrings_type (x : Externals) (args : List ArgumentDef)
    (strings : List Bytes) {a : ArgumentDef} (ha : a ∈ args)
    (hb : x.isBuiltinType a.normalizedType = false) :
    a.normalizedType ∈ registerArgumentStrings x args strings :=
  foldl_reg_mem _ (argumentStep_mono x) args ha (fun st => by
    apply mem_strreg_of_mem
    simp only [hb, Bool.not_false, if_true]
    exact mem_strreg_self _ _)

theorem functionStep_mono (x : Externals) (st : List Bytes) (f : FunctionDef) (t : Bytes)
    (h : t ∈ st) :
    t ∈ registerArgumentStrings x f.arguments
      (strreg (if !x.isBuiltinType f.normalizedType then strreg (strreg st f.name) f.normalizedType
        else strreg st f.name) f.tag) := by
  apply registerArgumentStrings_mono
  apply mem_strreg_of_mem
  split
  · exact mem_strreg_of_mem _ (mem_strreg_of_mem _ h)
  · exact mem_strreg_of_mem _ h

theorem functionStep_needs (x : Externals) (st : List Bytes) (f : FunctionDef) (t : Bytes)
    (h : f.needs x t) :
    t ∈ registerArgumentStrings x f.arguments
      (strreg (if !x.isBuiltinType f.normalizedType then strreg (strreg st f.name) f.normalizedType
        else strreg st f.name) f.tag) := by
  rcases h with rfl | rfl | ⟨rfl, hb⟩ | ⟨a, ha, rfl | ⟨rfl, hb⟩⟩
  · apply registerArgumentStrings_mono
    apply mem_strreg_of_mem
    split
    · exact mem_strreg_of_mem _ (mem_strreg_self _ _)
    · exact mem_strreg_self _ _
  · apply registerArgumentStrings_mono
    exact mem_strreg_self _ _
  · apply registerArgumentStrings_mono
    apply mem_strreg_of_mem
    simp only [hb, Bool.not_false, if_true]
    exact mem_strreg_self _ _
  · exact registerArgumentStrings_name x _ _ ha
  · exact registerArgumentStrings_type x _ _ ha hb

theorem registerFunctionStrings_mono (x : Externals) (list : List FunctionDef)
    {strings : List Bytes} {t : Bytes} (h : t ∈ strings) :
    t ∈ registerFunctionStrings x list strings :=
  foldl_reg_mono _ (functionStep_mono x) list h

theorem registerFunctionStrings_needs (x : Externals) (list : List FunctionDef)
    (strings : List Bytes) {f : FunctionDef} {t : Bytes} (hf : f ∈ list) (h : f.needs x t) :
    t ∈ registerFunctionStrings x list strings :=
  foldl_reg_mem _ (functionStep_mono x) list hf (fun st => functionStep_needs x st f t h)

theorem propertyStep_mono (x : Externals) (st : List Bytes) (p : PropertyDef) (t : Bytes)
    (h : t ∈ st) :
    t ∈ (if !x.isBuiltinType p.type then strreg (strreg st p.name) p.type
      else strreg st p.name) := by
  split
  · exact mem_strreg_of_mem _ (mem_strreg_of_mem _ h)
  · exact mem_strreg_of_mem _ h

theorem registerPropertyStrings_mono (x : Externals) (list : List PropertyDef)
    {strings : List Bytes} {t : Bytes} (h : t ∈ strings) :
    t ∈ registerPropertyStrings x list strings :=
  foldl_reg_mono _ (propertyStep_mono x) list h

theorem registerPropertyStrings_name (x : Externals) (list : List PropertyDef)
    (strings : List Bytes) {p : PropertyDef} (hp : p ∈ list) :
    p.name ∈ registerPropertyStrings x list strings :=
  foldl_reg_mem _ (propertyStep_mono x) list hp (fun st => by
    split
    · exact mem_strreg_of_mem _ (mem_strreg_self _ _)
    · exact mem_strreg_self _ _)

theorem registerPropertyStrings_type (x : Externals) (list : List PropertyDef)
    (strings : List Bytes) {p : PropertyDef} (hp : p ∈ list)
    (hb : x.isBuiltinType p.type = false) :
    p.type ∈ registerPropertyStrings x list strings :=
  foldl_reg_mem _ (propertyStep_mono x) list hp (fun st => by
    simp only [hb, Bool.not_false, if_true]
    exact mem_strreg_self _ _)

theorem enumStep_mono (st : List Bytes) (e : EnumDef) (t : Bytes) (h : t ∈ st) :
    t ∈ e.values.foldl strreg (match e.enumName with
      | some n => strreg (strreg st e.name) n
      | none => strreg st e.name) := by
  apply foldl_strreg_mono
  split
  · exact mem_strreg_of_mem _ (mem_strreg_of_mem _ h)
  · exact mem_strreg_of_mem _ h

theorem registerEnumStrings_mono (list : List EnumDef) {strings : List Bytes} {t : Bytes}
    (h : t ∈ strings) : t ∈ registerEnumStrings list strings :=
  foldl_reg_mono _ enumStep_mono list h

theorem registerEnumStrings_needs (list : List EnumDef) (strings : List Bytes) {e : EnumDef}
    {t : Bytes} (he : e ∈ list) (h : e.needs t) : t ∈ registerEnumStrings list strings :=
  foldl_reg_mem _ enumStep_mono list he (fun st => by
    rcases h with rfl | h | h
    · apply foldl_strreg_mono
      split
      · exact mem_strreg_of_mem _ (mem_strreg_self _ _)
      · exact mem_strreg_self _ _
    · apply foldl_strreg_mono
      rw [h]
      exact mem_strreg_self _ _
    · exact foldl_strreg_mem _ h)

theorem registerClassInfoStrings_mono (list : List ClassInfoDef) {strings : List Bytes}
    {t : Bytes} (h : t ∈ strings) : t ∈ registerClassInfoStrings list strings :=
  foldl_reg_mono _ classInfoStep_mono list h

theorem registerClassInfoStrings_mem (list : List ClassInfoDef) (strings : List Bytes)
    {c : ClassInfoDef} (hc : c ∈ list) :
    c.name ∈ registerClassInfoStrings list strings ∧
      c.value ∈ registerClassInfoStrings list strings :=
  ⟨foldl_reg_mem _ classInfoStep_mono list hc
      (fun _ => mem_strreg_of_mem _ (mem_strreg_self _ _)),
   foldl_reg_mem _ classInfoStep_mono list hc (fun _ => mem_strreg_self _ _)⟩

theorem collect_of_forall {α β : Type} (f : α → Option β) (l : List α)
    (h : ∀ a ∈ l, ∃ b, f a = some b) : ∃ bs, collect f l = some bs ∧ bs.length = l.length := by
  induction l with
  | nil => exact ⟨[], rfl, rfl⟩
  | cons a l ih =>
    obtain ⟨b, hb⟩ := h a (List.mem_cons_self _ _)
    obtain ⟨bs, hbs, hl⟩ := ih (fun a1 h1 => h a1 (List.mem_cons_of_mem _ h1))
    exact ⟨b :: bs, by simp [collect, hb, hbs], by simp [hl]⟩

theorem generateTypeInfo_of_mem (x : Externals) {strings : List Bytes} {t : Bytes}
    (h : x.isBuiltinType t = false → t ∈ strings) : ∃ i, generateTypeInfo x strings t = some i := by
  unfold generateTypeInfo
  cases hb : x.isBuiltinType t with
  | true => exact ⟨TypeInfo.builtin t, by simp⟩
  | false =>
    obtain ⟨i, hi⟩ := stridx_of_mem (h hb)
    exact ⟨TypeInfo.unresolved i, by simp [hi]⟩

theorem generateFunctions_of_needs (x : Externals) (strings : List Bytes) (type : Flag)
    (list : List FunctionDef) (h : ∀ f ∈ list, ∀ t, f.needs x t → t ∈ strings) (p m : Int) :
    ∃ r, generateFunctions strings type list p m = some r := by
  induction list generalizing p m with
  | nil => exact ⟨_, rfl⟩
  | cons f rest ih =>
    obtain ⟨n, hn⟩ := stridx_of_mem (h f (List.mem_cons_self _ _) f.name (Or.inl rfl))
    obtain ⟨t, ht⟩ := stridx_of_mem (h f (List.mem_cons_self _ _) f.tag (Or.inr (Or.inl rfl)))
    obtain ⟨r, hr⟩ := ih (fun g hg => h g (List.mem_cons_of_mem _ hg))
      (p + 1 + (f.arguments.length : Int) * 2)
      (m + (if f.isConstructor then 0 else 1) + (f.arguments.length : Int))
    obtain ⟨recs, p1, m1⟩ := r
    simp only [generateFunctions, hn, ht, hr]
    exact ⟨_, rfl⟩

theorem generateFunctionParameters_of_needs (x : Externals) (strings : List Bytes)
    (list : List FunctionDef) (h : ∀ f ∈ list, ∀ t, f.needs x t → t ∈ strings) :
    ∃ r, generateFunctionParameters x strings list = some r := by
  induction list with
  | nil => exact ⟨_, rfl⟩
  | cons f rest ih =>
    have hf := h f (List.mem_cons_self _ _)
    obtain ⟨types, ht, _⟩ := collect_of_forall (generateTypeInfo x strings)
      (f.normalizedType :: f.arguments.map ArgumentDef.normalizedType) (by
        intro t ht
        apply generateTypeInfo_of_mem
        intro hb
        rcases List.mem_cons.mp ht with rfl | ht1
        · exact hf _ (Or.inr (Or.inr (Or.inl ⟨rfl, hb⟩)))
        · obtain ⟨a, ha, rfl⟩ := List.mem_map.mp ht1
          exact hf _ (Or.inr (Or.inr (Or.inr ⟨a, ha, Or.inr ⟨rfl, hb⟩⟩))))
    obtain ⟨names, hn, _⟩ := collect_of_forall (stridx strings)
      (f.arguments.map ArgumentDef.name) (by
        intro t ht
        obtain ⟨a, ha, rfl⟩ := List.mem_map.mp ht
        exact stridx_of_mem (hf _ (Or.inr (Or.inr (Or.inr ⟨a, ha, Or.inl rfl⟩)))))
    obtain ⟨more, hm⟩ := ih (fun g hg => h g (List.mem_cons_of_mem _ hg))
    simp only [generateFunctionParameters, ht, hn, hm]
    exact ⟨_, rfl⟩

theorem generateClassInfos_of_mem (strings : List Bytes) (list : List ClassInfoDef)
    (h : ∀ c ∈ list, c.name ∈ strings ∧ c.value ∈ strings) :
    ∃ r, generateClassInfos strings list = some r := by
  induction list with
  | nil => exact ⟨_, rfl⟩
  | cons c rest ih =>
    obtain ⟨k, hk⟩ := stridx_of_mem (h c (List.mem_cons_self _ _)).1
    obtain ⟨v, hv⟩ := stridx_of_mem (h c (List.mem_cons_self _ _)).2
    obtain ⟨more, hm⟩ := ih (fun g hg => h g (List.mem_cons_of_mem _ hg))
    simp only [generateClassInfos, hk, hv, hm]
    exact ⟨_, rfl⟩

theorem generateProperties_of_mem (x : Externals) (strings : List Bytes)
    (list : List PropertyDef)
    (h : ∀ p ∈ list, p.name ∈ strings ∧ (x.isBuiltinType p.type = false → p.type ∈ strings)) :
    ∃ r, generateProperties x strings list = some r := by
  induction list with
  | nil => exact ⟨_, rfl⟩
  | cons p rest ih =>
    obtain ⟨n, hn⟩ := stridx_of_mem (h p (List.mem_cons_self _ _)).1
    obtain ⟨t, ht⟩ := generateTypeInfo_of_mem x (h p (List.mem_cons_self _ _)).2
    obtain ⟨more, hm⟩ := ih (fun g hg => h g (List.mem_cons_of_mem _ hg))
    simp only [generateProperties, hn, ht, hm]
    exact ⟨_, rfl⟩

theorem generateEnumRecords_of_needs (cdef : ClassDef) (strings : List Bytes)
    (list : List EnumDef) (h : ∀ e ∈ list, ∀ t, e.needs t → t ∈ strings) (index : Int) :
    ∃ r, generateEnumRecords cdef strings list index = some r := by
  induction list generalizing index with
  | nil => exact ⟨_, rfl⟩
  | cons e rest ih =>
    have he := h e (List.mem_cons_self _ _)
    obtain ⟨n, hn⟩ := stridx_of_mem (he e.name (Or.inl rfl))
    obtain ⟨a, ha⟩ : ∃ a, enumNameIndex strings e = some a := by
      unfold enumNameIndex
      cases hq : e.enumName with
      | none => exact ⟨n, hn⟩
      | some q => exact stridx_of_mem (he q (Or.inr (Or.inl hq)))
    obtain ⟨more, hm⟩ := ih (fun g hg => h g (List.mem_cons_of_mem _ hg))
      (index + (e.values.length : Int) * 2)
    simp only [generateEnumRecords, ha, hn, hm]
    exact ⟨_, rfl⟩

theorem generateEnumData_of_needs (cdef : ClassDef) (strings : List Bytes)
    (list : List EnumDef) (h : ∀ e ∈ list, ∀ t, e.needs t → t ∈ strings) :
    ∃ r, generateEnumData cdef strings list = some r := by
  induction list with
  | nil => exact ⟨_, rfl⟩
  | cons e rest ih =>
    have he := h e (List.mem_cons_self _ _)
    obtain ⟨pairs, hp, _⟩ := collect_of_forall
      (fun val => (stridx strings val).map (fun k => (k, enumValueCode cdef e val))) e.values (by
        intro v hv
        obtain ⟨k, hk⟩ := stridx_of_mem (he v (Or.inr (Or.inr hv)))
        exact ⟨(k, enumValueCode cdef e v), by simp [hk]⟩)
    obtain ⟨more, hm⟩ := ih (fun g hg => h g (List.mem_cons_of_mem _ hg))
    simp only [generateEnumData, hp, hm]
    exact ⟨_, rfl⟩

theorem generateEnums_of_needs (cdef : ClassDef) (enumList : List EnumDef)
    (strings : List Bytes) (h : ∀ e ∈ enumList, ∀ t, e.needs t → t ∈ strings) (index : Int) :
    ∃ r, generateEnums cdef enumList strings index = some r := by
  unfold generateEnums
  split
  · exact ⟨_, rfl⟩
  · obtain ⟨recs, hr⟩ := generateEnumRecords_of_needs cdef strings enumList h
      (index + 5 * (enumList.length : Int))
    obtain ⟨data, hd⟩ := generateEnumData_of_needs cdef strings enumList h
    simp only [hr, hd]
    exact ⟨_, rfl⟩

/-- Every string the tables of `generateCode` look up has been registered. -/
theorem registerStrings_covers (x : Externals) (cdef : ClassDef) :
    cdef.qualified ∈ registerStrings x cdef ∧
    (∀ c ∈ cdef.classInfoList,
      c.name ∈ registerStrings x cdef ∧ c.value ∈ registerStrings x cdef) ∧
    (∀ f ∈ cdef.signalList, ∀ t, f.needs x t → t ∈ registerStrings x cdef) ∧
    (∀ f ∈ cdef.slotList, ∀ t, f.needs x t → t ∈ registerStrings x cdef) ∧
    (∀ f ∈ cdef.methodList, ∀ t, f.needs x t → t ∈ registerStrings x cdef) ∧
    (∀ f ∈ cdef.constructorList, ∀ t, f.needs x t → t ∈ registerStrings x cdef) ∧
    (∀ p ∈ cdef.propertyList, p.name ∈ registerStrings x cdef ∧
      (x.isBuiltinType p.type = false → p.type ∈ registerStrings x cdef)) ∧
    (∀ e ∈ filterEnums cdef, ∀ t, e.needs t → t ∈ registerStrings x cdef) := by
  unfold registerStrings
  refine ⟨?_, ?_, ?_, ?_, ?_, ?_, ?_, ?_⟩
  · exact registerEnumStrings_mono _ (registerPropertyStrings_mono x _
      (foldl_strreg_mono _ (registerFunctionStrings_mono x _ (registerFunctionStrings_mono x _
        (registerFunctionStrings_mono x _ (registerFunctionStrings_mono x _
          (registerClassInfoStrings_mono _ (mem_strreg_self _ _))))))))
  · intro c hc
    have := registerClassInfoStrings_mem cdef.classInfoList (strreg [] cdef.qualified) hc
    exact ⟨registerEnumStrings_mono _ (registerPropertyStrings_mono x _
      (foldl_strreg_mono _ (registerFunctionStrings_mono x _ (registerFunctionStrings_mono x _
        (registerFunctionStrings_mono x _ (registerFunctionStrings_mono x _ this.1)))))),
      registerEnumStrings_mono _ (registerPropertyStrings_mono x _
      (foldl_strreg_mono _ (registerFunctionStrings_mono x _ (registerFunctionStrings_mono x _
        (registerFunctionStrings_mono x _ (registerFunctionStrings_mono x _ this.2))))))⟩
  · intro f hf t ht
    exact registerEnumStrings_mono _ (registerPropertyStrings_mono x _
      (foldl_strreg_mono _ (registerFunctionStrings_mono x _ (registerFunctionStrings_mono x _
        (registerFunctionStrings_mono x _ (registerFunctionStrings_needs x _ _ hf ht))))))
  · intro f hf t ht
    exact registerEnumStrings_mono _ (registerPropertyStrings_mono x _
      (foldl_strreg_mono _ (registerFunctionStrings_mono x _ (registerFunctionStrings_mono x _
        (registerFunctionStrings_needs x _ _ hf ht)))))
  · intro f hf t ht
    exact registerEnumStrings_mono _ (registerPropertyStrings_mono x _
      (foldl_strreg_mono _ (registerFunctionStrings_mono x _
        (registerFunctionStrings_needs x _ _ hf ht))))
  · intro f hf t ht
    exact registerEnumStrings_mono _ (registerPropertyStrings_mono x _
      (foldl_strreg_mono _ (registerFunctionStrings_needs x _ _ hf ht)))
  · intro p hp
    exact ⟨registerEnumStrings_mono _ (registerPropertyStrings_name x _ _ hp),
      fun hb => registerEnumStrings_mono _ (registerPropertyStrings_type x _ _ hp hb)⟩
  · intro e he t ht
    exact registerEnumStrings_needs _ _ he ht

/-- `generateCode` runs to its end: the tables it returns are the results of the table
writers on the registered strings, with `paramsIndex` and `initialMetatypeOffset` threaded
through the four calls of `generateFunctions`. -/
theorem generateCode_tables (x : Externals) (cdef : ClassDef) :
    ∃ out p1 m1 p2 m2 p3 m3 p4 m4,
      generateCode x cdef = some out ∧
      out.strings = registerStrings x cdef ∧
      out.literals = literals x (registerStrings x cdef) 0 ∧
      out.stringdata = stringdata (registerStrings x cdef) ∧
      generateFunctions (registerStrings x cdef) Flag.MethodSignal cdef.signalList
        (layout x cdef (filterEnums cdef)).paramsIndex
        cdef.propertyList.length = some (out.signals, p1, m1) ∧
      generateFunctions (registerStrings x cdef) Flag.MethodSlot cdef.slotList p1 m1
        = some (out.slots, p2, m2) ∧
      generateFunctions (registerStrings x cdef) Flag.MethodMethod cdef.methodList p2 m2
        = some (out.methods, p3, m3) ∧
      generateFunctions (registerStrings x cdef) Flag.MethodConstructor cdef.constructorList
        p3 m3 = some (out.constructors, p4, m4) ∧
      generateEnums cdef (filterEnums cdef) (registerStrings x cdef)
        (layout x cdef (filterEnums cdef)).enumsIndex = some (out.enums, out.enumData) ∧
      generateProperties x (registerStrings x cdef) cdef.propertyList = some out.properties ∧
      out.metaTypes = metaTypeArray cdef ∧
      out.content.enumCount = ((filterEnums cdef).length : Int) := by
  obtain ⟨hq, hci, hsig, hslot, hmeth, hctor, hprop, henum⟩ := registerStrings_covers x cdef
  obtain ⟨classname, e0⟩ := stridx_of_mem hq
  obtain ⟨classInfos, e1⟩ := generateClassInfos_of_mem _ _ hci
  obtain ⟨⟨s1, p1, m1⟩, e2⟩ := generateFunctions_of_needs x _ Flag.MethodSignal _ hsig
    (layout x cdef (filterEnums cdef)).paramsIndex cdef.propertyList.length
  obtain ⟨⟨s2, p2, m2⟩, e3⟩ := generateFunctions_of_needs x _ Flag.MethodSlot _ hslot p1 m1
  obtain ⟨⟨s3, p3, m3⟩, e4⟩ := generateFunctions_of_needs x _ Flag.MethodMethod _ hmeth p2 m2
  obtain ⟨⟨s4, p4, m4⟩, e5⟩ :=
    generateFunctions_of_needs x _ Flag.MethodConstructor _ hctor p3 m3
  obtain ⟨sp, e6⟩ := generateFunctionParameters_of_needs x _ _ hsig
  obtain ⟨lp, e7⟩ := generateFunctionParameters_of_needs x _ _ hslot
  obtain ⟨mp, e8⟩ := generateFunctionParameters_of_needs x _ _ hmeth
  obtain ⟨cp, e9⟩ := generateFunctionParameters_of_needs x _ _ hctor
  obtain ⟨props, e10⟩ := generateProperties_of_mem x _ _ hprop
  obtain ⟨⟨enums, enumData⟩, e11⟩ := generateEnums_of_needs cdef (filterEnums cdef)
    (registerStrings x cdef) henum (layout x cdef (filterEnums cdef)).enumsIndex
  cases hne : cdef.constructorList.isEmpty with
  | true =>
    have hcl : cdef.constructorList = [] := List.isEmpty_iff.mp hne
    have e5a : generateFunctions (registerStrings x cdef) Flag.MethodConstructor
        cdef.constructorList p3 m3 = some ([], p3, m3) := by
      rw [hcl]
      rfl
    simp only [generateCode, generateMethodArrays, generateParameterArray,
      generateConstructorArray, generateContent, e0, e1, e2, e3, e4, e5a, e6, e7, e8, e10,
      e11, hne, Option.some_bind, Bool.not_true, Bool.false_eq_true, if_false]
    exact ⟨_, p1, m1, p2, m2, p3, m3, p3, m3, rfl, rfl, rfl, rfl, rfl, e3, e4, e5a, rfl, rfl,
      rfl, rfl⟩
  | false =>
    simp only [generateCode, generateMethodArrays, generateParameterArray,
      generateConstructorArray, generateContent, e0, e1, e2, e3, e4, e5, e6, e7, e8, e9, e10,
      e11, hne, Option.some_bind, Bool.not_false, if_true]
    exact ⟨_, p1, m1, p2, m2, p3, m3, p4, m4, rfl, rfl, rfl, rfl, rfl, e3, e4, e5, rfl, rfl,
      rfl, rfl⟩

/-- The records of `generateFunctions`: one per function, each holding the values
`paramsIndex` and `initialMetatypeOffset` had when its turn came. -/
theorem generateFunctions_records (strings : List Bytes) (type : Flag)
    (list : List FunctionDef) (p m : Int) (recs : List FunctionRecord) (p1 m1 : Int)
    (h : generateFunctions strings type list p m = some (recs, p1, m1)) :
    recs.length = list.length ∧
    p1 = p + (list.map (fun f => 1 + (f.arguments.length : Int) * 2)).sum ∧
    m1 = m + (list.map (fun f =>
      (if f.isConstructor then 0 else 1) + (f.arguments.length : Int))).sum ∧
    ∀ i, i < list.length → ∃ r, recs[i]? = some r ∧
      r.parameters = p + ((list.take i).map (fun f => 1 + (f.arguments.length : Int) * 2)).sum ∧
      r.initialMetatypeOffset = m + ((list.take i).map (fun f =>
        (if f.isConstructor then 0 else 1) + (f.arguments.length : Int))).sum := by
  induction list generalizing p m recs p1 m1 with
  | nil =>
    simp only [generateFunctions, Option.some.injEq, Prod.mk.injEq] at h
    obtain ⟨rfl, rfl, rfl⟩ := h
    simp
  | cons f rest ih =>
    simp only [generateFunctions] at h
    split at h
    · rename_i n t hn ht
      split at h
      · rename_i recs0 p0 m0 hr
        simp only [Option.some.injEq, Prod.mk.injEq] at h
        obtain ⟨rfl, rfl, rfl⟩ := h
        obtain ⟨hl, hp, hm, hi⟩ := ih _ _ _ _ _ hr
        refine ⟨by simp [hl], ?_, ?_, ?_⟩
        · rw [hp]
          simp only [List.map_cons, List.sum_cons]
          ring
        · rw [hm]
          simp only [List.map_cons, List.sum_cons]
          ring
        · intro i hi1
          cases i with
          | zero => exact ⟨_, List.getElem?_cons_zero, by simp, by simp⟩
          | succ j =>
            obtain ⟨r, hr1, hr2, hr3⟩ := hi j (by simpa using hi1)
            refine ⟨r, by simpa using hr1, ?_, ?_⟩
            · rw [hr2]
              simp only [List.take_succ_cons, List.map_cons, List.sum_cons]
              ring
            · rw [hr3]
              simp only [List.take_succ_cons, List.map_cons, List.sum_cons]
              ring
      · exact absurd h (by simp)
    · exact absurd h (by simp)

theorem methodTypeEntries_count (l : List FunctionDef)
    (h : ∀ f ∈ l, f.isConstructor = false) :
    (l.map (fun f => (if f.isConstructor then 0 else 1) + (f.arguments.length : Int))).sum
      = ((l.flatMap methodTypeEntries).length : Int) := by
  induction l with
  | nil => simp
  | cons f rest ih =>
    have hf := h f (List.mem_cons_self _ _)
    have := ih (fun g hg => h g (List.mem_cons_of_mem _ hg))
    simp only [List.map_cons, List.sum_cons, List.flatMap_cons, List.length_append, this, hf,
      methodTypeEntries, List.length_cons, List.length_map]
    push_cast
    simp
    ring

theorem constructorTypeEntries_count (l : List FunctionDef)
    (h : ∀ f ∈ l, f.isConstructor = true) :
    (l.map (fun f => (if f.isConstructor then 0 else 1) + (f.arguments.length : Int))).sum
      = ((l.flatMap constructorTypeEntries).length : Int) := by
  induction l with
  | nil => simp
  | cons f rest ih =>
    have hf := h f (List.mem_cons_self _ _)
    have := ih (fun g hg => h g (List.mem_cons_of_mem _ hg))
    simp only [List.map_cons, List.sum_cons, List.flatMap_cons, List.length_append, this, hf,
      constructorTypeEntries, List.length_map]
    push_cast
    simp

theorem constructorTypeEntries_nil (l : List FunctionDef)
    (h : l.any (fun f => !f.arguments.isEmpty) = false) :
    l.flatMap constructorTypeEntries = [] := by
  induction l with
  | nil => rfl
  | cons f rest ih =>
    simp only [List.any_cons, Bool.or_eq_false_iff] at h
    have hf : f.arguments = [] := by
      have := h.1
      cases hl : f.arguments with
      | nil => rfl
      | cons a l => simp [hl] at this
    simp [List.flatMap_cons, constructorTypeEntries, hf, ih h.2]

theorem metaTypeArray_entries (cdef : ClassDef) :
    (metaTypeArray cdef).getD [] =
      cdef.propertyList.map PropertyDef.type ++ cdef.signalList.flatMap methodTypeEntries
        ++ cdef.slotList.flatMap methodTypeEntries ++ cdef.methodList.flatMap methodTypeEntries
        ++ cdef.constructorList.flatMap constructorTypeEntries := by
  unfold metaTypeArray
  split
  · rename_i h
    simp only [Bool.and_eq_true, List.isEmpty_iff, Bool.not_eq_true'] at h
    obtain ⟨⟨⟨⟨h1, h2⟩, h3⟩, h4⟩, h5⟩ := h
    simp [h1, h2, h3, h4, constructorTypeEntries_nil _ h5]
  · simp [List.flatMap_cons, List.append_assoc]

/-- C8: every `stridx` call of `Generator::generateCode` is on a string that the
registration pass at its start has registered, so for every class definition the
assertion "We forgot to register some strings" cannot fail and the run reaches its end. -/
theorem generateCode_stridx_registered (x : Externals) (cdef : ClassDef) :
    ∃ out, generateCode x cdef = some out ∧ out.strings = registerStrings x cdef := by
  obtain ⟨out, _, _, _, _, _, _, _, _, h, hs, _⟩ := generateCode_tables x cdef
  exact ⟨out, h, hs⟩

/-- For the registered strings `a\b` and `c`, whatever the character classes, the second
`QT_MOC_LITERAL` entry is written with offset 3, while in the emitted string data the
bytes of `c` start at offset 4 (offset 3 holds the zero that ends `a\b`). -/
theorem literals_offset_after_backslash (x : Externals) :
    literals x [[97, 92, 98], [99]] 0 = [(0, 3), (3, 1)] ∧
      (stringdata [[97, 92, 98], [99]]).drop 4 = [99, 0] ∧
      (stringdata [[97, 92, 98], [99]]).drop 3 = [0, 99, 0] := by
  refine ⟨?_, rfl, rfl⟩
  have h : lengthOfEscapeSequence x [97, 92, 98] 1 = 2 := by
    cases ho : x.is_octal_char 98 <;> simp [lengthOfEscapeSequence, ho]
  simp [literals, escapeAdjust, h]

/-- C9 (failing input): for the machine class `M` with the state properties `a\b` and `c`,
`generateCode` registers the strings `M`, `a\b`, `c` and writes the entries
`QT_MOC_LITERAL(0, 1)`, `QT_MOC_LITERAL(2, 3)`, `QT_MOC_LITERAL(5, 1)`, while in the string
data it emits the bytes of `c` start at offset 6: offset 5 holds the zero that ends `a\b`.
The offset of the entry after a string with a backslash is not that of its characters. -/
theorem generateCode_literal_after_backslash :
    (generateCode sampleExternals backslashClass).map
        (fun out => (out.strings, out.literals, out.stringdata)) =
      some ([[77], [97, 92, 98], [99]], [(0, 1), (2, 3), (5, 1)],
        [77, 0, 97, 92, 98, 0, 99, 0]) ∧
    ([77, 0, 97, 92, 98, 0, 99, 0] : List Nat).drop 5 = [0, 99, 0] ∧
    ([77, 0, 97, 92, 98, 0, 99, 0] : List Nat).drop 6 = [99, 0] := by
  refine ⟨?_, rfl, rfl⟩
  decide

/-- C10: when exactly the functions of `constructorList` are flagged as constructors,
the initial metatype offset in the record of every signal, slot, method and constructor
is the number of type entries before that function's own entries in the meta-type array:
the array is the property types, then the entries of the signals, slots and methods,
then the argument types of the constructors. -/
theorem generateCode_initialMetatypeOffset (x : Externals) (cdef : ClassDef)
    (hc : ∀ f ∈ cdef.constructorList, f.isConstructor = true)
    (hm : ∀ f ∈ cdef.signalList ++ cdef.slotList ++ cdef.methodList,
      f.isConstructor = false) :
    ∃ out, generateCode x cdef = some out ∧
      out.metaTypes.getD [] =
        cdef.propertyList.map PropertyDef.type ++ cdef.signalList.flatMap methodTypeEntries
          ++ cdef.slotList.flatMap methodTypeEntries
          ++ cdef.methodList.flatMap methodTypeEntries
          ++ cdef.constructorList.flatMap constructorTypeEntries ∧
      (∀ i, i < cdef.signalList.length → ∃ r, out.signals[i]? = some r ∧
        r.initialMetatypeOffset = ((cdef.propertyList.map PropertyDef.type
          ++ (cdef.signalList.take i).flatMap methodTypeEntries).length : Int)) ∧
      (∀ i, i < cdef.slotList.length → ∃ r, out.slots[i]? = some r ∧
        r.initialMetatypeOffset = ((cdef.propertyList.map PropertyDef.type
          ++ cdef.signalList.flatMap methodTypeEntries
          ++ (cdef.slotList.take i).flatMap methodTypeEntries).length : Int)) ∧
      (∀ i, i < cdef.methodList.length → ∃ r, out.methods[i]? = some r ∧
        r.initialMetatypeOffset = ((cdef.propertyList.map PropertyDef.type
          ++ cdef.signalList.flatMap methodTypeEntries
          ++ cdef.slotList.flatMap methodTypeEntries
          ++ (cdef.methodList.take i).flatMap methodTypeEntries).length : Int)) ∧
      (∀ i, i < cdef.constructorList.length → ∃ r, out.constructors[i]? = some r ∧
        r.initialMetatypeOffset = ((cdef.propertyList.map PropertyDef.type
          ++ cdef.signalList.flatMap methodTypeEntries
          ++ cdef.slotList.flatMap methodTypeEntries
          ++ cdef.methodList.flatMap methodTypeEntries
          ++ (cdef.constructorList.take i).flatMap constructorTypeEntries).length : Int)) := by
  obtain ⟨out, p1, m1, p2, m2, p3, m3, p4, m4, hgen, _, _, _, h1, h2, h3, h4, _, _, hmt, _⟩ :=
    generateCode_tables x cdef
  have hsig : ∀ f ∈ cdef.signalList, f.isConstructor = false := fun f hf =>
    hm f (List.mem_append_left _ (List.mem_append_left _ hf))
  have hslot : ∀ f ∈ cdef.slotList, f.isConstructor = false := fun f hf =>
    hm f (List.mem_append_left _ (List.mem_append_right _ hf))
  have hmeth : ∀ f ∈ cdef.methodList, f.isConstructor = false := fun f hf =>
    hm f (List.mem_append_right _ hf)
  obtain ⟨_, _, e1, r1⟩ := generateFunctions_records _ _ _ _ _ _ _ _ h1
  obtain ⟨_, _, e2, r2⟩ := generateFunctions_records _ _ _ _ _ _ _ _ h2
  obtain ⟨_, _, e3, r3⟩ := generateFunctions_records _ _ _ _ _ _ _ _ h3
  obtain ⟨_, _, _, r4⟩ := generateFunctions_records _ _ _ _ _ _ _ _ h4
  rw [methodTypeEntries_count _ hsig] at e1
  rw [methodTypeEntries_count _ hslot] at e2
  rw [methodTypeEntries_count _ hmeth] at e3
  refine ⟨out, hgen, ?_, ?_, ?_, ?_, ?_⟩
  · rw [hmt]
    exact metaTypeArray_entries cdef
  · intro i hi
    obtain ⟨r, hr, _, ho⟩ := r1 i hi
    refine ⟨r, hr, ?_⟩
    rw [ho, methodTypeEntries_count _ (fun f hf => hsig f (List.mem_of_mem_take hf))]
    simp only [List.length_append, List.length_map, Nat.cast_add]
  · intro i hi
    obtain ⟨r, hr, _, ho⟩ := r2 i hi
    refine ⟨r, hr, ?_⟩
    rw [ho, methodTypeEntries_count _ (fun f hf => hslot f (List.mem_of_mem_take hf)), e1]
    simp only [List.length_append, List.length_map, Nat.cast_add]
  · intro i hi
    obtain ⟨r, hr, _, ho⟩ := r3 i hi
    refine ⟨r, hr, ?_⟩
    rw [ho, methodTypeEntries_count _ (fun f hf => hmeth f (List.mem_of_mem_take hf)), e2, e1]
    simp only [List.length_append, List.length_map, Nat.cast_add]
  · intro i hi
    obtain ⟨r, hr, _, ho⟩ := r4 i hi
    refine ⟨r, hr, ?_⟩
    rw [ho, constructorTypeEntries_count _ (fun f hf => hc f (List.mem_of_mem_take hf)),
      e3, e2, e1]
    simp only [List.length_append, List.length_map, Nat.cast_add]

theorem generateCode_initialMetatypeOffset_witness :
    (∀ f ∈ sampleClass.constructorList, f.isConstructor = true) ∧
    (∀ f ∈ sampleClass.signalList ++ sampleClass.slotList ++ sampleClass.methodList,
      f.isConstructor = false) ∧
    ∃ out, generateCode sampleExternals sampleClass = some out ∧
      out.metaTypes.getD [] =
        sampleClass.propertyList.map PropertyDef.type
          ++ sampleClass.signalList.flatMap methodTypeEntries
          ++ sampleClass.slotList.flatMap methodTypeEntries
          ++ sampleClass.methodList.flatMap methodTypeEntries
          ++ sampleClass.constructorList.flatMap constructorTypeEntries ∧
      (∀ i, i < sampleClass.signalList.length → ∃ r, out.signals[i]? = some r ∧
        r.initialMetatypeOffset = ((sampleClass.propertyList.map PropertyDef.type
          ++ (sampleClass.signalList.take i).flatMap methodTypeEntries).length : Int)) ∧
      (∀ i, i < sampleClass.slotList.length → ∃ r, out.slots[i]? = some r ∧
        r.initialMetatypeOffset = ((sampleClass.propertyList.map PropertyDef.type
          ++ sampleClass.signalList.flatMap methodTypeEntries
          ++ (sampleClass.slotList.take i).flatMap methodTypeEntries).length : Int)) ∧
      (∀ i, i < sampleClass.methodList.length → ∃ r, out.methods[i]? = some r ∧
        r.initialMetatypeOffset = ((sampleClass.propertyList.map PropertyDef.type
          ++ sampleClass.signalList.flatMap methodTypeEntries
          ++ sampleClass.slotList.flatMap methodTypeEntries
          ++ (sampleClass.methodList.take i).flatMap methodTypeEntries).length : Int)) ∧
      (∀ i, i < sampleClass.constructorList.length → ∃ r, out.constructors[i]? = some r ∧
        r.initialMetatypeOffset = ((sampleClass.propertyList.map PropertyDef.type
          ++ sampleClass.signalList.flatMap methodTypeEntries
          ++ sampleClass.slotList.flatMap methodTypeEntries
          ++ sampleClass.methodList.flatMap methodTypeEntries
          ++ (sampleClass.constructorList.take i).flatMap constructorTypeEntries).length
            : Int)) :=
  ⟨by decide, by decide,
    generateCode_initialMetatypeOffset sampleExternals sampleClass (by decide) (by decide)⟩

theorem collect_length {α β : Type} (f : α → Option β) (l : List α) (bs : List β)
    (h : collect f l = some bs) : bs.length = l.length := by
  induction l generalizing bs with
  | nil =>
    simp only [collect, Option.some.injEq] at h
    subst h
    rfl
  | cons a l ih =>
    simp only [collect] at h
    split at h
    · rename_i b bs0 hb hbs
      simp only [Option.some.injEq] at h
      rw [← h]
      simp [ih bs0 hbs]
    · exact absurd h (by simp)

/-- The entries of `generateFunctionParameters`: per function one type entry for the
return type and each argument, and one name entry for each argument. -/
theorem generateFunctionParameters_count (x : Externals) (strings : List Bytes)
    (list : List FunctionDef) (r : List ParameterEntry)
    (h : generateFunctionParameters x strings list = some r) :
    ((r.filter ParameterEntry.isType).length : Int) = aggregateParameterCount list ∧
    ((r.filter (fun e => !e.isType)).length : Int)
      = aggregateParameterCount list - (list.length : Int) ∧
    (r.length : Int) = (list.map (fun f => 1 + (f.arguments.length : Int) * 2)).sum := by
  induction list generalizing r with
  | nil =>
    simp only [generateFunctionParameters, Option.some.injEq] at h
    rw [← h]
    simp [aggregateParameterCount]
  | cons f rest ih =>
    simp only [generateFunctionParameters] at h
    split at h
    · rename_i types names more ht hn hm
      simp only [Option.some.injEq] at h
      obtain ⟨i1, i2, i3⟩ := ih more hm
      have l1 := collect_length _ _ _ ht
      have l2 := collect_length _ _ _ hn
      simp only [List.length_cons, List.length_map] at l1 l2
      have f1 : (types.map ParameterEntry.type).filter ParameterEntry.isType
          = types.map ParameterEntry.type := by
        apply List.filter_eq_self.mpr
        intro a ha
        obtain ⟨t, _, rfl⟩ := List.mem_map.mp ha
        rfl
      have f2 : (names.map ParameterEntry.name).filter ParameterEntry.isType = [] := by
        apply List.filter_eq_nil_iff.mpr
        intro a ha
        obtain ⟨t, _, rfl⟩ := List.mem_map.mp ha
        simp [ParameterEntry.isType]
      have f3 : (types.map ParameterEntry.type).filter (fun e => !e.isType) = [] := by
        apply List.filter_eq_nil_iff.mpr
        intro a ha
        obtain ⟨t, _, rfl⟩ := List.mem_map.mp ha
        simp [ParameterEntry.isType]
      have f4 : (names.map ParameterEntry.name).filter (fun e => !e.isType)
          = names.map ParameterEntry.name := by
        apply List.filter_eq_self.mpr
        intro a ha
        obtain ⟨t, _, rfl⟩ := List.mem_map.mp ha
        rfl
      rw [← h]
      refine ⟨?_, ?_, ?_⟩
      · simp only [List.filter_append, f1, f2, List.append_nil, List.length_append,
          List.length_map, l1]
        push_cast
        rw [i1]
        simp only [aggregateParameterCount, List.map_cons, List.sum_cons]
        try ring
      · simp only [List.filter_append, f3, f4, List.nil_append, List.length_append,
          List.length_map, l2]
        push_cast
        rw [i2]
        simp only [aggregateParameterCount, List.map_cons, List.sum_cons, List.length_cons]
        push_cast
        ring
      · simp only [List.length_append, List.length_map, l1, l2]
        push_cast
        rw [i3]
        simp only [List.map_cons, List.sum_cons]
        ring
    · exact absurd h (by simp)

theorem aggregateParameterCount_sum (list : List FunctionDef) :
    (list.map (fun f => 1 + (f.arguments.length : Int) * 2)).sum
      = aggregateParameterCount list * 2 - (list.length : Int) := by
  induction list with
  | nil => simp [aggregateParameterCount]
  | cons f rest ih =>
    simp only [List.map_cons, List.sum_cons, ih, aggregateParameterCount, List.length_cons]
    push_cast
    ring

/-- `generateCode` runs to its end: its parameters section is made of the entries of
`generateFunctionParameters` for the four function lists, and `paramsIndex` ends where the
four `generateFunctions` runs leave it. -/
theorem generateCode_parameters (x : Externals) (cdef : ClassDef) :
    ∃ out sp lp mp cp s1 p1 m1 s2 p2 m2 s3 p3 m3 s4 p4 m4,
      generateCode x cdef = some out ∧
      generateFunctionParameters x (registerStrings x cdef) cdef.signalList = some sp ∧
      generateFunctionParameters x (registerStrings x cdef) cdef.slotList = some lp ∧
      generateFunctionParameters x (registerStrings x cdef) cdef.methodList = some mp ∧
      generateFunctionParameters x (registerStrings x cdef) cdef.constructorList = some cp ∧
      out.parameters = sp ++ lp ++ mp ++ cp ∧
      generateFunctions (registerStrings x cdef) Flag.MethodSignal cdef.signalList
        (layout x cdef (filterEnums cdef)).paramsIndex
        cdef.propertyList.length = some (s1, p1, m1) ∧
      generateFunctions (registerStrings x cdef) Flag.MethodSlot cdef.slotList p1 m1
        = some (s2, p2, m2) ∧
      generateFunctions (registerStrings x cdef) Flag.MethodMethod cdef.methodList p2 m2
        = some (s3, p3, m3) ∧
      generateFunctions (registerStrings x cdef) Flag.MethodConstructor cdef.constructorList
        p3 m3 = some (s4, p4, m4) ∧
      paramsIndexAtEnd x cdef = some p4 := by
  obtain ⟨hq, hci, hsig, hslot, hmeth, hctor, hprop, henum⟩ := registerStrings_covers x cdef
  obtain ⟨classname, e0⟩ := stridx_of_mem hq
  obtain ⟨classInfos, e1⟩ := generateClassInfos_of_mem _ _ hci
  obtain ⟨⟨s1, p1, m1⟩, e2⟩ := generateFunctions_of_needs x _ Flag.MethodSignal _ hsig
    (layout x cdef (filterEnums cdef)).paramsIndex cdef.propertyList.length
  obtain ⟨⟨s2, p2, m2⟩, e3⟩ := generateFunctions_of_needs x _ Flag.MethodSlot _ hslot p1 m1
  obtain ⟨⟨s3, p3, m3⟩, e4⟩ := generateFunctions_of_needs x _ Flag.MethodMethod _ hmeth p2 m2
  obtain ⟨⟨s4, p4, m4⟩, e5⟩ :=
    generateFunctions_of_needs x _ Flag.MethodConstructor _ hctor p3 m3
  obtain ⟨sp, e6⟩ := generateFunctionParameters_of_needs x _ _ hsig
  obtain ⟨lp, e7⟩ := generateFunctionParameters_of_needs x _ _ hslot
  obtain ⟨mp, e8⟩ := generateFunctionParameters_of_needs x _ _ hmeth
  obtain ⟨cp, e9⟩ := generateFunctionParameters_of_needs x _ _ hctor
  obtain ⟨props, e10⟩ := generateProperties_of_mem x _ _ hprop
  obtain ⟨⟨enums, enumData⟩, e11⟩ := generateEnums_of_needs cdef (filterEnums cdef)
    (registerStrings x cdef) henum (layout x cdef (filterEnums cdef)).enumsIndex
  have e9a : (if (!cdef.constructorList.isEmpty) = true then
        generateFunctionParameters x (registerStrings x cdef) cdef.constructorList
      else some []) = some cp := by
    cases hne : cdef.constructorList.isEmpty with
    | true =>
      have hcl : cdef.constructorList = [] := List.isEmpty_iff.mp hne
      rw [hcl] at e9
      simp only [generateFunctionParameters, Option.some.injEq] at e9
      simp [e9]
    | false => simpa using e9
  have e5a : generateConstructorArray (registerStrings x cdef) cdef p3 m3 = some (s4, p4, m4) := by
    unfold generateConstructorArray
    cases hne : cdef.constructorList.isEmpty with
    | true =>
      have hcl : cdef.constructorList = [] := List.isEmpty_iff.mp hne
      rw [hcl] at e5
      simp only [generateFunctions, Option.some.injEq] at e5
      simp [e5]
    | false => simpa using e5
  have hgen : ∃ out, generateCode x cdef = some out ∧ out.parameters = sp ++ lp ++ mp ++ cp := by
    simp only [generateCode, generateMethodArrays, generateParameterArray, e0, e1, e2, e3, e4,
      e5a, e6, e7, e8, e9a, e10, e11, Option.some_bind]
    exact ⟨_, rfl, rfl⟩
  obtain ⟨out, hout, hpar⟩ := hgen
  refine ⟨out, sp, lp, mp, cp, s1, p1, m1, s2, p2, m2, s3, p3, m3, s4, p4, m4, hout, e6, e7, e8,
    e9, hpar, e2, e3, e4, e5, ?_⟩
  simp only [paramsIndexAtEnd, generateMethodArrays, e2, e3, e4, e5a, Option.some_bind,
    Option.map_some']

/-- C11: for every class definition `generateCode` runs to its end, and the size it
reserves for the method-parameter section, `totalParameterCount * 2 - methodCount -
constructorCount`, is the number of entries `generateFunctionParameters` emits for the
signals, slots, methods and constructors (`totalParameterCount` type entries and
`totalParameterCount - methodCount - constructorCount` name entries), the amount by which
the `generateFunctions` runs advance `paramsIndex`, and the distance from the start of the
parameter section to the start of the property section. -/
theorem generateCode_parameter_section (x : Externals) (cdef : ClassDef) :
    ∃ out p, generateCode x cdef = some out ∧ paramsIndexAtEnd x cdef = some p ∧
      (out.parameters.length : Int)
        = (aggregateParameterCount cdef.signalList + aggregateParameterCount cdef.slotList
            + aggregateParameterCount cdef.methodList
            + aggregateParameterCount cdef.constructorList) * 2
          - ((cdef.signalList.length : Int) + cdef.slotList.length + cdef.methodList.length)
          - cdef.constructorList.length ∧
      ((out.parameters.filter ParameterEntry.isType).length : Int)
        = aggregateParameterCount cdef.signalList + aggregateParameterCount cdef.slotList
            + aggregateParameterCount cdef.methodList
            + aggregateParameterCount cdef.constructorList ∧
      ((out.parameters.filter (fun e => !e.isType)).length : Int)
        = aggregateParameterCount cdef.signalList + aggregateParameterCount cdef.slotList
            + aggregateParameterCount cdef.methodList
            + aggregateParameterCount cdef.constructorList
          - ((cdef.signalList.length : Int) + cdef.slotList.length + cdef.methodList.length)
          - cdef.constructorList.length ∧
      p - (layout x cdef (filterEnums cdef)).paramsIndex = (out.parameters.length : Int) ∧
      (layout x cdef (filterEnums cdef)).propertyIndex
        - (layout x cdef (filterEnums cdef)).paramsIndex = (out.parameters.length : Int) := by
  obtain ⟨out, sp, lp, mp, cp, s1, p1, m1, s2, p2, m2, s3, p3, m3, s4, p4, m4, hout, e6, e7, e8,
    e9, hpar, e2, e3, e4, e5, hend⟩ := generateCode_parameters x cdef
  obtain ⟨a1, b1, c1⟩ := generateFunctionParameters_count x _ _ _ e6
  obtain ⟨a2, b2, c2⟩ := generateFunctionParameters_count x _ _ _ e7
  obtain ⟨a3, b3, c3⟩ := generateFunctionParameters_count x _ _ _ e8
  obtain ⟨a4, b4, c4⟩ := generateFunctionParameters_count x _ _ _ e9
  obtain ⟨_, q1, _, _⟩ := generateFunctions_records _ _ _ _ _ _ _ _ e2
  obtain ⟨_, q2, _, _⟩ := generateFunctions_records _ _ _ _ _ _ _ _ e3
  obtain ⟨_, q3, _, _⟩ := generateFunctions_records _ _ _ _ _ _ _ _ e4
  obtain ⟨_, q4, _, _⟩ := generateFunctions_records _ _ _ _ _ _ _ _ e5
  rw [aggregateParameterCount_sum] at c1 c2 c3 c4 q1 q2 q3 q4
  have hlen : (out.parameters.length : Int)
      = (aggregateParameterCount cdef.signalList + aggregateParameterCount cdef.slotList
            + aggregateParameterCount cdef.methodList
            + aggregateParameterCount cdef.constructorList) * 2
          - ((cdef.signalList.length : Int) + cdef.slotList.length + cdef.methodList.length)
          - cdef.constructorList.length := by
    rw [hpar]
    simp only [List.length_append]
    push_cast
    rw [c1, c2, c3, c4]
    ring
  refine ⟨out, p4, hout, hend, hlen, ?_, ?_, ?_, ?_⟩
  · rw [hpar]
    simp only [List.filter_append, List.length_append]
    push_cast
    rw [a1, a2, a3, a4]
  · rw [hpar]
    simp only [List.filter_append, List.length_append]
    push_cast
    rw [b1, b2, b3, b4]
    ring
  · rw [hlen, q4, q3, q2, q1]
    ring
  · rw [hlen]
    simp only [layout]
    ring

theorem flatMap_slice {α β : Type} (f : α → List β) (l : List α) (i : Nat) (a : α)
    (h : l[i]? = some a) :
    ((l.flatMap f).drop (((l.take i).map (fun e => (f e).length)).sum)).take (f a).length
      = f a := by
  induction l generalizing i with
  | nil => simp at h
  | cons b rest ih =>
    cases i with
    | zero =>
      simp only [List.getElem?_cons_zero, Option.some.injEq] at h
      subst h
      simp
    | succ j =>
      simp only [List.getElem?_cons_succ] at h
      simp only [List.take_succ_cons, List.map_cons, List.sum_cons, List.flatMap_cons]
      rw [List.drop_append_eq_append_drop]
      have h1 : List.drop ((f b).length + ((rest.take j).map (fun e => (f e).length)).sum) (f b)
          = [] := List.drop_eq_nil_of_le (by omega)
      rw [h1, List.nil_append]
      have h2 : (f b).length + ((rest.take j).map (fun e => (f e).length)).sum - (f b).length
          = ((rest.take j).map (fun e => (f e).length)).sum := by omega
      rw [h2]
      exact ih j h

/-- The records of the first loop of `generateEnums`: one per enum, with its value count
and the value `index` had when its turn came. -/
theorem generateEnumRecords_records (cdef : ClassDef) (strings : List Bytes)
    (list : List EnumDef) (index : Int) (recs : List EnumRecord)
    (h : generateEnumRecords cdef strings list index = some recs) :
    recs.length = list.length ∧
    ∀ i r, recs[i]? = some r → ∃ e, list[i]? = some e ∧ r.count = e.values.length ∧
      r.data = index + 2 * (((list.take i).map (fun e => e.values.length)).sum : Nat) := by
  induction list generalizing index recs with
  | nil =>
    simp only [generateEnumRecords, Option.some.injEq] at h
    subst h
    simp
  | cons e rest ih =>
    simp only [generateEnumRecords] at h
    split at h
    · rename_i n a more hn ha hm
      simp only [Option.some.injEq] at h
      subst h
      obtain ⟨hl, hi⟩ := ih _ _ hm
      refine ⟨by simp [hl], ?_⟩
      intro i r hr
      cases i with
      | zero =>
        simp only [List.getElem?_cons_zero, Option.some.injEq] at hr
        subst hr
        exact ⟨e, List.getElem?_cons_zero, rfl, by simp⟩
      | succ j =>
        simp only [List.getElem?_cons_succ] at hr
        obtain ⟨e1, he1, hc, hd⟩ := hi j r hr
        refine ⟨e1, by simpa using he1, hc, ?_⟩
        rw [hd]
        simp only [List.take_succ_cons, List.map_cons, List.sum_cons]
        push_cast
        ring
    · exact absurd h (by simp)

theorem collect_map_snd {α γ δ : Type} (k : α → Option γ) (g : α → δ) (l : List α)
    (bs : List (γ × δ)) (h : collect (fun v => (k v).map (fun i => (i, g v))) l = some bs) :
    bs.map Prod.snd = l.map g := by
  induction l generalizing bs with
  | nil =>
    simp only [collect, Option.some.injEq] at h
    subst h
    rfl
  | cons a l ih =>
    simp only [collect] at h
    split at h
    · rename_i b bs0 hb hbs
      simp only [Option.some.injEq] at h
      subst h
      cases hk : k a with
      | none => simp [hk] at hb
      | some i =>
        simp only [hk, Option.map_some', Option.some.injEq] at hb
        subst hb
        simp [ih bs0 hbs]
    · exact absurd h (by simp)

/-- The value expressions of the second loop of `generateEnums`, enum by enum. -/
theorem generateEnumData_codes (cdef : ClassDef) (strings : List Bytes)
    (list : List EnumDef) (data : List (Nat × Bytes))
    (h : generateEnumData cdef strings list = some data) :
    data.map Prod.snd = list.flatMap (fun e => e.values.map (enumValueCode cdef e)) := by
  induction list generalizing data with
  | nil =>
    simp only [generateEnumData, Option.some.injEq] at h
    subst h
    rfl
  | cons e rest ih =>
    simp only [generateEnumData] at h
    split at h
    · rename_i pairs more hp hm
      simp only [Option.some.injEq] at h
      subst h
      simp only [List.map_append, List.flatMap_cons, ih more hm]
      rw [collect_map_snd (stridx strings) (enumValueCode cdef e) e.values pairs hp]
    · exact absurd h (by simp)

theorem filterEnums_declared (cdef : ClassDef) (e : EnumDef) (h : e ∈ filterEnums cdef) :
    mapContains cdef.enumDeclarations e.name = true := by
  unfold filterEnums at h
  obtain ⟨d, _, hd⟩ := List.mem_flatMap.mp h
  rcases List.mem_append.mp hd with h1 | h1
  · split at h1
    · rename_i hc
      simp only [List.mem_singleton] at h1
      rw [h1]
      exact hc
    · cases h1
  · split at h1
    · rename_i hc
      simp only [List.mem_singleton] at h1
      rw [h1]
      exact hc
    · cases h1

theorem filterEnums_nil (cdef : ClassDef) (h : cdef.enumDeclarations.isEmpty = true) :
    filterEnums cdef = [] := by
  apply List.eq_nil_iff_forall_not_mem.mpr
  intro e he
  have := filterEnums_declared cdef e he
  rw [List.isEmpty_iff.mp h] at this
  simp [mapContains] at this

/-- C12: when the strings of the enums are registered, `generateEnums(enumsIndex)` writes
its tables, and the `data` index in the record of enum `i` is `enumsIndex` plus the number
of integers written before the first key/value pair of enum `i`: 5 for each of the enum
records and 2 for each value of the enums before `i`, whose pairs come first in the enum
data; the pairs of enum `i` follow at that place. -/
theorem generateEnums_data_index (cdef : ClassDef) (enumList : List EnumDef)
    (strings : List Bytes) (enumsIndex : Int)
    (hreg : ∀ e ∈ enumList, ∀ t, e.needs t → t ∈ strings) :
    ∃ recs data, generateEnums cdef enumList strings enumsIndex = some (recs, data) ∧
      (cdef.enumDeclarations.isEmpty = false → recs.length = enumList.length) ∧
      ∀ i r, recs[i]? = some r → ∃ e, enumList[i]? = some e ∧ r.count = e.values.length ∧
        r.data = enumsIndex + 5 * (recs.length : Int)
          + 2 * (((enumList.take i).map (fun e => e.values.length)).sum : Nat) ∧
        ((data.drop ((enumList.take i).map (fun e => e.values.length)).sum).take r.count).map
            Prod.snd = e.values.map (enumValueCode cdef e) := by
  unfold generateEnums
  cases hd : cdef.enumDeclarations.isEmpty with
  | true =>
    refine ⟨[], [], by simp, by simp, ?_⟩
    intro i r hr
    simp at hr
  | false =>
    obtain ⟨recs, hr⟩ := generateEnumRecords_of_needs cdef strings enumList hreg
      (enumsIndex + 5 * (enumList.length : Int))
    obtain ⟨data, hdat⟩ := generateEnumData_of_needs cdef strings enumList hreg
    obtain ⟨hl, hrec⟩ := generateEnumRecords_records cdef strings enumList _ recs hr
    have hcodes := generateEnumData_codes cdef strings enumList data hdat
    refine ⟨recs, data, by simp [hr, hdat], fun _ => hl, ?_⟩
    intro i r hi
    obtain ⟨e, he, hc, hdata⟩ := hrec i r hi
    refine ⟨e, he, hc, ?_, ?_⟩
    · rw [hdata, hl]
    · have hs := flatMap_slice (fun e => e.values.map (enumValueCode cdef e)) enumList i e he
      simp only [List.length_map] at hs
      rw [← hcodes] at hs
      rw [List.map_take, List.map_drop, hc]
      exact hs

theorem generateEnums_data_index_witness :
    (generateEnums sampleEnumClass (filterEnums sampleEnumClass)
        (registerStrings sampleExternals sampleEnumClass) 100).map
      (fun r => (r.1.map EnumRecord.data, r.2.map Prod.snd))
      = some ([110, 114], [[67, 58, 58, 65], [67, 58, 58, 66], [67, 58, 58, 70, 58, 58, 88]]) ∧
    ∃ recs data, generateEnums sampleEnumClass (filterEnums sampleEnumClass)
        (registerStrings sampleExternals sampleEnumClass) 100 = some (recs, data) ∧
      (sampleEnumClass.enumDeclarations.isEmpty = false →
        recs.length = (filterEnums sampleEnumClass).length) ∧
      ∀ i r, recs[i]? = some r → ∃ e, (filterEnums sampleEnumClass)[i]? = some e ∧
        r.count = e.values.length ∧
        r.data = 100 + 5 * (recs.length : Int)
          + 2 * ((((filterEnums sampleEnumClass).take i).map
              (fun e => e.values.length)).sum : Nat) ∧
        ((data.drop (((filterEnums sampleEnumClass).take i).map
            (fun e => e.values.length)).sum).take r.count).map
            Prod.snd = e.values.map (enumValueCode sampleEnumClass e) :=
  ⟨by decide, generateEnums_data_index sampleEnumClass (filterEnums sampleEnumClass)
    (registerStrings sampleExternals sampleEnumClass) 100
    (registerStrings_covers sampleExternals sampleEnumClass).2.2.2.2.2.2.2⟩

/-- C13: after `generateCode` has filtered out the undeclared enumerators and sets, the
name of every enum left is a key of `enumDeclarations`; and for every class definition the
number of enum records written by `generateEnums` is the enum count written in the
header, also when `enumDeclarations` is empty and `generateEnums` returns at once. -/
theorem generateCode_enum_count (x : Externals) (cdef : ClassDef) :
    (∀ e ∈ filterEnums cdef, mapContains cdef.enumDeclarations e.name = true) ∧
    ∃ out, generateCode x cdef = some out ∧
      out.content.enumCount = ((filterEnums cdef).length : Int) ∧
      out.content.enumCount = (out.enums.length : Int) ∧
      (cdef.enumDeclarations.isEmpty = true → out.enums = [] ∧ out.content.enumCount = 0) := by
  refine ⟨filterEnums_declared cdef, ?_⟩
  obtain ⟨out, _, _, _, _, _, _, _, _, hgen, _, _, _, _, _, _, _, hen, _, _, hcount⟩ :=
    generateCode_tables x cdef
  have hlen : out.enums.length = (filterEnums cdef).length := by
    unfold generateEnums at hen
    cases hd : cdef.enumDeclarations.isEmpty with
    | true =>
      simp only [hd, if_true, Option.some.injEq, Prod.mk.injEq] at hen
      rw [← hen.1, filterEnums_nil cdef hd]
      rfl
    | false =>
      simp only [hd, Bool.false_eq_true, if_false] at hen
      split at hen
      · rename_i recs data hr hdat
        simp only [Option.some.injEq, Prod.mk.injEq] at hen
        rw [← hen.1]
        exact (generateEnumRecords_records cdef _ _ _ recs hr).1
      · exact absurd hen (by simp)
  refine ⟨out, hgen, hcount, by rw [hcount, hlen], ?_⟩
  intro hd
  have hnil : out.enums = [] := List.length_eq_zero.mp (by rw [hlen, filterEnums_nil cdef hd]; rfl)
  exact ⟨hnil, by rw [hcount, filterEnums_nil cdef hd]; rfl⟩

theorem stringdataSizesFrom_spec (strings : List Bytes) (len : Int)
    (h : ∀ s ∈ strings, s.length ≤ 65533) (h0 : 0 ≤ len) (h1 : len < 65535) :
    (∀ n ∈ stringdataSizesFrom strings len, 0 ≤ n ∧ n < 65535) ∧
    (stringdataSizesFrom strings len).sum = len + ((stringdata strings).length : Int) := by
  induction strings generalizing len with
  | nil => simp [stringdataSizesFrom, stringdata, h0, h1]
  | cons s rest ih =>
    have hs : s.length ≤ 65533 := h s (List.mem_cons_self _ _)
    have hrest : ∀ t ∈ rest, t.length ≤ 65533 := fun t ht => h t (List.mem_cons_of_mem _ ht)
    have e1 : toInt32 ((s.length : Int) + 1) = (s.length : Int) + 1 := by
      unfold toInt32
      omega
    have e2 : toInt32 (len + ((s.length : Int) + 1)) = len + ((s.length : Int) + 1) := by
      unfold toInt32
      omega
    have e3 : toInt32 (len + ((s.length : Int) + 1) - ((s.length : Int) + 1)) = len := by
      unfold toInt32
      omega
    have e4 : Int.tdiv (len + ((s.length : Int) + 1)) 65535 = (len + ((s.length : Int) + 1)) / 65535 :=
      Int.tdiv_eq_ediv (by omega) (by omega)
    have hlen : ((stringdata (s :: rest)).length : Int)
        = (s.length : Int) + 1 + ((stringdata rest).length : Int) := by
      simp only [stringdata, List.flatMap_cons, List.length_append, List.length_singleton]
      push_cast
      ring
    simp only [stringdataSizesFrom, e1, e2, e3, constCharArraySizeLimit, e4]
    by_cases hc : 65535 ≤ len + ((s.length : Int) + 1)
    · have hne : ((len + ((s.length : Int) + 1)) / 65535 != 0) = true := by
        simp only [bne_iff_ne, ne_eq]
        omega
      rw [if_pos hne]
      obtain ⟨i1, i2⟩ := ih ((s.length : Int) + 1) hrest (by omega) (by omega)
      refine ⟨?_, ?_⟩
      · intro n hn
        rcases List.mem_cons.mp hn with hn0 | hn1
        · rw [hn0]
          exact ⟨h0, h1⟩
        · exact i1 n hn1
      · rw [List.sum_cons, i2, hlen]
    · have hne : ¬ ((len + ((s.length : Int) + 1)) / 65535 != 0) = true := by
        simp only [bne_iff_ne, ne_eq, not_not]
        omega
      rw [if_neg hne]
      obtain ⟨i1, i2⟩ := ih (len + ((s.length : Int) + 1)) hrest (by omega) (by omega)
      refine ⟨i1, ?_⟩
      rw [i2, hlen]
      ring

/-- C16: if every registered string is at most 65533 bytes long, every string data array
declared in the generated struct has a size below `constCharArraySizeLimit` (65535) and not
below 0; the arrays together hold exactly the bytes of the string data, since a new array
is only started with a whole string. -/
theorem stringdataSizes_below_limit (strings : List Bytes)
    (h : ∀ s ∈ strings, s.length ≤ 65533) :
    (∀ n ∈ stringdataSizes strings, 0 ≤ n ∧ n < constCharArraySizeLimit) ∧
    (stringdataSizes strings).sum = ((stringdata strings).length : Int) := by
  obtain ⟨h1, h2⟩ := stringdataSizesFrom_spec strings 0 h (le_refl 0) (by norm_num)
  exact ⟨h1, by simpa using h2⟩

theorem sampleLongStrings_short :
    ∀ s ∈ [List.replicate 65533 97, [98]], s.length ≤ 65533 := by
  intro s hs
  rcases List.mem_cons.mp hs with h1 | h1
  · rw [h1, List.length_replicate]
  · rw [List.mem_singleton.mp h1]
    decide

theorem sampleLongStrings_sizes :
    stringdataSizes [List.replicate 65533 97, [98]] = [65534, 2] := by
  simp only [stringdataSizes, stringdataSizesFrom, List.length_replicate, List.length_singleton]
  decide

theorem stringdataSizes_below_limit_witness :
    (∀ s ∈ [List.replicate 65533 97, [98]], s.length ≤ 65533) ∧
    stringdataSizes [List.replicate 65533 97, [98]] = [65534, 2] ∧
    ((∀ n ∈ stringdataSizes [List.replicate 65533 97, [98]],
        0 ≤ n ∧ n < constCharArraySizeLimit) ∧
      (stringdataSizes [List.replicate 65533 97, [98]]).sum
        = ((stringdata [List.replicate 65533 97, [98]]).length : Int)) :=
  ⟨sampleLongStrings_short, sampleLongStrings_sizes,
    stringdataSizes_below_limit [List.replicate 65533 97, [98]] sampleLongStrings_short⟩

theorem forIndexed_getElem? {α β : Type} (body : α → Nat → β) (l : List α) (index i : Nat) :
    (forIndexed body l index)[i]? = (l[i]?).map (fun a => body a (index + i)) := by
  induction l generalizing index i with
  | nil => simp [forIndexed]
  | cons a rest ih =>
    cases i with
    | zero => simp [forIndexed]
    | succ j =>
      simp only [forIndexed, List.getElem?_cons_succ, ih]
      congr 1
      funext b
      congr 1
      omega

/-- The records of `generateFunctions` follow the list: the record at a position names the
function at that position. -/
theorem generateFunctions_names (strings : List Bytes) (type : Flag)
    (list : List FunctionDef) (p m : Int) (recs : List FunctionRecord) (p1 m1 : Int)
    (h : generateFunctions strings type list p m = some (recs, p1, m1)) (i : Nat)
    (f : FunctionDef) (hf : list[i]? = some f) :
    ∃ r, recs[i]? = some r ∧ stridx strings f.name = some r.name ∧
      r.argc = f.arguments.length := by
  induction list generalizing p m recs p1 m1 i with
  | nil => simp at hf
  | cons g rest ih =>
    simp only [generateFunctions] at h
    split at h
    · rename_i n t hn ht
      split at h
      · rename_i recs0 p0 m0 hr
        simp only [Option.some.injEq, Prod.mk.injEq] at h
        obtain ⟨rfl, rfl, rfl⟩ := h
        cases i with
        | zero =>
          simp only [List.getElem?_cons_zero, Option.some.injEq] at hf
          subst hf
          exact ⟨_, List.getElem?_cons_zero, hn, rfl⟩
        | succ j =>
          simp only [List.getElem?_cons_succ] at hf
          obtain ⟨r, hr1, hr2, hr3⟩ := ih _ _ _ _ _ hr j hf
          exact ⟨r, by simpa using hr1, hr2, hr3⟩
      · exact absurd h (by simp)
    · exact absurd h (by simp)

/-- C14: the signals come first in the method table and in the `methodList` of
`qt_static_metacall`, so for the signal at position `i` of `signalList` every index the
generator uses is `i`: the record at position `i` of the method table is the signal's, its
case in the `InvokeMetaMethod` switch has the number `i` and its implementation template
gets the index `i` there and in `generateSignalDefs`, the `IndexOfMethod` branch writes
the result `i` for it, and `generateSignal` passes the signal index `i` to
`QMetaObject::activate`. -/
theorem signal_indices_agree (x : Externals) (cdef : ClassDef) (i : Nat) (f : FunctionDef)
    (h : cdef.signalList[i]? = some f) :
    (∃ out r, generateCode x cdef = some out ∧
      (out.signals ++ out.slots ++ out.methods)[i]? = some r ∧
      stridx out.strings f.name = some r.name ∧ r.argc = f.arguments.length) ∧
    (invokeMetaMethodCases cdef)[i]? = some
      { caseNumber := i, name := f.name,
        implementation := f.implementation.map (fun template => (template, i)) } ∧
    (generateSignalDefs cdef)[i]? = some (signalDef f i) ∧
    (∀ e, signalDef f i = some e → e.1 = f.mangledName ∧ e.2.2 = i) ∧
    (indexOfMethodBlocks cdef)[i]? = some (indexOfMethodBlock f i) ∧
    (∀ e, indexOfMethodBlock f i = some e → e.1 = f.mangledName ∧ e.2 = i) ∧
    (generateSignals cdef)[i]? = some (generateSignal f i) ∧
    (∀ e, generateSignal f i = some e → e.1 = f.name ∧ e.2 = i) := by
  have hlt : i < cdef.signalList.length := (List.getElem?_eq_some_iff.mp h).1
  refine ⟨?_, ?_, ?_, ?_, ?_, ?_, ?_, ?_⟩
  · obtain ⟨out, p1, m1, _, _, _, _, _, _, hgen, hs, _, _, h1, _⟩ := generateCode_tables x cdef
    obtain ⟨r, hr, hn, ha⟩ := generateFunctions_names _ _ _ _ _ _ _ _ h1 i f h
    have hl : i < out.signals.length := (List.getElem?_eq_some_iff.mp hr).1
    refine ⟨out, r, hgen, ?_, by rw [hs]; exact hn, ha⟩
    rw [List.append_assoc, List.getElem?_append_left hl]
    exact hr
  · simp only [invokeMetaMethodCases, forIndexed_getElem?, List.append_assoc,
      List.getElem?_append_left hlt, h, Option.map_some', Nat.zero_add, invokeCase]
  · simp only [generateSignalDefs, forIndexed_getElem?, h, Option.map_some', Nat.zero_add]
  · intro e he
    unfold signalDef at he
    split at he
    · split at he
      · cases he
      · simp only [Option.some.injEq] at he
        subst he
        exact ⟨rfl, rfl⟩
    · cases he
  · simp only [indexOfMethodBlocks, forIndexed_getElem?, h, Option.map_some', Nat.zero_add]
  · intro e he
    unfold indexOfMethodBlock at he
    split at he
    · cases he
    · split at he
      · cases he
      · simp only [Option.some.injEq] at he
        subst he
        exact ⟨rfl, rfl⟩
  · simp only [generateSignals, forIndexed_getElem?, h, Option.map_some', Nat.zero_add]
  · intro e he
    unfold generateSignal at he
    split at he
    · cases he
    · split at he
      · cases he
      · simp only [Option.some.injEq] at he
        subst he
        exact ⟨rfl, rfl⟩

theorem signal_indices_agree_witness :
    sampleSignalClass.signalList[1]? = some (sampleSignal [98]) ∧
    (invokeMetaMethodCases sampleSignalClass).map InvokeCase.caseNumber = [0, 1, 2, 3] ∧
    generateSignalDefs sampleSignalClass
      = [some ([97], [116], 0), some ([98], [116], 1), none] ∧
    indexOfMethodBlocks sampleSignalClass = [some ([97], 0), some ([98], 1), some ([99], 2)] ∧
    generateSignals sampleSignalClass = [none, none, some ([99], 2)] ∧
    ((∃ out r, generateCode sampleExternals sampleSignalClass = some out ∧
        (out.signals ++ out.slots ++ out.methods)[1]? = some r ∧
        stridx out.strings (sampleSignal [98]).name = some r.name ∧
        r.argc = (sampleSignal [98]).arguments.length) ∧
      (invokeMetaMethodCases sampleSignalClass)[1]? = some
        { caseNumber := 1, name := (sampleSignal [98]).name,
          implementation := (sampleSignal [98]).implementation.map
            (fun template => (template, 1)) } ∧
      (generateSignalDefs sampleSignalClass)[1]? = some (signalDef (sampleSignal [98]) 1) ∧
      (∀ e, signalDef (sampleSignal [98]) 1 = some e →
        e.1 = (sampleSignal [98]).mangledName ∧ e.2.2 = 1) ∧
      (indexOfMethodBlocks sampleSignalClass)[1]?
        = some (indexOfMethodBlock (sampleSignal [98]) 1) ∧
      (∀ e, indexOfMethodBlock (sampleSignal [98]) 1 = some e →
        e.1 = (sampleSignal [98]).mangledName ∧ e.2 = 1) ∧
      (generateSignals sampleSignalClass)[1]? = some (generateSignal (sampleSignal [98]) 1) ∧
      (∀ e, generateSignal (sampleSignal [98]) 1 = some e →
        e.1 = (sampleSignal [98]).name ∧ e.2 = 1)) :=
  ⟨rfl, by decide, by decide, by decide, by decide,
    signal_indices_agree sampleExternals sampleSignalClass 1 (sampleSignal [98]) rfl⟩

theorem lastIndexOf_spec (s sub : Bytes) :
    lastIndexOf s sub = -1 ∨
    ∃ i : Nat, lastIndexOf s sub = (i : Int) ∧ i ≤ s.length ∧ sub <+: s.drop i := by
  unfold lastIndexOf
  cases hf : (List.range (s.length + 1)).reverse.find? (fun i => sub.isPrefixOf (s.drop i)) with
  | none => exact Or.inl rfl
  | some i =>
    refine Or.inr ⟨i, rfl, ?_, ?_⟩
    · have := List.mem_of_find?_eq_some hf
      simp only [List.mem_reverse, List.mem_range] at this
      omega
    · have := List.find?_some hf
      simpa using this

theorem left_lastIndexOf (s : Bytes) :
    left s (lastIndexOf s scopeBytes) = [] ∨
    ((left s (lastIndexOf s scopeBytes) ++ scopeBytes) <+: s ∧
      (left s (lastIndexOf s scopeBytes)).length + 2 ≤ s.length) := by
  rcases lastIndexOf_spec s scopeBytes with h | ⟨i, hi, hle, hp⟩
  · left
    rw [h]
    rfl
  · right
    rw [hi]
    simp only [left, Int.toNat_ofNat]
    obtain ⟨t, ht⟩ := hp
    have hs : s = s.take i ++ (scopeBytes ++ t) := by
      rw [ht, List.take_append_drop]
    refine ⟨⟨t, ?_⟩, ?_⟩
    · rw [List.append_assoc]
      exact hs.symm
    · have hl := congrArg List.length hs
      simp only [List.length_append, scopeBytes, List.length_cons, List.length_nil] at hl
      have : (s.take i).length = i := List.length_take_of_le hle
      omega

/-- Enough turns: with more than `thisScope.length` turns allowed the loop ends by itself. -/
theorem findScope_fuel (q g : List (Bytes × Bytes)) (u : Bytes) (fuel : Nat) (thisScope : Bytes)
    (h : thisScope.length < fuel) :
    findScope q g u fuel thisScope = findScope q g u (thisScope.length + 1) thisScope := by
  induction fuel using Nat.strong_induction_on generalizing thisScope with
  | _ fuel ih =>
    cases fuel with
    | zero => omega
    | succ n =>
      simp only [findScope]
      cases hc : constFind q g (currentScopeOf (left thisScope (lastIndexOf thisScope scopeBytes)) u) with
      | some v => rfl
      | none =>
        simp only
        rcases left_lastIndexOf thisScope with h0 | ⟨_, hlen⟩
        · simp [h0]
        · cases he : (left thisScope (lastIndexOf thisScope scopeBytes)).isEmpty with
          | true => rfl
          | false =>
            simp only [Bool.not_false, if_true]
            rw [ih n (by omega) _ (by omega)]
            rw [ih thisScope.length (by omega) _ (by omega)]

theorem enclosingScopes_spec (fuel : Nat) (thisScope qualified e : Bytes)
    (hq : thisScope <+: qualified) (he : e ∈ enclosingScopes fuel thisScope) :
    e = [] ∨ (e ++ scopeBytes) <+: qualified := by
  induction fuel generalizing thisScope with
  | zero => simp [enclosingScopes] at he
  | succ n ih =>
    simp only [enclosingScopes, List.mem_cons] at he
    rcases left_lastIndexOf thisScope with h0 | ⟨hp, _⟩
    · rcases he with h1 | h1
      · exact Or.inl (h1.trans h0)
      · simp [h0] at h1
    · rcases he with h1 | h1
      · right
        rw [h1]
        exact hp.trans hq
      · split at h1
        · refine ih _ ?_ h1
          exact ((List.prefix_append _ _).trans hp).trans hq
        · cases h1

theorem findScope_some (q g : List (Bytes × Bytes)) (u : Bytes) (fuel : Nat)
    (thisScope scope : Bytes) (h : findScope q g u fuel thisScope = some scope) :
    ∃ e ∈ enclosingScopes fuel thisScope, constFind q g (currentScopeOf e u) = some scope := by
  induction fuel generalizing thisScope with
  | zero => simp [findScope] at h
  | succ n ih =>
    simp only [findScope] at h
    split at h
    · rename_i v hv
      simp only [Option.some.injEq] at h
      subst h
      exact ⟨_, by simp [enclosingScopes], hv⟩
    · split at h
      · rename_i hne
        obtain ⟨e, he, hc⟩ := ih _ h
        exact ⟨e, by simp [enclosingScopes, hne, he], hc⟩
      · cases h

theorem findScope_none (q g : List (Bytes × Bytes)) (u : Bytes) (fuel : Nat) (thisScope : Bytes)
    (hfuel : thisScope.length < fuel)
    (h : ∀ e ∈ enclosingScopes fuel thisScope, constFind q g (currentScopeOf e u) = none) :
    findScope q g u fuel thisScope = none := by
  induction fuel generalizing thisScope with
  | zero => rfl
  | succ n ih =>
    simp only [findScope]
    have h1 := h (left thisScope (lastIndexOf thisScope scopeBytes)) (by simp [enclosingScopes])
    rw [h1]
    simp only
    split
    · rename_i hne
      rcases left_lastIndexOf thisScope with h0 | ⟨_, hlen⟩
      · simp [h0] at hne
      · apply ih _ (by omega)
        intro e he
        exact h e (by simp [enclosingScopes, hne, he])
    · rfl

theorem constFind_some (q g : List (Bytes × Bytes)) (key scope : Bytes)
    (h : constFind q g key = some scope) : (key, scope) ∈ q ++ g := by
  unfold constFind at h
  cases hf : (q ++ g).find? (fun kv => kv.1 == key) with
  | none => simp [hf] at h
  | some kv =>
    simp only [hf, Option.map_some', Option.some.injEq] at h
    have h1 := List.find?_some hf
    have h2 := List.mem_of_find?_eq_some hf
    simp only [beq_iff_eq] at h1
    rw [← h1, ← h]
    exact h2

theorem constFind_none (q g : List (Bytes × Bytes)) (key : Bytes)
    (h : ∀ v, (key, v) ∉ q ++ g) : constFind q g key = none := by
  unfold constFind
  cases hf : (q ++ g).find? (fun kv => kv.1 == key) with
  | none => rfl
  | some kv =>
    have h1 := List.find?_some hf
    have h2 := List.mem_of_find?_eq_some hf
    simp only [beq_iff_eq] at h1
    exact absurd (by rw [← h1]; exact h2) (h kv.2)

theorem propertyScope_some (x : Externals) (q g : List (Bytes × Bytes)) (cdef : ClassDef)
    (p : PropertyDef) (scope : Bytes) (h : propertyScope x q g cdef p = some scope) :
    findScope q g (left p.type (lastIndexOf p.type scopeBytes)) (cdef.qualified.length + 1)
      cdef.qualified = some scope := by
  unfold propertyScope at h
  split at h
  · cases h
  · split at h
    · cases h
    · split at h
      · cases h
      · split at h
        · cases h
        · rename_i v hv
          split at h
          · cases h
          · split at h
            · cases h
            · simp only [Option.some.injEq] at h
              rw [hv, h]

theorem foldl_extraListStep_mem (x : Externals) (q g : List (Bytes × Bytes)) (cdef : ClassDef)
    (l : List PropertyDef) (acc : List Bytes) (scope : Bytes)
    (h : scope ∈ l.foldl (extraListStep x q g cdef) acc) :
    scope ∈ acc ∨ ∃ p ∈ l, propertyScope x q g cdef p = some scope := by
  induction l generalizing acc with
  | nil => exact Or.inl h
  | cons p rest ih =>
    rcases ih _ h with h1 | ⟨p1, hp1, hs⟩
    · unfold extraListStep at h1
      split at h1
      · rename_i v hv
        split at h1
        · exact Or.inl h1
        · rcases List.mem_append.mp h1 with h2 | h2
          · exact Or.inl h2
          · rw [List.mem_singleton.mp h2]
            exact Or.inr ⟨p, List.mem_cons_self _ _, hv⟩
      · exact Or.inl h1
    · exact Or.inr ⟨p1, List.mem_cons_of_mem _ hp1, hs⟩

theorem extraListEnumStep_mono (cdef : ClassDef) (l : List Bytes) (acc : List Bytes)
    (scope : Bytes) (h : scope ∈ acc) : scope ∈ l.foldl (extraListEnumStep cdef) acc := by
  induction l generalizing acc with
  | nil => exact h
  | cons k rest ih =>
    apply ih
    unfold extraListEnumStep
    split
    · split
      · exact List.mem_append_left _ h
      · exact h
    · exact h

theorem firstIndexOf_spec (s sub : Bytes) :
    firstIndexOf s sub = -1 ∨
    ∃ i : Nat, firstIndexOf s sub = (i : Int) ∧ i ≤ s.length ∧ sub <+: s.drop i := by
  unfold firstIndexOf
  cases hf : (List.range (s.length + 1)).find? (fun i => sub.isPrefixOf (s.drop i)) with
  | none => exact Or.inl rfl
  | some i =>
    refine Or.inr ⟨i, rfl, ?_, ?_⟩
    · have := List.mem_of_find?_eq_some hf
      simp only [List.mem_range] at this
      omega
    · have := List.find?_some hf
      simpa using this

/-- Enough calls: with more than `qualifiedName.length` calls allowed the recursion of
`qualifiedNameEquals` ends by itself. -/
theorem qualifiedNameEqualsAux_fuel (fuel : Nat) (qualifiedName name : Bytes)
    (h : qualifiedName.length < fuel) :
    qualifiedNameEqualsAux fuel qualifiedName name
      = qualifiedNameEqualsAux (qualifiedName.length + 1) qualifiedName name := by
  induction fuel using Nat.strong_induction_on generalizing qualifiedName with
  | _ fuel ih =>
    cases fuel with
    | zero => omega
    | succ n =>
      simp only [qualifiedNameEqualsAux]
      split
      · rfl
      · split
        · rfl
        · rename_i hne
          rcases firstIndexOf_spec qualifiedName scopeBytes with h1 | ⟨i, hi, hle, hp⟩
          · simp [h1] at hne
          · obtain ⟨t, ht⟩ := hp
            have hl := congrArg List.length ht
            simp only [List.length_append, scopeBytes, List.length_cons, List.length_nil,
              List.length_drop] at hl
            have hd : (qualifiedName.drop (firstIndexOf qualifiedName scopeBytes + 2).toNat).length
                < qualifiedName.length := by
              rw [hi]
              have : ((i : Int) + 2).toNat = i + 2 := by omega
              rw [this, List.length_drop]
              omega
            rw [ih n (by omega) _ (by omega)]
            rw [ih qualifiedName.length (by omega) _ (by omega)]

/-- C15: every scope that `generateCode` puts into the extra list on account of a property
type is a value stored in `knownQObjectClasses` or `knownGadgets`, under the scope of the
property type taken relative to an enclosing scope of the generated class (or taken as it
is), and it stays in the list; a property type whose scope is stored under none of these
keys leaves the list as it is. -/
theorem extraList_property_scopes_known (x : Externals)
    (knownQObjectClasses knownGadgets : List (Bytes × Bytes)) (cdef : ClassDef) :
    (∀ scope ∈ extraListOfProperties x knownQObjectClasses knownGadgets cdef,
      scope ∈ extraList x knownQObjectClasses knownGadgets cdef ∧
      ∃ p ∈ cdef.propertyList,
        ∃ e ∈ enclosingScopes (cdef.qualified.length + 1) cdef.qualified,
          (e = [] ∨ (e ++ scopeBytes) <+: cdef.qualified) ∧
          (currentScopeOf e (left p.type (lastIndexOf p.type scopeBytes)), scope)
            ∈ knownQObjectClasses ++ knownGadgets) ∧
    (∀ (list : List Bytes) (p : PropertyDef),
      (∀ e ∈ enclosingScopes (cdef.qualified.length + 1) cdef.qualified, ∀ v,
        (currentScopeOf e (left p.type (lastIndexOf p.type scopeBytes)), v)
          ∉ knownQObjectClasses ++ knownGadgets) →
      extraListStep x knownQObjectClasses knownGadgets cdef list p = list) := by
  refine ⟨?_, ?_⟩
  · intro scope hs
    refine ⟨extraListEnumStep_mono cdef _ _ scope hs, ?_⟩
    rcases foldl_extraListStep_mem x _ _ cdef _ [] scope hs with h0 | ⟨p, hp, hps⟩
    · cases h0
    · obtain ⟨e, he, hc⟩ := findScope_some _ _ _ _ _ _ (propertyScope_some x _ _ cdef p scope hps)
      exact ⟨p, hp, e, he,
        enclosingScopes_spec _ _ cdef.qualified e (List.prefix_refl _) he,
        constFind_some _ _ _ _ hc⟩
  · intro list p hnone
    have hf := findScope_none knownQObjectClasses knownGadgets
      (left p.type (lastIndexOf p.type scopeBytes)) (cdef.qualified.length + 1) cdef.qualified
      (Nat.lt_succ_self _)
      (fun e he => constFind_none _ _ _ (hnone e he))
    have hp : propertyScope x knownQObjectClasses knownGadgets cdef p = none := by
      unfold propertyScope
      split
      · rfl
      · split
        · rfl
        · split
          · rfl
          · rw [hf]
    simp only [extraListStep, hp]

end Generator

namespace StateMachineQml

theorem parentItem_children (mode : ChildrenMode) (owner : Nat) (w : Objects) (item : Item) :
    (parentItem mode owner w item).2.children = w.children := by
  cases mode <;> cases hk : item.kind <;>
    simp [parentItem, parentItemState, parentItemTransition, setParent, hk]

theorem unparentItem_children (mode : ChildrenMode) (w : Objects) (item : Item) :
    (unparentItem mode w item).2.children = w.children := by
  cases mode <;> cases hk : item.kind <;>
    simp [unparentItem, unparentItemState, unparentItemTransition, setParent, hk]

theorem append_children (mode : ChildrenMode) (owner : Nat) (w : Objects) (item : Item) :
    (append mode owner w item).children = w.children ++ [item] := by
  simp [append, childrenContentChanged, parentItem_children]

/-- C17: for every mode, owner, children list and item, whatever the handler makes of the
item, `ChildrenPrivate::append` puts the item behind the entries there are: `count()`
grows by exactly one, every entry keeps its index, and the item is at the index that
`count()` gave before. -/
theorem append_keeps_order (mode : ChildrenMode) (owner : Nat) (w : Objects) (item : Item) :
    (append mode owner w item).children = w.children ++ [item] ∧
    count (append mode owner w item) = count w + 1 ∧
    (∀ i : Nat, i < count w →
      itemAt (append mode owner w item) i = itemAt w i ∧ (itemAt w i).isSome = true) ∧
    itemAt (append mode owner w item) (count w) = some item := by
  have hc := append_children mode owner w item
  refine ⟨hc, by simp [count, hc], ?_, ?_⟩
  · intro i hi
    simp only [count] at hi
    simp only [itemAt, hc, Int.toNat_ofNat, Int.ofNat_nonneg, if_true]
    rw [List.getElem?_append_left hi]
    exact ⟨rfl, by simp [List.getElem?_eq_getElem hi]⟩
  · simp [itemAt, count, hc]

theorem parentItem_parent (mode : ChildrenMode) (owner : Nat) (w : Objects) (item : Item)
    (hm : mode = ChildrenMode.State ∨ mode = ChildrenMode.StateOrTransition) (i : Item) :
    (parentItem mode owner w item).2.parent i
      = if item.kind = ObjectKind.state ∧ i = item then some owner else w.parent i := by
  rcases hm with rfl | rfl <;> cases hk : item.kind <;>
    simp [parentItem, parentItemState, parentItemTransition, setParent, hk]

theorem unparentItem_parent (mode : ChildrenMode) (w : Objects) (item : Item)
    (hm : mode = ChildrenMode.State ∨ mode = ChildrenMode.StateOrTransition) (i : Item) :
    (unparentItem mode w item).2.parent i
      = if item.kind = ObjectKind.state ∧ i = item then none else w.parent i := by
  rcases hm with rfl | rfl <;> cases hk : item.kind <;>
    simp [unparentItem, unparentItemState, unparentItemTransition, setParent, hk]

theorem parented_append (mode : ChildrenMode) (owner : Nat) (w : Objects) (item : Item)
    (hm : mode = ChildrenMode.State ∨ mode = ChildrenMode.StateOrTransition)
    (hw : Parented owner w) (hf : item ∉ w.children) :
    Parented owner (append mode owner w item) := by
  have hc := append_children mode owner w item
  have hp : ∀ i, (append mode owner w item).parent i
      = if item.kind = ObjectKind.state ∧ i = item then some owner else w.parent i := by
    intro i
    simp only [append, childrenContentChanged]
    exact parentItem_parent mode owner w item hm i
  refine ⟨?_, ?_⟩
  · rw [hc]
    exact List.Nodup.append hw.1 (List.nodup_singleton item) (by simpa using hf)
  · intro x hx hk
    rw [hc] at hx
    rw [hp x]
    rcases List.mem_append.mp hx with h1 | h1
    · split
      · rfl
      · exact hw.2 x h1 hk
    · have hxi : x = item := List.mem_singleton.mp h1
      rw [if_pos ⟨hxi ▸ hk, hxi⟩]

theorem parented_clear (mode : ChildrenMode) (owner : Nat) (w : Objects) :
    Parented owner (clear mode w) := by
  refine ⟨?_, ?_⟩
  · simp [clear, childrenContentChanged]
  · intro x hx
    simp [clear, childrenContentChanged] at hx

theorem parented_removeLast (mode : ChildrenMode) (owner : Nat) (w w1 : Objects)
    (hm : mode = ChildrenMode.State ∨ mode = ChildrenMode.StateOrTransition)
    (hw : Parented owner w) (h : removeLast mode w = some w1) : Parented owner w1 := by
  unfold removeLast at h
  cases hl : w.children.getLast? with
  | none => simp [hl] at h
  | some last =>
    simp only [hl, Option.some.injEq] at h
    subst h
    have hsplit : w.children.dropLast ++ [last] = w.children :=
      List.dropLast_append_getLast? last (by simp [hl])
    have hnd : (w.children.dropLast ++ [last]).Nodup := by
      rw [hsplit]
      exact hw.1
    have hnot : last ∉ w.children.dropLast := by
      intro hmem
      have := (List.nodup_append.mp hnd).2.2
      exact this hmem (List.mem_singleton_self last)
    refine ⟨?_, ?_⟩
    · simp only [childrenContentChanged, unparentItem_children]
      exact (List.nodup_append.mp hnd).1
    · intro x hx hk
      simp only [childrenContentChanged, unparentItem_children] at hx
      simp only [childrenContentChanged]
      rw [unparentItem_parent mode _ last hm x]
      have hne : x ≠ last := fun he => hnot (he ▸ hx)
      rw [if_neg (fun hc => hne hc.2)]
      exact hw.2 x (List.mem_of_mem_dropLast hx) hk

theorem parented_replace (mode : ChildrenMode) (owner : Nat) (w w1 : Objects) (index : Int)
    (item : Item) (hm : mode = ChildrenMode.State ∨ mode = ChildrenMode.StateOrTransition)
    (hw : Parented owner w) (hf : item ∉ w.children)
    (h : replace mode owner w index item = some w1) : Parented owner w1 := by
  unfold replace at h
  cases ho : itemAt w index with
  | none => simp [ho] at h
  | some oldItem =>
    simp only [ho, Option.some.injEq] at h
    subst h
    unfold itemAt at ho
    split at ho
    · rename_i hidx
      obtain ⟨hlt, hget⟩ := List.getElem?_eq_some_iff.mp ho
      have hset : w.children.set index.toNat item
          = w.children.take index.toNat ++ item :: w.children.drop (index.toNat + 1) := by
        rw [List.set_eq_take_append_cons_drop, if_pos hlt]
      have hold : w.children
          = w.children.take index.toNat ++ oldItem :: w.children.drop (index.toNat + 1) := by
        rw [← hget, ← List.drop_eq_getElem_cons hlt, List.take_append_drop]
      have hnd : (w.children.take index.toNat
          ++ oldItem :: w.children.drop (index.toNat + 1)).Nodup := by
        rw [← hold]
        exact hw.1
      have hsub1 : ∀ x, x ∈ w.children.take index.toNat → x ∈ w.children :=
        fun x hx => List.mem_of_mem_take hx
      have hsub2 : ∀ x, x ∈ w.children.drop (index.toNat + 1) → x ∈ w.children :=
        fun x hx => List.mem_of_mem_drop hx
      obtain ⟨n1, n2, n3⟩ := List.nodup_append.mp hnd
      have n2c := List.nodup_cons.mp n2
      have hch : (childrenContentChanged
          { (parentItem mode owner (unparentItem mode w oldItem).2 item).2 with
            children := (parentItem mode owner (unparentItem mode w oldItem).2 item).2.children.set
              index.toNat item }).children
          = w.children.take index.toNat ++ item :: w.children.drop (index.toNat + 1) := by
        simp only [childrenContentChanged, parentItem_children, unparentItem_children]
        exact hset
      refine ⟨?_, ?_⟩
      · rw [hch]
        apply List.nodup_append.mpr
        refine ⟨n1, List.nodup_cons.mpr ⟨fun hx => hf (hsub2 _ hx), n2c.2⟩, ?_⟩
        intro a ha hb
        rcases List.mem_cons.mp hb with h1 | h1
        · exact hf (h1 ▸ hsub1 a ha)
        · exact n3 ha (List.mem_cons_of_mem _ h1)
      · intro x hx hk
        rw [hch] at hx
        simp only [childrenContentChanged]
        rw [parentItem_parent mode owner _ item hm x, unparentItem_parent mode w oldItem hm x]
        by_cases hxi : x = item
        · rw [if_pos ⟨hxi ▸ hk, hxi⟩]
        · rw [if_neg (fun hc => hxi hc.2)]
          have hxin : x ∈ w.children.take index.toNat ∨ x ∈ w.children.drop (index.toNat + 1) := by
            rcases List.mem_append.mp hx with h1 | h1
            · exact Or.inl h1
            · rcases List.mem_cons.mp h1 with h2 | h2
              · exact absurd h2 hxi
              · exact Or.inr h2
          have hne : x ≠ oldItem := by
            intro he
            rcases hxin with h1 | h1
            · exact n3 h1 (he ▸ List.mem_cons_self _ _)
            · exact n2c.1 (he ▸ h1)
          rw [if_neg (fun hc => hne hc.2)]
          rcases hxin with h1 | h1
          · exact hw.2 x (hsub1 x h1) hk
          · exact hw.2 x (hsub2 x h1) hk
    · cases ho

theorem parented_run (mode : ChildrenMode) (owner : Nat)
    (hm : mode = ChildrenMode.State ∨ mode = ChildrenMode.StateOrTransition)
    (ops : List ListOp) (w : Objects) (hw : Parented owner w)
    (ha : admissible mode owner w ops = true) :
    ∃ w1, runOps mode owner w ops = some w1 ∧ Parented owner w1 := by
  induction ops generalizing w with
  | nil => exact ⟨w, rfl, hw⟩
  | cons op rest ih =>
    simp only [admissible, Bool.and_eq_true] at ha
    obtain ⟨hfresh, hrest⟩ := ha
    cases hap : applyOp mode owner w op with
    | none => simp [hap] at hrest
    | some w1 =>
      simp only [hap] at hrest
      have hw1 : Parented owner w1 := by
        cases op with
        | append item =>
          simp only [applyOp, Option.some.injEq] at hap
          subst hap
          exact parented_append mode owner w item hm hw (by simpa [ListOp.fresh] using hfresh)
        | replace index item =>
          exact parented_replace mode owner w w1 index item hm hw
            (by simpa [ListOp.fresh] using hfresh) hap
        | removeLast => exact parented_removeLast mode owner w w1 hm hw hap
        | clear =>
          simp only [applyOp, Option.some.injEq] at hap
          subst hap
          exact parented_clear mode owner w
      obtain ⟨w2, hrun, hp⟩ := ih w1 hw1 hrest
      exact ⟨w2, by simp [runOps, hap, hrun], hp⟩

/-- C18: in mode `State` or `StateOrTransition`, every sequence of `append`, `replace`,
`removeLast` and `clear` on the empty children list that can be carried out and only
brings in items that are not in the list at that point runs to its end, and then every
state in the list has the owner of the list as its parent. -/
theorem children_states_parented (mode : ChildrenMode) (owner : Nat)
    (parent : Item → Option Nat) (ops : List ListOp)
    (hm : mode = ChildrenMode.State ∨ mode = ChildrenMode.StateOrTransition)
    (ha : admissible mode owner (emptyList parent) ops = true) :
    ∃ w, runOps mode owner (emptyList parent) ops = some w ∧
      ∀ item ∈ w.children, item.kind = ObjectKind.state → w.parent item = some owner := by
  obtain ⟨w, hrun, hp⟩ := parented_run mode owner hm ops (emptyList parent)
    ⟨List.nodup_nil, fun item hi => absurd hi (List.not_mem_nil item)⟩ ha
  exact ⟨w, hrun, hp.2⟩

theorem children_states_parented_witness :
    admissible ChildrenMode.StateOrTransition 7 (emptyList (fun _ => none)) sampleListOps
      = true ∧
    (runOps ChildrenMode.StateOrTransition 7 (emptyList (fun _ => none)) sampleListOps).map
        (fun w => (w.children, w.children.map w.parent, w.parent (sampleStateItem 1)))
      = some ([sampleStateItem 4, sampleTransitionItem 2, sampleStateItem 3,
          { id := 5, kind := ObjectKind.other }], [some 7, none, some 7, none], none) ∧
    ∃ w, runOps ChildrenMode.StateOrTransition 7 (emptyList (fun _ => none)) sampleListOps
        = some w ∧
      ∀ item ∈ w.children, item.kind = ObjectKind.state → w.parent item = some 7 :=
  ⟨by decide, by decide,
    children_states_parented ChildrenMode.StateOrTransition 7 (fun _ => none) sampleListOps
      (Or.inr rfl) (by decide)⟩

end StateMachineQml
